import Mathlib

/-!
# The Lua/Go value bridge of `pkg/scripting/helpers.go`

A shallow embedding of `luaToGo`, `luaTableToGo`, `goToLua`, `goSliceToLua`,
`goMapToLua`, `toString` and `contextWithTimeout`, together with the parts of the
`gopher-lua` table type they call (`ForEach`, `Len`, `RawGetInt`, `RawSetInt`,
`RawSetString`, `RawSetH`) and the reads `RawGet` and `RawGetString`.

Numbers.  A Lua number is a Go `float64`.  A finite `float64` is modelled by the
rational number it denotes; the two signed zeros are identified, because every
operation used here (`==`, conversion to `int64`, printing of an integral value)
treats them alike.  The conversions `int64(f)` and `float64(n)` are modelled
exactly: the first truncates towards zero and is implementation-dependent when
the truncated value does not fit, the second rounds to the nearest value with a
53-bit significand, ties to even.
-/

namespace Scripting

/-! ## Numbers -/

/-- Go leaves the result of converting an unrepresentable floating-point value
to an integer type to the implementation.  The two 64-bit targets differ:
`amd64` yields the "integer indefinite" value `-2^63` for every such input,
`arm64` saturates (and maps NaN to `0`). -/
inductive Arch
  | amd64
  | arm64
deriving DecidableEq

/-- A Go `float64` value. -/
inductive Float64
  | fin (q : ℚ)
  | posInf
  | negInf
  | nan
deriving DecidableEq

/-- The rationals that are finite binary64 values: `m * 2^(k - j)` with a
significand below `2^53` and an exponent between `-1074` and `971`. -/
def IsBinary64 (q : ℚ) : Prop :=
  ∃ (m : ℤ) (k j : ℕ), |m| < 2 ^ 53 ∧ k ≤ 971 ∧ j ≤ 1074 ∧ q * 2 ^ j = m * 2 ^ k

/-- The values of the model that a `float64` variable can hold. -/
def Float64.Valid : Float64 → Prop
  | .fin q => IsBinary64 q
  | _ => True

/-- Smallest `int64`. -/
def minInt64 : ℤ := -9223372036854775808

/-- Largest `int64`. -/
def maxInt64 : ℤ := 9223372036854775807

/-- Go's `==` on `float64`: NaN is unequal to everything, itself included. -/
def Float64.eq : Float64 → Float64 → Bool
  | .nan, _ => false
  | _, .nan => false
  | a, b => decide (a = b)

/-- Truncation of a rational towards zero. -/
def truncQ (q : ℚ) : ℤ := Int.tdiv q.num q.den

/-- Go's `int64(f)` (and `int(f)`, `int` being 64 bits wide on both targets). -/
def Float64.toInt64 (a : Arch) : Float64 → ℤ
  | .fin q =>
    let t := truncQ q
    if minInt64 ≤ t ∧ t ≤ maxInt64 then t
    else match a with
      | .amd64 => minInt64
      | .arm64 => if t < 0 then minInt64 else maxInt64
  | .posInf => match a with
      | .amd64 => minInt64
      | .arm64 => maxInt64
  | .negInf => minInt64
  | .nan => match a with
      | .amd64 => minInt64
      | .arm64 => 0

/-- Rounding of a natural number to a 53-bit significand, ties to even. -/
def roundNat53 (a : ℕ) : ℕ :=
  let s := Nat.log2 a - 52
  let q := a / 2 ^ s
  let r := a % 2 ^ s
  if 2 ^ s < 2 * r ∨ (2 * r = 2 ^ s ∧ q % 2 = 1) then (q + 1) * 2 ^ s else q * 2 ^ s

/-- Rounding of an integer to the nearest binary64 value. -/
def roundInt53 (n : ℤ) : ℤ :=
  if n < 0 then -(roundNat53 n.natAbs : ℤ) else (roundNat53 n.natAbs : ℤ)

/-- Go's `float64(n)` for an integer `n` of 64 bits or fewer. -/
def Float64.ofInt64 (n : ℤ) : Float64 := .fin (roundInt53 n : ℚ)

/-- The test `isInteger` of gopher-lua, which is also the test of `luaToGo`:
`float64(v) == float64(int64(v))`. -/
def isInteger (a : Arch) (v : Float64) : Bool :=
  Float64.eq v (Float64.ofInt64 (v.toInt64 a))

/-! ## Go values -/

/-- A Go value of type `interface{}`.  The first eleven constructors are the
dynamic types `goToLua` has a case for.  The last two are all other types, seen
through what the default arm does with them: `foreignTree data parsed` is a value
that `json.Marshal` renders as `data` and `json.Unmarshal` decodes to `parsed`;
`foreignText data` is a value for which marshalling fails (`none`) or yields
`data` that does not decode. -/
inductive GoValue
  | nil
  | bool (b : Bool)
  | int (n : ℤ)
  | int32 (n : ℤ)
  | int64 (n : ℤ)
  | float32 (x : Float64)
  | float64 (x : Float64)
  | string (s : String)
  | slice (xs : List GoValue)
  | map (m : List (String × GoValue))
  | mapSlice (ms : List (List (String × GoValue)))
  | foreignTree (data : String) (parsed : GoValue)
  | foreignText (data : Option String)

/-- What the Go toolchain and libraries fix and the code does not: the target
architecture, the text `fmt.Sprint` prints for a `float64`, and the result of
`json.Marshal` on a value of one of the eleven standard dynamic types (`none`
when it returns an error). -/
structure Env where
  arch : Arch
  sprintFloat : Float64 → String
  jsonText : GoValue → Option String

/-- The rendering of a pointer by the `%p` verb. -/
def hexAddr (addr : ℕ) : String := "0x" ++ String.mk (Nat.toDigits 16 addr)

/-- gopher-lua's `LNumber.String`:
`if isInteger(nm) { return fmt.Sprint(int64(nm)) }; return fmt.Sprint(float64(nm))`. -/
def LNumber.String (E : Env) (nm : Float64) : String :=
  if isInteger E.arch nm then toString (nm.toInt64 E.arch) else E.sprintFloat nm

/-! ## Lua values -/

/-- The Lua kinds that are Go pointers or channels. -/
inductive RefKind
  | table
  | function
  | userdata
  | thread
  | channel
deriving DecidableEq

/-- The word gopher-lua prints before the address of a reference value. -/
def RefKind.name : RefKind → String
  | .table => "table"
  | .function => "function"
  | .userdata => "userdata"
  | .thread => "thread"
  | .channel => "channel"

/-- A key of the hash part of a table (Go type `LValue`, never `LNil`).  The code
looks only at a key's dynamic type and at its `String()`; for a reference kind
both are fixed by the kind and the address, which is all that is kept of it. -/
inductive LKey
  | bool (b : Bool)
  | number (x : Float64)
  | str (s : String)
  | ref (kind : RefKind) (addr : ℕ)
deriving DecidableEq

/-- The method `String()` of a key. -/
def LKey.String (E : Env) : LKey → String
  | .bool b => if b then "true" else "false"
  | .number x => LNumber.String E x
  | .str s => s
  | .ref kind addr => kind.name ++ ": " ++ hexAddr addr

/-- The type assertion `key.(lua.LNumber)`. -/
def LKey.asNumber : LKey → Option Float64
  | .number x => some x
  | _ => none

/-- Equality of two keys as keys of a Go map: interface equality, which on
numbers is the floating-point `==`. -/
def LKey.goEq : LKey → LKey → Bool
  | .number x, .number y => Float64.eq x y
  | a, b => decide (a = b)

mutual
/-- gopher-lua's `LValue`.  `other` stands for the kinds `luaToGo` has no case
for: functions, userdata, threads and channels. -/
inductive LValue
  | nil
  | bool (b : Bool)
  | number (x : Float64)
  | str (s : String)
  | table (t : LTable)
  | other (kind : RefKind) (addr : ℕ)
/-- gopher-lua's `LTable`: the fields `array`, `strdict` and `dict`.  A Go map is
kept as the list of its entries in the order in which this run iterates them. -/
inductive LTable
  | mk (array : List LValue) (strdict : List (String × LValue)) (dict : List (LKey × LValue))
end

/-- The test `v == LNil`. -/
def LValue.isNil : LValue → Bool
  | .nil => true
  | _ => false

/-- Field `array`. -/
def LTable.array : LTable → List LValue
  | .mk a _ _ => a

/-- Field `strdict`. -/
def LTable.strdict : LTable → List (String × LValue)
  | .mk _ s _ => s

/-- Field `dict`. -/
def LTable.dict : LTable → List (LKey × LValue)
  | .mk _ _ d => d

/-- A table as `L.NewTable()` returns it. -/
def LTable.empty : LTable := .mk [] [] []

/-- gopher-lua's `MaxArrayIndex` (default of `config.go`). -/
def MaxArrayIndex : ℕ := 67108864

/-! ## Go maps -/

/-- The assignment `m[k] = v` on a Go map kept as the list of its entries: the
entry of an equal key is replaced, otherwise a new entry is added. -/
def assocSet {κ β : Type} (eqv : κ → κ → Bool) : List (κ × β) → κ → β → List (κ × β)
  | [], k, v => [(k, v)]
  | (k', v') :: rest, k, v =>
    if eqv k' k then (k, v) :: rest else (k', v') :: assocSet eqv rest k v

/-- The statement `delete(m, k)`. -/
def assocDelete {κ β : Type} (eqv : κ → κ → Bool) (m : List (κ × β)) (k : κ) : List (κ × β) :=
  m.filter (fun p => !(eqv p.1 k))

/-- The read `m[k]` with its presence flag. -/
def assocGet {κ β : Type} (eqv : κ → κ → Bool) : List (κ × β) → κ → Option β
  | [], _ => none
  | (k', v') :: rest, k => if eqv k' k then some v' else assocGet eqv rest k

/-- Equality of Go strings. -/
def strEq (a b : String) : Bool := decide (a = b)

/-! ## The table methods of gopher-lua that the bridge calls -/

/-- The array loop of `ForEach`:
`for i, v := range tb.array { if v != LNil { cb(LNumber(i+1), v) } }`,
as the list of the calls made, `i` counted from the given start.  The key
`LNumber(i+1)` is exact: a Go slice has far fewer than `2^53` elements. -/
def arrayEntries : ℕ → List LValue → List (LKey × LValue)
  | _, [] => []
  | i, v :: vs =>
    if v.isNil then arrayEntries (i + 1) vs
    else (LKey.number (.fin ((i + 1 : ℕ) : ℚ)), v) :: arrayEntries (i + 1) vs

/-- The `strdict` loop of `ForEach`:
`for k, v := range tb.strdict { if v != LNil { cb(LString(k), v) } }`. -/
def strdictEntries : List (String × LValue) → List (LKey × LValue)
  | [] => []
  | (k, v) :: rest =>
    if v.isNil then strdictEntries rest else (LKey.str k, v) :: strdictEntries rest

/-- The `dict` loop of `ForEach`:
`for k, v := range tb.dict { if v != LNil { cb(k, v) } }`. -/
def dictEntries : List (LKey × LValue) → List (LKey × LValue)
  | [] => []
  | (k, v) :: rest =>
    if v.isNil then dictEntries rest else (k, v) :: dictEntries rest

/-- gopher-lua's `(*LTable).ForEach`, as the list of the pairs the callback is
called with, in call order: array part, then `strdict`, then `dict`. -/
def LTable.ForEach (t : LTable) : List (LKey × LValue) :=
  arrayEntries 0 t.array ++ (strdictEntries t.strdict ++ dictEntries t.dict)

/-- The loop of `Len`, `i` running from the given bound down to `0`:
`lv := tb.array[i]; if prev == LNil && lv != LNil { return i + 1 }; prev = lv`,
and `return 0` after the loop.  `prev` starts as `LNil` and is only ever
assigned a value that was just found equal to `LNil`, so the first conjunct
always holds. -/
def lenLoop (array : List LValue) : ℕ → ℕ
  | 0 => 0
  | i + 1 => if (array.getD i LValue.nil).isNil then lenLoop array i else i + 1

/-- gopher-lua's `(*LTable).Len`: the position of the last non-nil element of
the array part. -/
def LTable.Len (t : LTable) : ℕ := lenLoop t.array t.array.length

/-- gopher-lua's `(*LTable).RawGetInt`, which reads the array part only:
`index := key - 1; if index >= len(tb.array) || index < 0 { return LNil };
return tb.array[index]`. -/
def LTable.RawGetInt (t : LTable) (key : ℤ) : LValue :=
  if key - 1 < 0 ∨ (t.array.length : ℤ) ≤ key - 1 then LValue.nil
  else t.array.getD (key - 1).toNat LValue.nil

/-- gopher-lua's `(*LTable).RawSetString`: `delete(tb.strdict, key)` for a nil
value, `tb.strdict[key] = value` otherwise. -/
def LTable.RawSetString (t : LTable) (key : String) (value : LValue) : LTable :=
  if value.isNil then .mk t.array (assocDelete strEq t.strdict key) t.dict
  else .mk t.array (assocSet strEq t.strdict key value) t.dict

/-- gopher-lua's `(*LTable).RawSetH`: a string key goes to `RawSetString`; for
any other key `delete(tb.dict, key)` for a nil value, `tb.dict[key] = value`
otherwise. -/
def LTable.RawSetH (t : LTable) (key : LKey) (value : LValue) : LTable :=
  match key with
  | .str s => t.RawSetString s value
  | _ =>
    if value.isNil then .mk t.array t.strdict (assocDelete LKey.goEq t.dict key)
    else .mk t.array t.strdict (assocSet LKey.goEq t.dict key value)

/-- The array branch shared by `RawSetInt` and `RawSet`: append at the end, pad
with `LNil` up to the index, or overwrite in place. -/
def arrayStore (array : List LValue) (index : ℕ) (value : LValue) : List LValue :=
  if index = array.length then array ++ [value]
  else if array.length < index then
    array ++ (List.replicate (index - array.length) LValue.nil ++ [value])
  else array.set index value

/-- gopher-lua's `(*LTable).RawSetInt`:
`if key < 1 || key >= MaxArrayIndex { tb.RawSetH(LNumber(key), value); return }`,
then the array branch at `index := key - 1`. -/
def LTable.RawSetInt (t : LTable) (key : ℤ) (value : LValue) : LTable :=
  if key < 1 ∨ (MaxArrayIndex : ℤ) ≤ key then
    t.RawSetH (LKey.number (Float64.ofInt64 key)) value
  else .mk (arrayStore t.array (key - 1).toNat value) t.strdict t.dict

/-- gopher-lua's `isArrayKey`: an integral number `v` with `0 < v` and
`v < MaxArrayIndex` (the bound by the largest `int` is implied). -/
def isArrayKey (a : Arch) (v : Float64) : Bool :=
  isInteger a v && decide (0 < v.toInt64 a) && decide (v.toInt64 a < (MaxArrayIndex : ℤ))

/-- gopher-lua's `(*LTable).RawSet`, the store the interpreter uses for
`t[k] = v`: an array key goes to the array part, a string to `RawSetString`,
anything else to `RawSetH`. -/
def LTable.RawSet (a : Arch) (t : LTable) (key : LKey) (value : LValue) : LTable :=
  match key with
  | .number v =>
    if isArrayKey a v then
      .mk (arrayStore t.array (v.toInt64 a - 1).toNat value) t.strdict t.dict
    else t.RawSetH key value
  | .str s => t.RawSetString s value
  | _ => t.RawSetH key value

/-! ## `luaToGo` and `luaTableToGo` -/

/-- The callback of the first `ForEach` of `luaTableToGo`, on the pair
`(isArray, maxN)`:
`if num, ok := key.(lua.LNumber); ok { n := int(num); if n > maxN { maxN = n } }
else { isArray = false }`. -/
def scanStep (E : Env) (s : Bool × ℤ) (key : LKey) : Bool × ℤ :=
  match key.asNumber with
  | some num =>
    let n := num.toInt64 E.arch
    if s.2 < n then (s.1, n) else s
  | none => (false, s.2)

/-- The first `ForEach` of `luaTableToGo`, from `isArray := true; maxN := 0`. -/
def scanKeys (E : Env) (t : LTable) : Bool × ℤ :=
  t.ForEach.foldl (fun s kv => scanStep E s kv.1) (true, 0)

/-- The test `isArray && maxN > 0 && tbl.Len() == maxN`. -/
def isSequence (E : Env) (t : LTable) : Bool :=
  (scanKeys E t).1 && decide (0 < (scanKeys E t).2) && decide ((t.Len : ℤ) = (scanKeys E t).2)

/-- The callback of the second `ForEach`, the value already converted:
`m[key.String()] = luaToGo(value)`. -/
def mapStep (E : Env) (m : List (String × GoValue)) (kv : LKey × GoValue) :
    List (String × GoValue) :=
  assocSet strEq m (kv.1.String E) kv.2

mutual
/-- The function `luaToGo` of `helpers.go`. -/
def luaToGo (E : Env) : LValue → GoValue
  | .bool v => .bool v
  | .number v =>
    if Float64.eq v (Float64.ofInt64 (v.toInt64 E.arch)) then .int64 (v.toInt64 E.arch)
    else .float64 v
  | .str v => .string v
  | .table v => luaTableToGo E v
  | .nil => .nil
  | .other kind addr => .string (kind.name ++ ": " ++ hexAddr addr)
/-- The function `luaTableToGo` of `helpers.go`.  The recursion is arranged over
the three parts of the table: `luaToGoList` converts the array part, so that
`arr[i-1] = luaToGo(tbl.RawGetInt(i))` is the `i-1`-th converted element (or the
conversion of `LNil` past the end), and the three `...Conv` functions list the
calls of the second `ForEach` with the value converted.  The theorem
`luaTableToGo_eq` restates the result in the shape of the source. -/
def luaTableToGo (E : Env) : LTable → GoValue
  | .mk array strdict dict =>
    if isSequence E (.mk array strdict dict) then
      .slice ((List.range (scanKeys E (.mk array strdict dict)).2.toNat).map
        (fun i => (luaToGoList E array).getD i GoValue.nil))
    else
      .map ((arrayConv E 0 array ++ (strdictConv E strdict ++ dictConv E dict)).foldl
        (mapStep E) [])
/-- The conversion of every element of the array part. -/
def luaToGoList (E : Env) : List LValue → List GoValue
  | [] => []
  | v :: vs => luaToGo E v :: luaToGoList E vs
/-- The calls of `ForEach` on the array part, values converted. -/
def arrayConv (E : Env) : ℕ → List LValue → List (LKey × GoValue)
  | _, [] => []
  | i, v :: vs =>
    if v.isNil then arrayConv E (i + 1) vs
    else (LKey.number (.fin ((i + 1 : ℕ) : ℚ)), luaToGo E v) :: arrayConv E (i + 1) vs
/-- The calls of `ForEach` on `strdict`, values converted. -/
def strdictConv (E : Env) : List (String × LValue) → List (LKey × GoValue)
  | [] => []
  | (k, v) :: rest =>
    if v.isNil then strdictConv E rest else (LKey.str k, luaToGo E v) :: strdictConv E rest
/-- The calls of `ForEach` on `dict`, values converted. -/
def dictConv (E : Env) : List (LKey × LValue) → List (LKey × GoValue)
  | [] => []
  | (k, v) :: rest =>
    if v.isNil then dictConv E rest else (k, luaToGo E v) :: dictConv E rest
end

/-! ## `goToLua`, `goSliceToLua`, `goMapToLua`, `toString` -/

/-- The call `json.Marshal(v)`: the recorded outcome for a value of a foreign
type, the library's rendering otherwise. -/
def jsonMarshal (E : Env) : GoValue → Option String
  | .foreignTree data _ => some data
  | .foreignText data => data
  | v => E.jsonText v

/-- The function `toString` of `helpers.go`. -/
def toString (E : Env) (v : GoValue) : String :=
  match v with
  | .string s => s
  | _ =>
    match jsonMarshal E v with
    | none => "<error>"
    | some data => data

mutual
/-- The function `goToLua` of `helpers.go`.  The created tables come from
`L.NewTable()`, which is all the state `L` is used for. -/
def goToLua (E : Env) : GoValue → LValue
  | .nil => .nil
  | .bool v => .bool v
  | .int v => .number (Float64.ofInt64 v)
  | .int32 v => .number (Float64.ofInt64 v)
  | .int64 v => .number (Float64.ofInt64 v)
  | .float32 v => .number v
  | .float64 v => .number v
  | .string v => .str v
  | .slice v => .table (goSliceLoop E LTable.empty 0 v)
  | .map v => .table (goMapLoop E LTable.empty v)
  | .mapSlice v => .table (goMapSliceLoop E LTable.empty 0 v)
  | .foreignTree _ parsed => goToLua E parsed
  | .foreignText data => .str (toString E (.foreignText data))
/-- The loop of `goSliceToLua`, from index `i` on:
`for i, v := range slice { tbl.RawSetInt(i+1, goToLua(L, v)) }`. -/
def goSliceLoop (E : Env) : LTable → ℕ → List GoValue → LTable
  | tbl, _, [] => tbl
  | tbl, i, v :: rest =>
    goSliceLoop E (tbl.RawSetInt ((i : ℤ) + 1) (goToLua E v)) (i + 1) rest
/-- The loop of `goMapToLua`:
`for k, v := range m { tbl.RawSetString(k, goToLua(L, v)) }`. -/
def goMapLoop (E : Env) : LTable → List (String × GoValue) → LTable
  | tbl, [] => tbl
  | tbl, (k, v) :: rest => goMapLoop E (tbl.RawSetString k (goToLua E v)) rest
/-- The loop of the `[]map[string]interface{}` case of `goToLua`:
`for i, item := range v { tbl.RawSetInt(i+1, goMapToLua(L, item)) }`. -/
def goMapSliceLoop (E : Env) : LTable → ℕ → List (List (String × GoValue)) → LTable
  | tbl, _, [] => tbl
  | tbl, i, item :: rest =>
    goMapSliceLoop E
      (tbl.RawSetInt ((i : ℤ) + 1) (.table (goMapLoop E LTable.empty item))) (i + 1) rest
end

/-- The function `goSliceToLua` of `helpers.go`: the loop on a new table. -/
def goSliceToLua (E : Env) (slice : List GoValue) : LTable :=
  goSliceLoop E LTable.empty 0 slice

/-- The function `goMapToLua` of `helpers.go`: the loop on a new table. -/
def goMapToLua (E : Env) (m : List (String × GoValue)) : LTable :=
  goMapLoop E LTable.empty m

/-! ## The closed set of host values -/

/-- The values `luaToGo` is meant to produce: `nil`, `bool`, `int64`, `float64`,
`string`, a slice of such values, or a string-keyed map of such values. -/
inductive IsHostValue : GoValue → Prop
  | nil : IsHostValue GoValue.nil
  | bool (b : Bool) : IsHostValue (GoValue.bool b)
  | int64 (n : ℤ) : IsHostValue (GoValue.int64 n)
  | float64 (x : Float64) : IsHostValue (GoValue.float64 x)
  | string (s : String) : IsHostValue (GoValue.string s)
  | slice (xs : List GoValue) (h : ∀ x ∈ xs, IsHostValue x) : IsHostValue (GoValue.slice xs)
  | map (m : List (String × GoValue)) (h : ∀ p ∈ m, IsHostValue p.2) :
      IsHostValue (GoValue.map m)

/-! ## The representation invariant of a table -/

/-- The invariant of gopher-lua's tables that the shape decision relies on: a
number that `isArrayKey` accepts is stored in the array part, never in `dict`.
`RawSet`, `RawSetInt` and `RawSetString`, the stores the interpreter uses, keep
it (`RawSet_wf`, `RawSetInt_wf`, `RawSetString_wf`). -/
def LTable.WF (a : Arch) (t : LTable) : Prop :=
  ∀ kv ∈ t.dict, ∀ x : Float64, kv.1 = LKey.number x → isArrayKey a x = false

/-- gopher-lua's `(*LTable).Append`, the store behind `table.insert(t, v)`: a nil
value is ignored; the value is appended to the array part when that is empty or
ends in a non-nil element, and otherwise written just after the last non-nil
element.  It applies no bound to the length of the array part. -/
def LTable.Append (t : LTable) (value : LValue) : LTable :=
  if value.isNil then t
  else if t.array.length = 0 ∨ (t.array.getD (t.array.length - 1) LValue.nil).isNil = false then
    .mk (t.array ++ [value]) t.strdict t.dict
  else .mk (t.array.set (lenLoop t.array (t.array.length - 1)) value) t.strdict t.dict

/-- The table holding `true` at each of the keys `1..n`, all in the array part:
the result of `n` calls of `table.insert(t, true)` on a new table. -/
def fullTable (n : ℕ) : LTable := .mk (List.replicate n (LValue.bool true)) [] []

/-- The table holding `true` at each of the keys `1..n+1`, the last one in
`dict`: the result of `t[n+1] = true` on `fullTable n` when `n + 1` is not below
`MaxArrayIndex`. -/
def spillTable (n : ℕ) : LTable :=
  .mk (List.replicate n (LValue.bool true)) []
    [(LKey.number (.fin ((n + 1 : ℕ) : ℚ)), LValue.bool true)]

/-! ## Reading a table -/

/-- gopher-lua's `(*LTable).RawGetString`: the entry of `strdict`, or `LNil`. -/
def LTable.RawGetString (t : LTable) (key : String) : LValue :=
  match assocGet strEq t.strdict key with
  | some v => v
  | none => LValue.nil

/-- gopher-lua's `(*LTable).RawGet`, the read behind `t[k]`: an array key reads
the array part (`LNil` past its end), a string reads `strdict`, every other key
reads `dict`. -/
def LTable.RawGet (a : Arch) (t : LTable) (key : LKey) : LValue :=
  match key with
  | .number v =>
    if isArrayKey a v then
      if (t.array.length : ℤ) ≤ v.toInt64 a - 1 then LValue.nil
      else t.array.getD (v.toInt64 a - 1).toNat LValue.nil
    else
      match assocGet LKey.goEq t.dict key with
      | some x => x
      | none => LValue.nil
  | .str s => t.RawGetString s
  | _ =>
    match assocGet LKey.goEq t.dict key with
    | some x => x
    | none => LValue.nil

/-! ## The default arm of `goToLua` -/

/-- The values `json.Unmarshal` stores in an `interface{}`: nil, `bool`,
`float64`, `string`, `[]interface{}` and `map[string]interface{}` of such
values. -/
inductive IsJSONTree : GoValue → Prop
  | nil : IsJSONTree GoValue.nil
  | bool (b : Bool) : IsJSONTree (GoValue.bool b)
  | float64 (x : Float64) : IsJSONTree (GoValue.float64 x)
  | string (s : String) : IsJSONTree (GoValue.string s)
  | slice (xs : List GoValue) (h : ∀ x ∈ xs, IsJSONTree x) : IsJSONTree (GoValue.slice xs)
  | map (m : List (String × GoValue)) (h : ∀ p ∈ m, IsJSONTree p.2) :
      IsJSONTree (GoValue.map m)

/-- The dynamic types without a case in the switch of `goToLua`. -/
def GoValue.isForeign : GoValue → Bool
  | .foreignTree _ _ => true
  | .foreignText _ => true
  | _ => false

mutual
/-- The depth of the calls of `goToLua` that the conversion of a host value
makes: one for the value itself, and below it the deepest of the calls for its
elements, its values or, for a value of a foreign type, its decoded tree. -/
def GoValue.depth : GoValue → ℕ
  | .slice v => 1 + depthSlice v
  | .map v => 1 + depthMap v
  | .mapSlice v => 1 + depthMaps v
  | .foreignTree _ parsed => 1 + GoValue.depth parsed
  | _ => 1
/-- The deepest call made by the loop of `goSliceToLua`. -/
def depthSlice : List GoValue → ℕ
  | [] => 0
  | v :: rest => max (GoValue.depth v) (depthSlice rest)
/-- The deepest call made by the loop of `goMapToLua`. -/
def depthMap : List (String × GoValue) → ℕ
  | [] => 0
  | (_, v) :: rest => max (GoValue.depth v) (depthMap rest)
/-- The deepest call made by the loop of the `[]map[string]interface{}` case. -/
def depthMaps : List (List (String × GoValue)) → ℕ
  | [] => 0
  | item :: rest => max (depthMap item) (depthMaps rest)
end

mutual
/-- The number of values of a foreign type in a host value: the value itself,
or those among its elements and values; what such a value decodes to is not
looked into. -/
def opaqueValues : GoValue → ℕ
  | .slice v => opaqueSlice v
  | .map v => opaqueMap v
  | .mapSlice v => opaqueMaps v
  | .foreignTree _ _ => 1
  | .foreignText _ => 1
  | _ => 0
/-- The values of a foreign type among the elements of a slice. -/
def opaqueSlice : List GoValue → ℕ
  | [] => 0
  | v :: rest => opaqueValues v + opaqueSlice rest
/-- The values of a foreign type among the values of a map. -/
def opaqueMap : List (String × GoValue) → ℕ
  | [] => 0
  | (_, v) :: rest => opaqueValues v + opaqueMap rest
/-- The values of a foreign type in a slice of maps. -/
def opaqueMaps : List (List (String × GoValue)) → ℕ
  | [] => 0
  | item :: rest => opaqueMap item + opaqueMaps rest
end

/-- The host values in which every value of a foreign type whose JSON decodes
has decoded to what `json.Unmarshal` stores in an `interface{}`, a tree of nil,
`bool`, `float64`, `string`, `[]interface{}` and `map[string]interface{}`. -/
inductive DecodedTrees : GoValue → Prop
  | nil : DecodedTrees GoValue.nil
  | bool (b : Bool) : DecodedTrees (GoValue.bool b)
  | int (n : ℤ) : DecodedTrees (GoValue.int n)
  | int32 (n : ℤ) : DecodedTrees (GoValue.int32 n)
  | int64 (n : ℤ) : DecodedTrees (GoValue.int64 n)
  | float32 (x : Float64) : DecodedTrees (GoValue.float32 x)
  | float64 (x : Float64) : DecodedTrees (GoValue.float64 x)
  | string (s : String) : DecodedTrees (GoValue.string s)
  | slice (xs : List GoValue) (h : ∀ x ∈ xs, DecodedTrees x) : DecodedTrees (GoValue.slice xs)
  | map (m : List (String × GoValue)) (h : ∀ p ∈ m, DecodedTrees p.2) :
      DecodedTrees (GoValue.map m)
  | mapSlice (ms : List (List (String × GoValue)))
      (h : ∀ m ∈ ms, ∀ p ∈ m, DecodedTrees p.2) : DecodedTrees (GoValue.mapSlice ms)
  | foreignTree (data : String) (T : GoValue) (h : IsJSONTree T) :
      DecodedTrees (GoValue.foreignTree data T)
  | foreignText (data : Option String) : DecodedTrees (GoValue.foreignText data)

/-- The loop of `goSliceToLua` run with `call` for its calls of `goToLua`; a
call gives the Lua value, the number of entries into the default arm it made,
and the number of those made while an earlier entry was still under way, or
`none` when it did not return.  The loop adds the counts up. -/
def goSliceLoopRun (call : GoValue → Option (LValue × ℕ × ℕ)) :
    LTable → ℕ → List GoValue → Option (LTable × ℕ × ℕ)
  | tbl, _, [] => some (tbl, 0, 0)
  | tbl, i, v :: rest =>
    match call v with
    | none => none
    | some (x, c, d) =>
      match goSliceLoopRun call (tbl.RawSetInt ((i : ℤ) + 1) x) (i + 1) rest with
      | none => none
      | some (t, c2, d2) => some (t, c + c2, d + d2)

/-- The loop of `goMapToLua` run with `call` for its calls of `goToLua`. -/
def goMapLoopRun (call : GoValue → Option (LValue × ℕ × ℕ)) :
    LTable → List (String × GoValue) → Option (LTable × ℕ × ℕ)
  | tbl, [] => some (tbl, 0, 0)
  | tbl, (k, v) :: rest =>
    match call v with
    | none => none
    | some (x, c, d) =>
      match goMapLoopRun call (tbl.RawSetString k x) rest with
      | none => none
      | some (t, c2, d2) => some (t, c + c2, d + d2)

/-- The loop of the `[]map[string]interface{}` case run with `call` for the
calls of `goToLua` that `goMapToLua` makes. -/
def goMapSliceLoopRun (call : GoValue → Option (LValue × ℕ × ℕ)) :
    LTable → ℕ → List (List (String × GoValue)) → Option (LTable × ℕ × ℕ)
  | tbl, _, [] => some (tbl, 0, 0)
  | tbl, i, item :: rest =>
    match goMapLoopRun call LTable.empty item with
    | none => none
    | some (x, c, d) =>
      match goMapSliceLoopRun call (tbl.RawSetInt ((i : ℤ) + 1) (.table x)) (i + 1) rest with
      | none => none
      | some (t, c2, d2) => some (t, c + c2, d + d2)

/-- The function `goToLua` of `helpers.go` run with at most `depth` calls on
the stack (`none` when that is not enough for it to return), with the two counts
kept: the entries into the default arm of the switch, and those of them made
while `inDefault` holds, that is from within the call `goToLua(L, parsed)` of an
earlier entry. -/
def goToLuaRun (E : Env) : ℕ → Bool → GoValue → Option (LValue × ℕ × ℕ)
  | 0, _, _ => none
  | depth + 1, inDefault, val =>
    match val with
    | .nil => some (.nil, 0, 0)
    | .bool v => some (.bool v, 0, 0)
    | .int v => some (.number (Float64.ofInt64 v), 0, 0)
    | .int32 v => some (.number (Float64.ofInt64 v), 0, 0)
    | .int64 v => some (.number (Float64.ofInt64 v), 0, 0)
    | .float32 v => some (.number v, 0, 0)
    | .float64 v => some (.number v, 0, 0)
    | .string v => some (.str v, 0, 0)
    | .slice v =>
      match goSliceLoopRun (goToLuaRun E depth inDefault) LTable.empty 0 v with
      | none => none
      | some (tbl, c, d) => some (.table tbl, c, d)
    | .map v =>
      match goMapLoopRun (goToLuaRun E depth inDefault) LTable.empty v with
      | none => none
      | some (tbl, c, d) => some (.table tbl, c, d)
    | .mapSlice v =>
      match goMapSliceLoopRun (goToLuaRun E depth inDefault) LTable.empty 0 v with
      | none => none
      | some (tbl, c, d) => some (.table tbl, c, d)
    | .foreignTree _ parsed =>
      match goToLuaRun E depth true parsed with
      | none => none
      | some (x, c, d) => some (x, c + 1, d + (if inDefault then 1 else 0))
    | .foreignText data =>
      some (.str (toString E (.foreignText data)), 1, if inDefault then 1 else 0)

/-! ## `contextWithTimeout` -/

/-- Rounding of a non-negative rational to the nearest integer, ties to even. -/
def roundHalfEven (x : ℚ) : ℤ :=
  if 1 / 2 < x - ⌊x⌋ ∨ (x - ⌊x⌋ = 1 / 2 ∧ ⌊x⌋ % 2 = 1) then ⌊x⌋ + 1 else ⌊x⌋

/-- Rounding of a rational to binary64: 53 significant bits (fewer below
`2^-1022`), ties to even, overflow to an infinity. -/
def Float64.ofRat (q : ℚ) : Float64 :=
  if q = 0 then .fin 0
  else
    let e : ℤ := max (Int.log 2 |q| - 52) (-1074)
    let r : ℚ := (roundHalfEven (|q| / (2 : ℚ) ^ e) : ℚ) * (2 : ℚ) ^ e
    if (2 : ℚ) ^ (1024 : ℕ) ≤ r then (if q < 0 then .negInf else .posInf)
    else .fin (if q < 0 then -r else r)

/-- Go's `*` on `float64`. -/
def Float64.mul : Float64 → Float64 → Float64
  | .nan, _ => .nan
  | _, .nan => .nan
  | .fin p, .fin q => Float64.ofRat (p * q)
  | .fin p, .posInf => if p = 0 then .nan else if 0 < p then .posInf else .negInf
  | .fin p, .negInf => if p = 0 then .nan else if 0 < p then .negInf else .posInf
  | .posInf, .fin q => if q = 0 then .nan else if 0 < q then .posInf else .negInf
  | .negInf, .fin q => if q = 0 then .nan else if 0 < q then .negInf else .posInf
  | .posInf, .posInf => .posInf
  | .posInf, .negInf => .negInf
  | .negInf, .posInf => .negInf
  | .negInf, .negInf => .posInf

/-- Go's `<=` on `float64` against zero. -/
def Float64.leZero : Float64 → Bool
  | .fin q => decide (q ≤ 0)
  | .negInf => true
  | _ => false

/-- The duration the watcher waits for, in nanoseconds:
`time.Duration(float64(seconds) * float64(time.Second))`, `time.Second` being
`1000000000`. -/
def timeoutDuration (a : Arch) (seconds : Float64) : ℤ :=
  (Float64.mul seconds (.fin 1000000000)).toInt64 a

/-- Whether the channel of `time.After(d)` has delivered once `elapsed`
nanoseconds have passed since the call: the timer fires as soon as `d` has
elapsed, at once when `d` is zero or negative. -/
def timeAfterReady (d : ℤ) (elapsed : ℕ) : Bool := decide (d ≤ (elapsed : ℤ))

/-- The two cases of the `select` of the watcher goroutine. -/
inductive SelectCase
  | ctxDone
  | timeAfter
deriving DecidableEq

/-- The state of the gate: whether the watcher goroutine is still blocked in
its `select`, and how often `ch` has been closed and sent on so far. -/
structure Gate where
  blocked : Bool
  closes : ℕ
  sends : ℕ
deriving DecidableEq

/-- The gate as `contextWithTimeout` returns it: `ch` made, the goroutine
started. -/
def contextWithTimeout : Gate := ⟨true, 0, 0⟩

/-- One channel of the `select` becomes ready.  A blocked watcher runs the body
of that case, `close(ch)` in both cases, and returns; a watcher that has
returned does nothing. -/
def Gate.step (g : Gate) (c : SelectCase) : Gate :=
  if g.blocked then
    match c with
    | .ctxDone => ⟨false, g.closes + 1, g.sends⟩
    | .timeAfter => ⟨false, g.closes + 1, g.sends⟩
  else g

/-- The gate after the given channels became ready, in that order. -/
def Gate.run (g : Gate) (cs : List SelectCase) : Gate := cs.foldl Gate.step g

/-- What an observer sees: a receive from `ch` returns only once `ch` is
closed, nothing being ever sent on it. -/
def Gate.fired (g : Gate) : Bool := decide (0 < g.closes)

/-- The state of the table in the loop of `goSliceToLua` once the elements `P`
have been stored: no string key; the first `MaxArrayIndex - 1` elements in the
array part; in `dict`, exactly the non-nil elements from position
`MaxArrayIndex` on, each under the number of its position. -/
def SliceInv (E : Env) (t : LTable) (P : List GoValue) : Prop :=
  t.strdict = [] ∧
  t.array = (P.take (MaxArrayIndex - 1)).map (goToLua E) ∧
  (∀ kv ∈ t.dict, ∃ j : ℕ, MaxArrayIndex ≤ j ∧ j ≤ P.length ∧
    kv.1 = LKey.number (.fin (j : ℚ)) ∧ kv.2 = goToLua E (P.getD (j - 1) GoValue.nil) ∧
    kv.2.isNil = false) ∧
  (∀ j : ℕ, MaxArrayIndex ≤ j → j ≤ P.length →
    assocGet LKey.goEq t.dict (LKey.number (.fin (j : ℚ))) =
      if (goToLua E (P.getD (j - 1) GoValue.nil)).isNil then none
      else some (goToLua E (P.getD (j - 1) GoValue.nil)))

/-! ## `getTable` -/

/-- The function `getTable` of `helpers.go`, on the value `L.Get(n)` of the
argument.  The result type `map[string]interface{}` has the nil map, `none`
here, beside the maps `luaTableToGo` makes:
`if tbl, ok := val.(*lua.LTable); ok { result := luaTableToGo(tbl);
if m, ok := result.(map[string]interface{}); ok { return m } }; return nil`. -/
def getTable (E : Env) (val : LValue) : Option (List (String × GoValue)) :=
  match val with
  | .table tbl =>
    match luaTableToGo E tbl with
    | .map m => some m
    | _ => none
  | _ => none

/-! ## Splitting a comma-separated setting (`cmd/vsp/main.go`)

A Go string is taken as the list of its characters; the functions of the Go
package `strings` are given by what they return on it. -/

/-- The separator `","`. -/
def comma : Char := Char.ofNat 44

/-- Go's `unicode.IsSpace`: the Latin-1 spaces `\t`, `\n`, `\v`, `\f`, `\r`,
the blank, U+0085 and U+00A0, and the characters with the Unicode property
White_Space beyond Latin-1. -/
def isSpace (c : Char) : Bool :=
  decide (c.toNat = 0x09) || decide (c.toNat = 0x0A) || decide (c.toNat = 0x0B) ||
  decide (c.toNat = 0x0C) || decide (c.toNat = 0x0D) || decide (c.toNat = 0x20) ||
  decide (c.toNat = 0x85) || decide (c.toNat = 0xA0) || decide (c.toNat = 0x1680) ||
  (decide (0x2000 ≤ c.toNat) && decide (c.toNat ≤ 0x200A)) ||
  decide (c.toNat = 0x2028) || decide (c.toNat = 0x2029) || decide (c.toNat = 0x202F) ||
  decide (c.toNat = 0x205F) || decide (c.toNat = 0x3000)

/-- The fields of `strings.Split(s, ",")` on the characters of `s`: what stands
before the first comma, between two commas and after the last one, so one field
more than there are commas. -/
def splitFields : List Char → List (List Char)
  | [] => [[]]
  | c :: cs =>
    if c = comma then [] :: splitFields cs
    else
      match splitFields cs with
      | [] => [[c]]
      | f :: fs => (c :: f) :: fs

/-- Go's `strings.Split(s, ",")`. -/
def stringsSplit (s : String) : List String := (splitFields s.data).map String.mk

/-- Go's `strings.TrimSpace`: the string without its leading and trailing
characters for which `unicode.IsSpace` holds. -/
def stringsTrimSpace (p : String) : String :=
  String.mk ((p.data.dropWhile isSpace).rdropWhile isSpace)

/-- The function `splitCommaSeparated` of `main.go`:
`if s == "" { return nil }`, then the loop over `strings.Split(s, ",")` that
appends every part that is not empty after `strings.TrimSpace`.  The `nil` of
the first return and an empty `result` are both the slice without elements. -/
def splitCommaSeparated (s : String) : List String :=
  if s = "" then []
  else
    (stringsSplit s).foldl
      (fun result p => if stringsTrimSpace p ≠ "" then result ++ [stringsTrimSpace p] else result)
      []

/-- The result the comment of `splitCommaSeparated` describes: the
comma-separated fields of `s`, each trimmed, those left empty dropped. -/
def trimmedFields (s : String) : List String :=
  ((stringsSplit s).map stringsTrimSpace).filter (fun p => decide (p ≠ ""))

/-! ## The choice of the authentication method (`cmd/vsp/main.go`) -/

/-- What `processCookieAuth` reads: the fields `Username` and `Password` of
`cfg`, the flags `--cookie-file` and `--cookie-string`, and the settings
`COOKIE_FILE` and `COOKIE_STRING` of viper. -/
structure AuthInput where
  Username : String
  Password : String
  flagCookieFile : String
  flagCookieString : String
  viperCookieFile : String
  viperCookieString : String

/-- What `processCookieAuth` calls outside of `main.go`: whether `os.Stat`
reports that the file does not exist, and the functions `LoadCookiesFromFile`
(`none` when it returns an error) and `ParseCookieString` of the package `adt`;
cookies are a map from name to value. -/
structure AuthWorld where
  notExist : String → Bool
  LoadCookiesFromFile : String → Option (List (String × String))
  ParseCookieString : String → List (String × String)

/-- The errors `processCookieAuth` returns, one per `fmt.Errorf`. -/
inductive AuthError
  | onlyOneMethod
  | authenticationRequired
  | cookieFileNotFound (file : String)
  | failedToLoad (file : String)
  | noCookiesInFile (file : String)
  | failedToParse
deriving DecidableEq

/-- The variable `cookieFile` of `processCookieAuth` after the look at viper:
the flag, or the setting when the flag is empty. -/
def AuthInput.cookieFile (i : AuthInput) : String :=
  if i.flagCookieFile = "" then i.viperCookieFile else i.flagCookieFile

/-- The variable `cookieString` of `processCookieAuth` after the look at
viper. -/
def AuthInput.cookieString (i : AuthInput) : String :=
  if i.flagCookieString = "" then i.viperCookieString else i.flagCookieString

/-- The counter `authMethods` of `processCookieAuth` after its three
increments. -/
def authMethods (i : AuthInput) : ℕ :=
  (if i.Username ≠ "" ∧ i.Password ≠ "" then 1 else 0) +
  (if i.cookieFile ≠ "" then 1 else 0) +
  (if i.cookieString ≠ "" then 1 else 0)

/-- The block `// Process cookie file` of `processCookieAuth`: the error it
returns, or the value of `cfg.Cookies` after it. -/
def processCookieFile (W : AuthWorld) (cookieFile : String) (cookies0 : List (String × String)) :
    Except AuthError (List (String × String)) :=
  if cookieFile ≠ "" then
    if W.notExist cookieFile then .error (.cookieFileNotFound cookieFile)
    else
      match W.LoadCookiesFromFile cookieFile with
      | none => .error (.failedToLoad cookieFile)
      | some cookies =>
        if cookies.length = 0 then .error (.noCookiesInFile cookieFile) else .ok cookies
  else .ok cookies0

/-- The block `// Process cookie string` of `processCookieAuth`. -/
def processCookieString (W : AuthWorld) (cookieString : String)
    (cookies0 : List (String × String)) : Except AuthError (List (String × String)) :=
  if cookieString ≠ "" then
    if (W.ParseCookieString cookieString).length = 0 then .error .failedToParse
    else .ok (W.ParseCookieString cookieString)
  else .ok cookies0

/-- The function `processCookieAuth` of `main.go`, `cookies0` being
`cfg.Cookies` at the call: the error returned, or `cfg.Cookies` at the
`return nil`. -/
def processCookieAuth (W : AuthWorld) (i : AuthInput) (cookies0 : List (String × String)) :
    Except AuthError (List (String × String)) :=
  if authMethods i > 1 then .error .onlyOneMethod
  else if authMethods i = 0 then .error .authenticationRequired
  else
    match processCookieFile W i.cookieFile cookies0 with
    | .error e => .error e
    | .ok cookies1 => processCookieString W i.cookieString cookies1

/-! ## Reading a server entry of `.mcp.json` (`cmd/vsp/config_cmd.go`) -/

/-- The fields of `config.SystemConfig` that `parseServerArgs` fills. -/
structure SystemConfig where
  URL : String
  User : String
  Password : String
  Client : String
  Language : String
  Insecure : Bool
  ReadOnly : Bool
  CookieFile : String
  CookieString : String
deriving DecidableEq

/-- The call `fmt.Sprint(v)` on one element of `args`: a string is printed as
it is; `sprintOther` is the text `fmt` prints for a value of another type. -/
def fmtSprint (sprintOther : GoValue → String) : GoValue → String
  | .string s => s
  | v => sprintOther v

/-- The `switch arg` of the first loop of `parseServerArgs`, for one pair
`arg`, `val`. -/
def argSwitch (sys : SystemConfig) (arg val : String) : SystemConfig :=
  if arg = "--url" ∨ arg = "-u" then { sys with URL := val }
  else if arg = "--user" then { sys with User := val }
  else if arg = "--client" then { sys with Client := val }
  else if arg = "--language" then { sys with Language := val }
  else if arg = "--cookie-file" then { sys with CookieFile := val }
  else if arg = "--cookie-string" then { sys with CookieString := val }
  else if arg = "--insecure" then { sys with Insecure := true }
  else if arg = "--read-only" then { sys with ReadOnly := true }
  else sys

/-- The first loop of `parseServerArgs`,
`for i := 0; i < len(args)-1; i++`, over the printed elements of `args`: the
switch on every pair of neighbours `args[i]`, `args[i+1]`. -/
def pairLoop (sys : SystemConfig) : List String → SystemConfig
  | arg :: val :: rest => pairLoop (argSwitch sys arg val) (val :: rest)
  | _ => sys

/-- The second loop of `parseServerArgs`, `// Check for standalone flags`. -/
def flagLoop (sys : SystemConfig) : List String → SystemConfig
  | [] => sys
  | arg :: rest =>
    flagLoop
      (if arg = "--insecure" then { sys with Insecure := true }
       else if arg = "--read-only" then { sys with ReadOnly := true }
       else sys) rest

/-- The read `env[key].(string)` with its flag `ok`. -/
def envString (env : List (String × GoValue)) (key : String) : Option String :=
  match assocGet strEq env key with
  | some (.string s) => some s
  | _ => none

/-- The condition under which `parseServerArgs` takes the password over:
`pwd != "" && pwd != "YOUR_PASSWORD_HERE" && !strings.HasPrefix(pwd, "YOUR_")`. -/
def realPassword (pwd : String) : Bool :=
  decide (pwd ≠ "") && decide (pwd ≠ "YOUR_PASSWORD_HERE") &&
    !("YOUR_".data.isPrefixOf pwd.data)

/-- The statement `if sys.URL == "" { if url, ok := env["SAP_URL"].(string); ok
{ sys.URL = url } }`. -/
def envURL (sys : SystemConfig) (env : List (String × GoValue)) : SystemConfig :=
  if sys.URL = "" then
    match envString env "SAP_URL" with
    | some url => { sys with URL := url }
    | none => sys
  else sys

/-- The statement `if sys.User == "" { ... }`. -/
def envUser (sys : SystemConfig) (env : List (String × GoValue)) : SystemConfig :=
  if sys.User = "" then
    match envString env "SAP_USER" with
    | some user => { sys with User := user }
    | none => sys
  else sys

/-- The statement `if pwd, ok := env["SAP_PASSWORD"].(string); ok { ... }`. -/
def envPassword (sys : SystemConfig) (env : List (String × GoValue)) : SystemConfig :=
  match envString env "SAP_PASSWORD" with
  | some pwd => if realPassword pwd then { sys with Password := pwd } else sys
  | none => sys

/-- The statement
`if client, ok := env["SAP_CLIENT"].(string); ok && client != "" { sys.Client = client }`. -/
def envClient (sys : SystemConfig) (env : List (String × GoValue)) : SystemConfig :=
  match envString env "SAP_CLIENT" with
  | some client => if client ≠ "" then { sys with Client := client } else sys
  | none => sys

/-- The statement for `SAP_LANGUAGE`. -/
def envLanguage (sys : SystemConfig) (env : List (String × GoValue)) : SystemConfig :=
  match envString env "SAP_LANGUAGE" with
  | some lang => if lang ≠ "" then { sys with Language := lang } else sys
  | none => sys

/-- The statement
`if insecure, ok := env["SAP_INSECURE"].(string); ok { sys.Insecure = insecure == "true" }`. -/
def envInsecure (sys : SystemConfig) (env : List (String × GoValue)) : SystemConfig :=
  match envString env "SAP_INSECURE" with
  | some insecure => { sys with Insecure := decide (insecure = "true") }
  | none => sys

/-- The statement for `SAP_COOKIE_FILE`. -/
def envCookieFile (sys : SystemConfig) (env : List (String × GoValue)) : SystemConfig :=
  match envString env "SAP_COOKIE_FILE" with
  | some cookieFile => if cookieFile ≠ "" then { sys with CookieFile := cookieFile } else sys
  | none => sys

/-- The statement for `SAP_COOKIE_STRING`. -/
def envCookieString (sys : SystemConfig) (env : List (String × GoValue)) : SystemConfig :=
  match envString env "SAP_COOKIE_STRING" with
  | some cookieStr => if cookieStr ≠ "" then { sys with CookieString := cookieStr } else sys
  | none => sys

/-- The block `// Also check env block for all settings` of `parseServerArgs`:
its eight statements in the order of the source. -/
def envBlock (sys : SystemConfig) (env : List (String × GoValue)) : SystemConfig :=
  envCookieString
    (envCookieFile
      (envInsecure
        (envLanguage
          (envClient (envPassword (envUser (envURL sys env) env) env) env) env) env) env) env

/-- The function `parseServerArgs` of `config_cmd.go`; `serverMap` is a Go map
with pairwise distinct keys, read by `assocGet`. -/
def parseServerArgs (sprintOther : GoValue → String) (serverMap : List (String × GoValue)) :
    SystemConfig :=
  let sys0 : SystemConfig := ⟨"", "", "", "001", "EN", false, false, "", ""⟩
  let sys1 :=
    match assocGet strEq serverMap "args" with
    | some (.slice args) =>
      flagLoop (pairLoop sys0 (args.map (fmtSprint sprintOther))) (args.map (fmtSprint sprintOther))
    | _ => sys0
  match assocGet strEq serverMap "env" with
  | some (.map env) => envBlock sys1 env
  | _ => sys1

/-- The value `--client` is given in `args`: the element after the last
`"--client"` that has a successor, if there is one. -/
def lastClientArg : List String → Option String
  | arg :: val :: rest =>
    match lastClientArg (val :: rest) with
    | some c => some c
    | none => if arg = "--client" then some val else none
  | _ => none

/-- The printed elements of `serverMap["args"]`; no element when `args` is
missing or is not an array. -/
def printedArgs (sprintOther : GoValue → String) (serverMap : List (String × GoValue)) :
    List String :=
  match assocGet strEq serverMap "args" with
  | some (.slice args) => args.map (fmtSprint sprintOther)
  | _ => []

/-- The string under `key` in the object `serverMap["env"]`, if there is
one. -/
def envEntry (serverMap : List (String × GoValue)) (key : String) : Option String :=
  match assocGet strEq serverMap "env" with
  | some (.map env) => envString env key
  | _ => none

/-! ## The tools section written by `vsp config tools init` (`cmd/vsp/config_cmd.go`) -/

/-- The function `GetAllToolNames` of `config_cmd.go`: its list, in the order
of the source. -/
def GetAllToolNames : List String :=
  ["GetSource", "GetProgram", "GetClass", "GetInterface", "GetFunction", "GetFunctionGroup",
    "GetInclude", "GetTable", "GetTableContents", "GetStructure", "GetPackage", "GetMessages",
    "GetTransaction", "GetTypeInfo", "GetClassInfo", "GetClassComponents", "GetClassInclude",
    "GetCDSDependencies", "WriteSource", "WriteClass", "WriteProgram", "EditSource",
    "UpdateSource", "CreateObject", "DeleteObject", "CloneObject", "RenameObject", "MoveObject",
    "LockObject", "UnlockObject", "SearchObject", "GrepObjects", "GrepPackages", "GrepObject",
    "GrepPackage", "SyntaxCheck", "Activate", "ActivatePackage", "PrettyPrint",
    "GetPrettyPrinterSettings", "SetPrettyPrinterSettings", "RunUnitTests", "RunATCCheck",
    "GetATCCustomizing", "GetInactiveObjects", "CreatePackage", "CreateTable", "CompareSource",
    "CreateClassWithTests", "CreateTestInclude", "CreateAndActivateProgram",
    "UpdateClassInclude", "FindDefinition", "FindReferences", "CodeCompletion",
    "GetTypeHierarchy", "GetCallGraph", "GetCallersOf", "GetCalleesOf", "GetObjectStructure",
    "AnalyzeCallGraph", "CompareCallGraphs", "TraceExecution", "GetSystemInfo",
    "GetInstalledComponents", "GetConnectionInfo", "GetFeatures", "ListDumps", "GetDump",
    "ListTraces", "GetTrace", "GetSQLTraceState", "ListSQLTraces", "ImportFromFile",
    "ExportToFile", "DeployFromFile", "SaveToFile", "ListTransports", "GetTransport",
    "GetTransportInfo", "GetUserTransports", "CreateTransport", "ReleaseTransport",
    "DeleteTransport", "RunReport", "RunReportAsync", "GetAsyncResult", "GetVariants",
    "GetTextElements", "SetTextElements", "SetBreakpoint", "GetBreakpoints", "DeleteBreakpoint",
    "DebuggerListen", "DebuggerAttach", "DebuggerDetach", "DebuggerStep", "DebuggerGetStack",
    "DebuggerGetVariables", "AMDPDebuggerStart", "AMDPDebuggerResume", "AMDPDebuggerStop",
    "AMDPDebuggerStep", "AMDPGetVariables", "AMDPSetBreakpoint", "AMDPGetBreakpoints", "CallRFC",
    "ExecuteABAP", "GitTypes", "GitExport", "InstallZADTVSP", "InstallAbapGit",
    "ListDependencies", "InstallDummyTest", "UI5ListApps", "UI5GetApp", "UI5GetFileContent",
    "UI5CreateApp", "UI5DeleteApp", "UI5DeleteFile", "UI5UploadFile", "PublishServiceBinding",
    "UnpublishServiceBinding"]

/-- The function `GetFocusedToolNames` of `config_cmd.go`. -/
def GetFocusedToolNames : List String :=
  ["GetSource", "WriteSource", "GrepObjects", "GrepPackages", "SearchObject", "EditSource",
    "GetTable", "GetTableContents", "RunQuery", "GetPackage", "GetFunctionGroup",
    "GetCDSDependencies", "GetMessages", "FindDefinition", "FindReferences", "SyntaxCheck",
    "RunUnitTests", "RunATCCheck", "Activate", "ActivatePackage", "PrettyPrint",
    "GetInactiveObjects", "CreatePackage", "CreateTable", "CompareSource", "CloneObject",
    "GetClassInfo", "LockObject", "UnlockObject", "ImportFromFile", "ExportToFile",
    "GetSystemInfo", "GetInstalledComponents", "GetConnectionInfo", "GetFeatures",
    "GetCallGraph", "GetObjectStructure", "GetCallersOf", "GetCalleesOf", "AnalyzeCallGraph",
    "CompareCallGraphs", "TraceExecution", "ListDumps", "GetDump", "ListTraces", "GetTrace"]

/-- The set built by `set := make(map[string]bool); for _, t := range names
{ set[t] = true }`. -/
def nameSet (names : List String) : List (String × Bool) :=
  names.foldl (fun m t => assocSet strEq m t true) []

/-- The read `set[tool]` of a `map[string]bool`: `false` for a missing key. -/
def setHas (set : List (String × Bool)) (tool : String) : Bool :=
  (assocGet strEq set tool).getD false

/-- What the loop of `runConfigToolsInit` computes: the map `cfg.Tools` and the
two counters. -/
structure ToolsInit where
  Tools : List (String × Bool)
  enabledCount : ℕ
  disabledCount : ℕ

/-- The variable `enabled` in the loop of `runConfigToolsInit`:
`if disabledSet[tool] { enabled = false } else if mode == "expert"
{ enabled = true } else { enabled = focusedSet[tool] }`. -/
def toolEnabled (mode : String) (disabledSet focusedSet : List (String × Bool))
    (tool : String) : Bool :=
  if setHas disabledSet tool then false
  else if mode = "expert" then true
  else setHas focusedSet tool

/-- One pass of the loop `for _, tool := range allTools`. -/
def toolsStep (mode : String) (disabledSet focusedSet : List (String × Bool))
    (r : ToolsInit) (tool : String) : ToolsInit :=
  ⟨assocSet strEq r.Tools tool (toolEnabled mode disabledSet focusedSet tool),
    if toolEnabled mode disabledSet focusedSet tool then r.enabledCount + 1 else r.enabledCount,
    if toolEnabled mode disabledSet focusedSet tool then r.disabledCount
    else r.disabledCount + 1⟩

/-- The function `runConfigToolsInit` of `config_cmd.go` up to the saving of
the file: `mode` is the flag `--mode`, and `defaultDisabled` is the list that
`config.DefaultDisabledTools()` returns. -/
def runConfigToolsInit (mode : String) (defaultDisabled : List String) : ToolsInit :=
  GetAllToolNames.foldl
    (toolsStep mode (nameSet defaultDisabled) (nameSet GetFocusedToolNames)) ⟨[], 0, 0⟩

/-! ## The gate and the end of the script -/

/-- What can happen once `contextWithTimeout` has returned: a channel of the
watcher's `select` becomes ready, or the script the gate was made for returns. -/
inductive GateEvent
  | ready (c : SelectCase)
  | scriptFinished
deriving DecidableEq

/-- The case of the `select` an event makes ready, if any. -/
def GateEvent.selectCase : GateEvent → Option SelectCase
  | .ready c => some c
  | .scriptFinished => none

/-- The gate under one event.  The `select` of the watcher has the cases
`<-ctx.Done()` and `<-time.After(...)` and no other, and `contextWithTimeout`
returns `ch` alone, no handle on the timer or on the goroutine: the return of
the script is not a case, and the gate is as before. -/
def Gate.observe (g : Gate) : GateEvent → Gate
  | .ready c => g.step c
  | .scriptFinished => g

/-- The gate after the given events, in that order. -/
def Gate.runEvents (g : Gate) (es : List GateEvent) : Gate := es.foldl Gate.observe g

/-! ## Facts about the number conversions -/

theorem roundNat53_of_dvd (a : ℕ) (h : 2 ^ (Nat.log2 a - 52) ∣ a) : roundNat53 a = a := by
  unfold roundNat53
  have hr : a % 2 ^ (Nat.log2 a - 52) = 0 := Nat.mod_eq_zero_of_dvd h
  have hpos : 0 < 2 ^ (Nat.log2 a - 52) := Nat.pow_pos (by norm_num)
  simp only [hr]
  rw [if_neg]
  · exact Nat.div_mul_cancel h
  · rintro (h1 | ⟨h1, _⟩)
    · omega
    · omega

theorem roundNat53_small (a : ℕ) (h : a < 2 ^ 53) : roundNat53 a = a := by
  apply roundNat53_of_dvd
  have : Nat.log2 a - 52 = 0 := by
    by_cases ha : a = 0
    · subst ha; simp [Nat.log2]
    · have := (Nat.log2_lt ha).2 h
      omega
  rw [this]; simp

theorem isBinary64_int_dvd (n : ℤ) (h : IsBinary64 (n : ℚ)) :
    2 ^ (Nat.log2 n.natAbs - 52) ∣ n.natAbs := by
  obtain ⟨m, k, j, hm, -, -, heq⟩ := h
  have heqZ : n * 2 ^ j = m * 2 ^ k := by exact_mod_cast heq
  have heqN : n.natAbs * 2 ^ j = m.natAbs * 2 ^ k := by
    have := congrArg Int.natAbs heqZ
    simpa [Int.natAbs_mul, Int.natAbs_pow] using this
  have hmN : m.natAbs < 2 ^ 53 := by
    have : ((m.natAbs : ℤ)) < 2 ^ 53 := by rw [Int.natCast_natAbs]; exact hm
    exact_mod_cast this
  set a := n.natAbs with ha
  set s := Nat.log2 a - 52 with hs
  by_cases hs0 : s = 0
  · rw [hs0]; simp
  have ha0 : a ≠ 0 := by
    intro h0
    have : Nat.log2 a = 0 := by rw [h0]; simp [Nat.log2]
    omega
  have hlog : 2 ^ (Nat.log2 a) ≤ a := Nat.log2_self_le ha0
  have hlogeq : Nat.log2 a = s + 52 := by omega
  rw [hlogeq] at hlog
  by_cases hk : j + s ≤ k
  · -- a = |m| * 2^(k-j)
    have hk2 : k = j + (k - j) := by omega
    have : a * 2 ^ j = (m.natAbs * 2 ^ (k - j)) * 2 ^ j := by
      rw [heqN]; conv_lhs => rw [hk2]
      rw [pow_add]; ring
    have ha2 : a = m.natAbs * 2 ^ (k - j) := Nat.eq_of_mul_eq_mul_right (Nat.pow_pos (by norm_num)) this
    rw [ha2]
    exact Dvd.dvd.mul_left (pow_dvd_pow 2 (by omega)) _
  · exfalso
    have hk3 : k ≤ j + (s - 1) := by omega
    have h1 : m.natAbs * 2 ^ k < 2 ^ 53 * 2 ^ k :=
      Nat.mul_lt_mul_of_pos_right hmN (Nat.pow_pos (by norm_num))
    have h2 : 2 ^ 53 * 2 ^ k ≤ 2 ^ 53 * 2 ^ (j + (s - 1)) :=
      Nat.mul_le_mul_left _ (Nat.pow_le_pow_right (by norm_num) hk3)
    have h3 : 2 ^ 53 * 2 ^ (j + (s - 1)) = 2 ^ (s + 52) * 2 ^ j := by
      rw [← pow_add, ← pow_add]; congr 1; omega
    have h4 : 2 ^ (s + 52) * 2 ^ j ≤ a * 2 ^ j := Nat.mul_le_mul_right _ hlog
    omega

theorem roundInt53_of_isBinary64 (n : ℤ) (h : IsBinary64 (n : ℚ)) : roundInt53 n = n := by
  unfold roundInt53
  rw [roundNat53_of_dvd _ (isBinary64_int_dvd n h)]
  split <;> omega

theorem truncQ_intCast (n : ℤ) : truncQ (n : ℚ) = n := by
  simp [truncQ]

theorem toInt64_intCast (a : Arch) (n : ℤ) (hlo : minInt64 ≤ n) (hhi : n ≤ maxInt64) :
    (Float64.fin (n : ℚ)).toInt64 a = n := by
  simp [Float64.toInt64, truncQ_intCast, hlo, hhi]

theorem log2_eq_of_bounds (n k : ℕ) (h1 : 2 ^ k ≤ n) (h2 : n < 2 ^ (k + 1)) :
    Nat.log2 n = k := by
  have hn : n ≠ 0 := by
    have : 0 < 2 ^ k := Nat.pow_pos (by norm_num)
    omega
  have hlt : Nat.log2 n < k + 1 := (Nat.log2_lt hn).2 h2
  have hge : ¬ Nat.log2 n < k := fun h => by
    have := (Nat.log2_lt hn).1 h
    omega
  omega

theorem roundInt53_minInt64 : roundInt53 minInt64 = minInt64 := by
  have h : roundNat53 9223372036854775808 = 9223372036854775808 := by
    apply roundNat53_of_dvd
    rw [log2_eq_of_bounds 9223372036854775808 63 (by norm_num) (by norm_num)]
    norm_num
  simp only [roundInt53, minInt64]
  rw [if_pos (by norm_num)]
  have : (-9223372036854775808 : ℤ).natAbs = 9223372036854775808 := by rfl
  rw [this, h]
  norm_num

theorem luaToGo_number_of_eq (E : Env) (v : Float64)
    (h : Float64.eq v (Float64.ofInt64 (v.toInt64 E.arch)) = true) :
    luaToGo E (.number v) = .int64 (v.toInt64 E.arch) := by
  simp [luaToGo, h]

theorem luaToGo_number_of_ne (E : Env) (v : Float64)
    (h : Float64.eq v (Float64.ofInt64 (v.toInt64 E.arch)) = false) :
    luaToGo E (.number v) = .float64 v := by
  simp [luaToGo, h]

theorem Float64.eq_fin_fin (p q : ℚ) : Float64.eq (.fin p) (.fin q) = decide (p = q) := by
  simp [Float64.eq]

/-- On `amd64` the integrality test of `luaToGo` is exact: a `float64` becomes an
`int64` when it is an integer of the 64-bit signed range, and stays the same
`float64` in every other case. -/
theorem luaToGo_number_amd64 (f : Float64 → String) (g : GoValue → Option String)
    (x : Float64) (hx : x.Valid) :
    (∃ n : ℤ, minInt64 ≤ n ∧ n ≤ maxInt64 ∧ x = .fin (n : ℚ) ∧
        luaToGo ⟨.amd64, f, g⟩ (.number x) = .int64 n) ∨
    ((¬ ∃ n : ℤ, minInt64 ≤ n ∧ n ≤ maxInt64 ∧ x = .fin (n : ℚ)) ∧
        luaToGo ⟨.amd64, f, g⟩ (.number x) = .float64 x) := by
  cases x with
  | fin q =>
    by_cases hr : minInt64 ≤ truncQ q ∧ truncQ q ≤ maxInt64
    · have ht : (Float64.fin q).toInt64 .amd64 = truncQ q := by
        simp [Float64.toInt64, hr]
      by_cases hq : q = ((roundInt53 (truncQ q) : ℤ) : ℚ)
      · left
        have h1 : truncQ q = roundInt53 (truncQ q) := by
          conv_lhs => rw [hq]
          exact truncQ_intCast _
        refine ⟨truncQ q, hr.1, hr.2, ?_, ?_⟩
        · rw [h1, ← hq]
        · rw [← ht]; apply luaToGo_number_of_eq
          simp only [ht, Float64.ofInt64, Float64.eq_fin_fin]
          simpa using hq
      · right
        constructor
        · rintro ⟨n, hlo, hhi, hn⟩
          have hqn : q = (n : ℚ) := by injection hn
          apply hq
          have hv : IsBinary64 (n : ℚ) := by rw [← hqn]; exact hx
          rw [hqn, truncQ_intCast, roundInt53_of_isBinary64 n hv]
        · apply luaToGo_number_of_ne
          simp only [ht, Float64.ofInt64, Float64.eq_fin_fin]
          simpa using hq
    · have ht : (Float64.fin q).toInt64 .amd64 = minInt64 := by
        simp only [Float64.toInt64, if_neg hr]
      right
      constructor
      · rintro ⟨n, hlo, hhi, hn⟩
        have hqn : q = (n : ℚ) := by injection hn
        apply hr
        rw [hqn, truncQ_intCast]; exact ⟨hlo, hhi⟩
      · apply luaToGo_number_of_ne
        simp only [ht, Float64.ofInt64, Float64.eq_fin_fin, roundInt53_minInt64]
        simp only [decide_eq_false_iff_not]
        intro hqm
        apply hr
        rw [hqm, truncQ_intCast]
        decide
  | posInf =>
    right
    refine ⟨?_, ?_⟩
    · rintro ⟨n, -, -, hn⟩
      cases hn
    apply luaToGo_number_of_ne; simp [Float64.eq, Float64.ofInt64]
  | negInf =>
    right
    refine ⟨?_, ?_⟩
    · rintro ⟨n, -, -, hn⟩
      cases hn
    apply luaToGo_number_of_ne; simp [Float64.eq, Float64.ofInt64]
  | nan =>
    right
    refine ⟨?_, ?_⟩
    · rintro ⟨n, -, -, hn⟩
      cases hn
    apply luaToGo_number_of_ne; simp [Float64.eq]

/-- C1: a Lua number `q` without fractional part and with `-2^63 ≤ q < 2^63` is
converted by `luaToGo` to the `int64` of exactly that value, on either target. -/
theorem luaToGo_integral_in_range (E : Env) (q : ℚ) (hq : IsBinary64 q)
    (hint : Int.fract q = 0) (hlo : -(2 : ℚ) ^ 63 ≤ q) (hhi : q < (2 : ℚ) ^ 63) :
    ∃ n : ℤ, (n : ℚ) = q ∧ luaToGo E (.number (.fin q)) = .int64 n := by
  have hfl : ((⌊q⌋ : ℤ) : ℚ) = q := by
    have := Int.floor_add_fract q
    rw [hint, add_zero] at this
    exact this
  refine ⟨⌊q⌋, hfl, ?_⟩
  have hlo2 : minInt64 ≤ ⌊q⌋ := by
    have : ((-(2 : ℤ) ^ 63 : ℤ) : ℚ) ≤ ((⌊q⌋ : ℤ) : ℚ) := by rw [hfl]; push_cast; exact hlo
    have := Int.cast_le.mp this
    simpa [minInt64] using this
  have hhi2 : ⌊q⌋ ≤ maxInt64 := by
    have : ((⌊q⌋ : ℤ) : ℚ) < (((2 : ℤ) ^ 63 : ℤ) : ℚ) := by rw [hfl]; push_cast; exact hhi
    have := Int.cast_lt.mp this
    simp only [maxInt64]; omega
  have hv : IsBinary64 ((⌊q⌋ : ℤ) : ℚ) := by rw [hfl]; exact hq
  have ht : (Float64.fin q).toInt64 E.arch = ⌊q⌋ := by
    conv_lhs => rw [← hfl]
    exact toInt64_intCast _ _ hlo2 hhi2
  rw [← ht]
  apply luaToGo_number_of_eq
  rw [ht]
  simp only [Float64.ofInt64, Float64.eq_fin_fin, roundInt53_of_isBinary64 _ hv, hfl, decide_True]

theorem luaToGo_integral_in_range_witness :
    IsBinary64 42 ∧ Int.fract (42 : ℚ) = 0 ∧ -(2 : ℚ) ^ 63 ≤ 42 ∧ (42 : ℚ) < (2 : ℚ) ^ 63 ∧
    ∃ n : ℤ, (n : ℚ) = 42 ∧
      luaToGo ⟨.amd64, fun _ => "", fun _ => none⟩ (.number (.fin 42)) = .int64 n :=
  have h1 : IsBinary64 42 := ⟨42, 0, 0, by norm_num, by norm_num, by norm_num, by norm_num⟩
  have h2 : Int.fract (42 : ℚ) = 0 := by
    have : (42 : ℚ) = ((42 : ℤ) : ℚ) := by norm_num
    rw [this]; exact Int.fract_intCast 42
  have h3 : -(2 : ℚ) ^ 63 ≤ 42 := by norm_num
  have h4 : (42 : ℚ) < (2 : ℚ) ^ 63 := by norm_num
  ⟨h1, h2, h3, h4, luaToGo_integral_in_range _ 42 h1 h2 h3 h4⟩

/-- C2: on `arm64` the integral value `2^63`, which lies outside the range of a
64-bit signed integer, is returned by `luaToGo` as the `int64` `2^63 - 1` and not
as the `float64` it was: the saturated conversion `int64(v)` rounds back to `2^63`
under `float64(...)`, so the test `float64(v) == float64(int64(v))` succeeds. -/
theorem luaToGo_two_pow_63_arm64 (f : Float64 → String) (g : GoValue → Option String) :
    luaToGo ⟨.arm64, f, g⟩ (.number (.fin 9223372036854775808)) = .int64 9223372036854775807 := by
  have hc : (9223372036854775808 : ℚ) = ((9223372036854775808 : ℤ) : ℚ) := by norm_num
  have ht : (Float64.fin 9223372036854775808).toInt64 .arm64 = 9223372036854775807 := by
    rw [hc]
    simp only [Float64.toInt64, truncQ_intCast, minInt64, maxInt64]
    norm_num
  have hr : roundInt53 9223372036854775807 = 9223372036854775808 := by
    have hl := log2_eq_of_bounds 9223372036854775807 62 (by norm_num) (by norm_num)
    have hn : (9223372036854775807 : ℤ).natAbs = 9223372036854775807 := by rfl
    simp only [roundInt53, roundNat53, hn, hl]
    norm_num
  have := luaToGo_number_of_eq ⟨.arm64, f, g⟩ (.fin 9223372036854775808)
    (by simp only [ht, Float64.ofInt64, Float64.eq_fin_fin, hr]; norm_num)
  rw [this, ht]

/-! ## `luaTableToGo` in the shape of the source -/

theorem luaToGoList_eq_map (E : Env) (l : List LValue) :
    luaToGoList E l = l.map (luaToGo E) := by
  induction l with
  | nil => simp [luaToGoList]
  | cons v vs ih => simp [luaToGoList, ih]

theorem arrayConv_eq_map (E : Env) (l : List LValue) (i : ℕ) :
    arrayConv E i l = (arrayEntries i l).map (fun kv => (kv.1, luaToGo E kv.2)) := by
  induction l generalizing i with
  | nil => simp [arrayConv, arrayEntries]
  | cons v vs ih =>
    by_cases h : v.isNil = true
    · simp [arrayConv, arrayEntries, h, ih]
    · simp [arrayConv, arrayEntries, h, ih]

theorem strdictConv_eq_map (E : Env) (l : List (String × LValue)) :
    strdictConv E l = (strdictEntries l).map (fun kv => (kv.1, luaToGo E kv.2)) := by
  induction l with
  | nil => simp [strdictConv, strdictEntries]
  | cons p rest ih =>
    obtain ⟨k, v⟩ := p
    by_cases h : v.isNil = true
    · simp [strdictConv, strdictEntries, h, ih]
    · simp [strdictConv, strdictEntries, h, ih]

theorem dictConv_eq_map (E : Env) (l : List (LKey × LValue)) :
    dictConv E l = (dictEntries l).map (fun kv => (kv.1, luaToGo E kv.2)) := by
  induction l with
  | nil => simp [dictConv, dictEntries]
  | cons p rest ih =>
    obtain ⟨k, v⟩ := p
    by_cases h : v.isNil = true
    · simp [dictConv, dictEntries, h, ih]
    · simp [dictConv, dictEntries, h, ih]

theorem luaToGo_nil (E : Env) : luaToGo E LValue.nil = GoValue.nil := by
  simp [luaToGo]

theorem luaToGo_table (E : Env) (t : LTable) : luaToGo E (.table t) = luaTableToGo E t := by
  simp [luaToGo]

theorem luaToGo_rawGetInt (E : Env) (t : LTable) (i : ℕ) :
    luaToGo E (t.RawGetInt ((i : ℤ) + 1)) = (t.array.map (luaToGo E)).getD i GoValue.nil := by
  unfold LTable.RawGetInt
  by_cases h : i < t.array.length
  · rw [if_neg (by omega)]
    have : ((i : ℤ) + 1 - 1).toNat = i := by omega
    rw [this]
    simp [List.getD_eq_getElem?_getD, List.getElem?_map, h]
  · rw [if_pos (by omega)]
    simp [List.getD_eq_getElem?_getD, List.getElem?_map, luaToGo_nil]
    rw [List.getElem?_eq_none (by omega)]
    simp

/-- The result of `luaTableToGo` as the source computes it: when the test
`isArray && maxN > 0 && tbl.Len() == maxN` succeeds, the slice of the
`luaToGo(tbl.RawGetInt(i))` for `i` from `1` to `maxN`; otherwise the map filled,
in the order of `ForEach`, by `m[key.String()] = luaToGo(value)`. -/
theorem luaTableToGo_eq (E : Env) (t : LTable) :
    luaTableToGo E t =
      if isSequence E t then
        GoValue.slice ((List.range (scanKeys E t).2.toNat).map
          (fun (i : ℕ) => luaToGo E (t.RawGetInt ((i : ℤ) + 1))))
      else
        GoValue.map (t.ForEach.foldl
          (fun m kv => assocSet strEq m (kv.1.String E) (luaToGo E kv.2)) []) := by
  obtain ⟨a, s, d⟩ := t
  rw [luaTableToGo]
  split
  · congr 1
    apply List.map_congr_left
    intro i _
    rw [luaToGo_rawGetInt, luaToGoList_eq_map]
    rfl
  · congr 1
    rw [arrayConv_eq_map, strdictConv_eq_map, dictConv_eq_map, ← List.map_append,
      ← List.map_append, List.foldl_map]
    rfl

/-! ## What `ForEach`, `Len` and the key scan compute -/

theorem mem_arrayEntries (a : List LValue) (st : ℕ) (k : LKey) (v : LValue) :
    (k, v) ∈ arrayEntries st a ↔
      ∃ j : ℕ, a[j]? = some v ∧ v.isNil = false ∧
        k = LKey.number (.fin ((st + j + 1 : ℕ) : ℚ)) := by
  induction a generalizing st with
  | nil => simp [arrayEntries]
  | cons w ws ih =>
    have hstep : ∀ (P : Prop), ((k, v) ∈ arrayEntries (st + 1) ws ∨ P) ↔
        ((∃ j : ℕ, (w :: ws)[j + 1]? = some v ∧ v.isNil = false ∧
          k = LKey.number (.fin ((st + (j + 1) + 1 : ℕ) : ℚ))) ∨ P) := by
      intro P
      rw [ih (st + 1)]
      constructor
      · rintro (⟨j, h1, h2, h3⟩ | h)
        · left; exact ⟨j, by simpa using h1, h2, by rw [h3]; congr 3; omega⟩
        · right; exact h
      · rintro (⟨j, h1, h2, h3⟩ | h)
        · left; exact ⟨j, by simpa using h1, h2, by rw [h3]; congr 3; omega⟩
        · right; exact h
    by_cases hw : w.isNil = true
    · rw [arrayEntries, if_pos hw]
      have := hstep False
      simp only [or_false] at this
      rw [this]
      constructor
      · rintro ⟨j, h1, h2, h3⟩; exact ⟨j + 1, h1, h2, h3⟩
      · rintro ⟨j, h1, h2, h3⟩
        cases j with
        | zero =>
          simp at h1; subst h1; rw [hw] at h2; cases h2
        | succ j => exact ⟨j, h1, h2, h3⟩
    · rw [arrayEntries, if_neg hw, List.mem_cons, or_comm, hstep]
      constructor
      · rintro (⟨j, h1, h2, h3⟩ | h)
        · exact ⟨j + 1, h1, h2, h3⟩
        · cases h
          exact ⟨0, by simp, by simpa using hw, by simp⟩
      · rintro ⟨j, h1, h2, h3⟩
        cases j with
        | zero =>
          right
          simp at h1; subst h1
          rw [h3]
        | succ j => left; exact ⟨j, h1, h2, h3⟩

theorem mem_strdictEntries (s : List (String × LValue)) (k : LKey) (v : LValue) :
    (k, v) ∈ strdictEntries s ↔ ∃ n : String, (n, v) ∈ s ∧ v.isNil = false ∧ k = LKey.str n := by
  induction s with
  | nil => simp [strdictEntries]
  | cons p rest ih =>
    obtain ⟨n0, v0⟩ := p
    by_cases h0 : v0.isNil = true
    · rw [strdictEntries, if_pos h0, ih]
      constructor
      · rintro ⟨n, h1, h2, h3⟩; exact ⟨n, List.mem_cons_of_mem _ h1, h2, h3⟩
      · rintro ⟨n, h1, h2, h3⟩
        rcases List.mem_cons.mp h1 with h | h
        · cases h; rw [h0] at h2; cases h2
        · exact ⟨n, h, h2, h3⟩
    · rw [strdictEntries, if_neg h0, List.mem_cons, ih]
      constructor
      · rintro (h | ⟨n, h1, h2, h3⟩)
        · cases h; exact ⟨n0, List.mem_cons_self _ _, by simpa using h0, rfl⟩
        · exact ⟨n, List.mem_cons_of_mem _ h1, h2, h3⟩
      · rintro ⟨n, h1, h2, h3⟩
        rcases List.mem_cons.mp h1 with h | h
        · cases h; left; rw [h3]
        · right; exact ⟨n, h, h2, h3⟩

theorem mem_dictEntries (d : List (LKey × LValue)) (k : LKey) (v : LValue) :
    (k, v) ∈ dictEntries d ↔ (k, v) ∈ d ∧ v.isNil = false := by
  induction d with
  | nil => simp [dictEntries]
  | cons p rest ih =>
    obtain ⟨k0, v0⟩ := p
    by_cases h0 : v0.isNil = true
    · rw [dictEntries, if_pos h0, ih, List.mem_cons]
      constructor
      · rintro ⟨h1, h2⟩; exact ⟨Or.inr h1, h2⟩
      · rintro ⟨h1 | h1, h2⟩
        · cases h1; rw [h0] at h2; cases h2
        · exact ⟨h1, h2⟩
    · rw [dictEntries, if_neg h0, List.mem_cons, ih, List.mem_cons]
      constructor
      · rintro (h | ⟨h1, h2⟩)
        · cases h; exact ⟨Or.inl rfl, by simpa using h0⟩
        · exact ⟨Or.inr h1, h2⟩
      · rintro ⟨h1 | h1, h2⟩
        · left; exact h1
        · right; exact ⟨h1, h2⟩

theorem mem_ForEach (t : LTable) (kv : LKey × LValue) :
    kv ∈ t.ForEach ↔
      kv ∈ arrayEntries 0 t.array ∨ kv ∈ strdictEntries t.strdict ∨ kv ∈ dictEntries t.dict := by
  simp [LTable.ForEach]

theorem lenLoop_le (a : List LValue) (L : ℕ) : lenLoop a L ≤ L := by
  induction L with
  | zero => simp [lenLoop]
  | succ L ih =>
    rw [lenLoop]
    split
    · omega
    · omega

theorem Len_le_length (t : LTable) : t.Len ≤ t.array.length := lenLoop_le _ _

theorem lenLoop_eq (a : List LValue) (N L : ℕ) (hNL : N ≤ L)
    (hnil : ∀ j, N ≤ j → j < L → (a.getD j LValue.nil).isNil = true)
    (hlast : N = 0 ∨ (a.getD (N - 1) LValue.nil).isNil = false) :
    lenLoop a L = N := by
  induction L with
  | zero =>
    have : N = 0 := by omega
    subst this; simp [lenLoop]
  | succ L ih =>
    rw [lenLoop]
    by_cases hN : N = L + 1
    · subst hN
      rcases hlast with h | h
      · omega
      · simp only [Nat.add_sub_cancel] at h
        rw [if_neg (by rw [h]; simp)]
    · rw [if_pos (hnil L (by omega) (by omega))]
      exact ih (by omega) (fun j h1 h2 => hnil j h1 (by omega))

/-- The position `Len` returns holds a non-nil element (or is `0`), and every
later position of the array part holds `LNil`. -/
theorem lenLoop_spec (a : List LValue) (L : ℕ) :
    (lenLoop a L = 0 ∨ (a.getD (lenLoop a L - 1) LValue.nil).isNil = false) ∧
    ∀ j, lenLoop a L ≤ j → j < L → (a.getD j LValue.nil).isNil = true := by
  induction L with
  | zero => simp [lenLoop]
  | succ L ih =>
    rw [lenLoop]
    by_cases h : (a.getD L LValue.nil).isNil = true
    · rw [if_pos h]
      refine ⟨ih.1, fun j h1 h2 => ?_⟩
      by_cases hj : j = L
      · subst hj; exact h
      · exact ih.2 j h1 (by omega)
    · rw [if_neg h]
      refine ⟨Or.inr (by simpa using h), fun j h1 h2 => by omega⟩

/-! The key scan, as a fold over the keys alone. -/

theorem scanKeys_eq (E : Env) (t : LTable) :
    scanKeys E t = (t.ForEach.map Prod.fst).foldl (scanStep E) (true, 0) := by
  rw [scanKeys, List.foldl_map]

theorem scanFold_fst (E : Env) (ks : List LKey) (s : Bool × ℤ) :
    (ks.foldl (scanStep E) s).1 = (s.1 && ks.all (fun k => k.asNumber.isSome)) := by
  induction ks generalizing s with
  | nil => simp
  | cons k ks ih =>
    rw [List.foldl_cons, ih]
    cases hk : k.asNumber with
    | none => simp [scanStep, hk]
    | some x =>
      simp only [scanStep, hk, List.all_cons, Option.isSome_some, Bool.true_and]
      split <;> rfl

theorem scanFold_snd (E : Env) (ks : List LKey) (s : Bool × ℤ) :
    s.2 ≤ (ks.foldl (scanStep E) s).2 ∧
    (∀ x, LKey.number x ∈ ks → x.toInt64 E.arch ≤ (ks.foldl (scanStep E) s).2) ∧
    ((ks.foldl (scanStep E) s).2 = s.2 ∨
      ∃ x, LKey.number x ∈ ks ∧ x.toInt64 E.arch = (ks.foldl (scanStep E) s).2) := by
  induction ks generalizing s with
  | nil => simp
  | cons k ks ih =>
    rw [List.foldl_cons]
    obtain ⟨h1, h2, h3⟩ := ih (scanStep E s k)
    have hstep : s.2 ≤ (scanStep E s k).2 ∧
        (∀ x, k = LKey.number x → x.toInt64 E.arch ≤ (scanStep E s k).2) ∧
        ((scanStep E s k).2 = s.2 ∨ ∃ x, k = LKey.number x ∧
          x.toInt64 E.arch = (scanStep E s k).2) := by
      cases k with
      | number y =>
        simp only [scanStep, LKey.asNumber]
        by_cases hlt : s.2 < y.toInt64 E.arch
        · rw [if_pos hlt]
          refine ⟨le_of_lt hlt, fun x hx => ?_, Or.inr ⟨y, rfl, rfl⟩⟩
          cases hx; exact le_refl _
        · rw [if_neg hlt]
          refine ⟨le_refl _, fun x hx => ?_, Or.inl rfl⟩
          cases hx; omega
      | bool b => exact ⟨le_refl _, fun x hx => (by cases hx), Or.inl rfl⟩
      | str n => exact ⟨le_refl _, fun x hx => (by cases hx), Or.inl rfl⟩
      | ref kind addr => exact ⟨le_refl _, fun x hx => (by cases hx), Or.inl rfl⟩
    obtain ⟨g1, g2, g3⟩ := hstep
    refine ⟨le_trans g1 h1, fun x hx => ?_, ?_⟩
    · rcases List.mem_cons.mp hx with h | h
      · exact le_trans (g2 x h.symm) h1
      · exact h2 x h
    · rcases h3 with h | ⟨x, hx1, hx2⟩
      · rcases g3 with g | ⟨x, gx1, gx2⟩
        · left; rw [h, g]
        · right; exact ⟨x, by rw [gx1]; exact List.mem_cons_self _ _, by rw [gx2, h]⟩
      · right; exact ⟨x, List.mem_cons_of_mem _ hx1, hx2⟩

/-! ## Go maps filled by repeated assignment -/

theorem assocGet_assocSet {β : Type} (m : List (String × β)) (k : String) (v : β) (s : String) :
    assocGet strEq (assocSet strEq m k v) s = if k = s then some v else assocGet strEq m s := by
  induction m with
  | nil => simp [assocSet, assocGet, strEq]
  | cons p rest ih =>
    obtain ⟨k0, v0⟩ := p
    by_cases h0 : k0 = k
    · subst h0
      by_cases hs : k0 = s
      · simp [assocSet, assocGet, strEq, hs]
      · simp [assocSet, assocGet, strEq, hs]
    · by_cases hs : k0 = s
      · subst hs
        have : ¬ k = k0 := fun h => h0 h.symm
        simp [assocSet, assocGet, strEq, h0, this]
      · simp [assocSet, assocGet, strEq, h0, hs, ih]

theorem keys_assocSet {β : Type} (m : List (String × β)) (k : String) (v : β) (s : String) :
    s ∈ (assocSet strEq m k v).map Prod.fst ↔ s = k ∨ s ∈ m.map Prod.fst := by
  induction m with
  | nil => simp [assocSet]
  | cons p rest ih =>
    obtain ⟨k0, v0⟩ := p
    by_cases h0 : k0 = k
    · subst h0
      simp [assocSet, strEq]
    · simp only [assocSet, strEq, h0, decide_False, Bool.false_eq_true, if_false, List.map_cons,
        List.mem_cons, ih]
      tauto

theorem nodup_assocSet {β : Type} (m : List (String × β)) (k : String) (v : β)
    (h : (m.map Prod.fst).Nodup) : ((assocSet strEq m k v).map Prod.fst).Nodup := by
  induction m with
  | nil => simp [assocSet]
  | cons p rest ih =>
    obtain ⟨k0, v0⟩ := p
    simp only [List.map_cons, List.nodup_cons] at h
    by_cases h0 : k0 = k
    · subst h0
      simp only [assocSet, strEq, decide_True, if_true, List.map_cons, List.nodup_cons]
      exact h
    · simp only [assocSet, strEq, h0, decide_False, Bool.false_eq_true, if_false, List.map_cons,
        List.nodup_cons]
      refine ⟨?_, ih h.2⟩
      rw [keys_assocSet]
      rintro (h1 | h1)
      · exact h0 h1
      · exact h.1 h1

theorem values_assocSet {β : Type} (P : β → Prop) (m : List (String × β)) (k : String) (v : β)
    (hm : ∀ p ∈ m, P p.2) (hv : P v) : ∀ p ∈ assocSet strEq m k v, P p.2 := by
  induction m with
  | nil => simpa [assocSet] using hv
  | cons p0 rest ih =>
    obtain ⟨k0, v0⟩ := p0
    intro p hp
    by_cases h0 : k0 = k
    · simp only [assocSet, strEq, h0, decide_True, if_true, List.mem_cons] at hp
      rcases hp with h | h
      · rw [h]; exact hv
      · exact hm p (List.mem_cons_of_mem _ h)
    · simp only [assocSet, strEq, h0, decide_False, Bool.false_eq_true, if_false,
        List.mem_cons] at hp
      rcases hp with h | h
      · rw [h]; exact hm (k0, v0) (List.mem_cons_self _ _)
      · exact ih (fun q hq => hm q (List.mem_cons_of_mem _ hq)) p h

section Fold

variable {α β : Type} (g : α → String) (h : α → β)

theorem foldSet_keys (l : List α) (m0 : List (String × β)) (s : String) :
    s ∈ (l.foldl (fun m x => assocSet strEq m (g x) (h x)) m0).map Prod.fst ↔
      s ∈ m0.map Prod.fst ∨ ∃ x ∈ l, g x = s := by
  induction l generalizing m0 with
  | nil => simp
  | cons x xs ih =>
    rw [List.foldl_cons, ih, keys_assocSet]
    constructor
    · rintro ((h1 | h1) | ⟨y, hy, hy2⟩)
      · right; exact ⟨x, List.mem_cons_self _ _, h1.symm⟩
      · left; exact h1
      · right; exact ⟨y, List.mem_cons_of_mem _ hy, hy2⟩
    · rintro (h1 | ⟨y, hy, hy2⟩)
      · left; right; exact h1
      · rcases List.mem_cons.mp hy with h2 | h2
        · left; left; rw [← hy2, h2]
        · right; exact ⟨y, h2, hy2⟩

theorem foldSet_nodup (l : List α) (m0 : List (String × β)) (h0 : (m0.map Prod.fst).Nodup) :
    ((l.foldl (fun m x => assocSet strEq m (g x) (h x)) m0).map Prod.fst).Nodup := by
  induction l generalizing m0 with
  | nil => simpa using h0
  | cons x xs ih =>
    rw [List.foldl_cons]
    exact ih _ (nodup_assocSet _ _ _ h0)

theorem foldSet_get_of_not_mem (l : List α) (m0 : List (String × β)) (s : String)
    (hs : ∀ x ∈ l, g x ≠ s) :
    assocGet strEq (l.foldl (fun m x => assocSet strEq m (g x) (h x)) m0) s =
      assocGet strEq m0 s := by
  induction l generalizing m0 with
  | nil => simp
  | cons x xs ih =>
    rw [List.foldl_cons, ih _ (fun y hy => hs y (List.mem_cons_of_mem _ hy)), assocGet_assocSet,
      if_neg (hs x (List.mem_cons_self _ _))]

theorem foldSet_get_unique (l : List α) (m0 : List (String × β)) (x : α) (hx : x ∈ l)
    (hu : ∀ y ∈ l, g y = g x → h y = h x) :
    assocGet strEq (l.foldl (fun m x => assocSet strEq m (g x) (h x)) m0) (g x) =
      some (h x) := by
  induction l generalizing m0 x with
  | nil => cases hx
  | cons y ys ih =>
    rw [List.foldl_cons]
    by_cases hmem : ∃ z ∈ ys, g z = g x
    · obtain ⟨z, hz, hz2⟩ := hmem
      have hu2 : ∀ w ∈ ys, g w = g z → h w = h z := by
        intro w hw hwz
        rw [hu w (List.mem_cons_of_mem _ hw) (hwz.trans hz2),
          hu z (List.mem_cons_of_mem _ hz) hz2]
      have := ih (assocSet strEq m0 (g y) (h y)) z hz hu2
      rw [hz2, hu z (List.mem_cons_of_mem _ hz) hz2] at this
      exact this
    · have hnot : ∀ z ∈ ys, g z ≠ g x := fun z hz hzx => hmem ⟨z, hz, hzx⟩
      rw [foldSet_get_of_not_mem g h ys _ (g x) hnot, assocGet_assocSet]
      rcases List.mem_cons.mp hx with h1 | h1
      · subst h1; simp
      · exact absurd rfl (hnot x h1)

theorem foldSet_values (P : β → Prop) (l : List α) (m0 : List (String × β))
    (h0 : ∀ p ∈ m0, P p.2) (hl : ∀ x ∈ l, P (h x)) :
    ∀ p ∈ l.foldl (fun m x => assocSet strEq m (g x) (h x)) m0, P p.2 := by
  induction l generalizing m0 with
  | nil => simpa using h0
  | cons x xs ih =>
    rw [List.foldl_cons]
    exact ih _ (values_assocSet P _ _ _ h0 (hl x (List.mem_cons_self _ _)))
      (fun y hy => hl y (List.mem_cons_of_mem _ hy))

end Fold

/-! ## The shape decision of `luaTableToGo` on particular tables -/

theorem isSequence_of_forEach_nil (E : Env) (t : LTable) (h : t.ForEach = []) :
    isSequence E t = false := by
  simp [isSequence, scanKeys, h]

/-- C4: the table with the keys `1` and `3` only, built by `t[1] = true` and
`t[3] = true`, is converted to the slice `[true, nil, true]` of length three and
not to a map with the keys `"1"` and `"3"`: `Len` returns the position of the
last non-nil element of the array part, which is `3`, the largest key. -/
theorem luaTableToGo_keys_1_3 (E : Env) :
    ((LTable.empty.RawSetInt 1 (.bool true)).RawSetInt 3 (.bool true)).ForEach =
        [(LKey.number (.fin 1), LValue.bool true), (LKey.number (.fin 3), LValue.bool true)] ∧
    luaTableToGo E ((LTable.empty.RawSetInt 1 (.bool true)).RawSetInt 3 (.bool true)) =
        GoValue.slice [.bool true, .nil, .bool true] :=
  ⟨rfl, rfl⟩

/-- C5: the table with the keys `1`, `2` and `0.5` is converted to the slice of
the values at `1` and `2`, and the entry of the key `0.5` is dropped: `int(0.5)`
is `0`, so the fractional key changes neither `maxN` nor `isArray`.  The same
happens with the key `0` in place of `0.5`. -/
theorem luaTableToGo_keys_1_2_half (E : Env) :
    (LTable.mk [.bool true, .bool false] [] [(.number (.fin (1 / 2)), .str "x")]).ForEach =
        [(LKey.number (.fin 1), LValue.bool true), (LKey.number (.fin 2), LValue.bool false),
          (LKey.number (.fin (1 / 2)), LValue.str "x")] ∧
    luaTableToGo E (.mk [.bool true, .bool false] [] [(.number (.fin (1 / 2)), .str "x")]) =
        GoValue.slice [.bool true, .bool false] ∧
    luaTableToGo E (.mk [.bool true, .bool false] [] [(.number (.fin 0), .str "x")]) =
        GoValue.slice [.bool true, .bool false] := by
  have h : (1 / 2 : ℚ) = mkRat 1 2 := by norm_num [Rat.mkRat_eq_div]
  rw [h]
  exact ⟨rfl, rfl, rfl⟩

/-- C7: a table with no entries (no key bound to a non-nil value) is converted,
by `luaTableToGo` and by `luaToGo`, to the empty map and not to a slice. -/
theorem luaTableToGo_no_entries (E : Env) (t : LTable) (h : t.ForEach = []) :
    luaTableToGo E t = GoValue.map [] ∧ luaToGo E (.table t) = GoValue.map [] := by
  have h1 : luaTableToGo E t = GoValue.map [] := by
    rw [luaTableToGo_eq, isSequence_of_forEach_nil E t h, h]
    rfl
  exact ⟨h1, by rw [luaToGo_table, h1]⟩

theorem luaTableToGo_no_entries_witness :
    LTable.empty.ForEach = [] ∧
    luaTableToGo ⟨.amd64, fun _ => "", fun _ => none⟩ LTable.empty = GoValue.map [] ∧
    luaToGo ⟨.amd64, fun _ => "", fun _ => none⟩ (.table LTable.empty) = GoValue.map [] :=
  ⟨rfl, luaTableToGo_no_entries _ LTable.empty rfl⟩

theorem scanKeys_fst_false (E : Env) (t : LTable)
    (hk : ∃ kv ∈ t.ForEach, kv.1.asNumber = none) : (scanKeys E t).1 = false := by
  obtain ⟨kv, hmem, hnone⟩ := hk
  rw [scanKeys_eq, scanFold_fst]
  simp only [Bool.true_and]
  rw [List.all_eq_false]
  exact ⟨kv.1, List.mem_map_of_mem _ hmem, by simp [hnone]⟩

/-- C6: a table with at least one key that is not a number is converted to a
map and not to a slice; the keys of the map are exactly the `String()` forms of
the keys of the table, no key twice, and an entry whose key has a `String()` form
shared by no other entry is found in the map under that form with its value
converted by `luaToGo`. -/
theorem luaTableToGo_non_number_key (E : Env) (t : LTable)
    (hk : ∃ kv ∈ t.ForEach, kv.1.asNumber = none) :
    ∃ m : List (String × GoValue), luaTableToGo E t = GoValue.map m ∧
      (m.map Prod.fst).Nodup ∧
      (∀ s, s ∈ m.map Prod.fst ↔ ∃ kv ∈ t.ForEach, kv.1.String E = s) ∧
      (∀ kv ∈ t.ForEach,
        (∀ kv2 ∈ t.ForEach, kv2.1.String E = kv.1.String E → kv2 = kv) →
        assocGet strEq m (kv.1.String E) = some (luaToGo E kv.2)) := by
  refine ⟨t.ForEach.foldl
    (fun m kv => assocSet strEq m (kv.1.String E) (luaToGo E kv.2)) [], ?_, ?_, ?_, ?_⟩
  · rw [luaTableToGo_eq]
    have : isSequence E t = false := by simp [isSequence, scanKeys_fst_false E t hk]
    rw [this]
    rfl
  · exact foldSet_nodup _ _ _ _ (by simp)
  · intro s
    rw [foldSet_keys]
    simp
  · intro kv hkv hu
    exact foldSet_get_unique (fun kv : LKey × LValue => kv.1.String E)
      (fun kv => luaToGo E kv.2) _ _ kv hkv (fun y hy hyk => by rw [hu y hy hyk])

theorem luaTableToGo_non_number_key_witness :
    (∃ kv ∈ (LTable.mk [.bool true] [("name", .str "x")] []).ForEach, kv.1.asNumber = none) ∧
    ∃ m : List (String × GoValue),
      luaTableToGo ⟨.amd64, fun _ => "", fun _ => none⟩
        (LTable.mk [.bool true] [("name", .str "x")] []) = GoValue.map m ∧
      (m.map Prod.fst).Nodup ∧
      (∀ s, s ∈ m.map Prod.fst ↔
        ∃ kv ∈ (LTable.mk [.bool true] [("name", .str "x")] []).ForEach,
          kv.1.String ⟨.amd64, fun _ => "", fun _ => none⟩ = s) ∧
      (∀ kv ∈ (LTable.mk [.bool true] [("name", .str "x")] []).ForEach,
        (∀ kv2 ∈ (LTable.mk [.bool true] [("name", .str "x")] []).ForEach,
          kv2.1.String ⟨.amd64, fun _ => "", fun _ => none⟩ =
            kv.1.String ⟨.amd64, fun _ => "", fun _ => none⟩ → kv2 = kv) →
        assocGet strEq m (kv.1.String ⟨.amd64, fun _ => "", fun _ => none⟩) =
          some (luaToGo ⟨.amd64, fun _ => "", fun _ => none⟩ kv.2)) :=
  have hk : ∃ kv ∈ (LTable.mk [.bool true] [("name", .str "x")] []).ForEach,
      kv.1.asNumber = none :=
    ⟨(LKey.str "name", LValue.str "x"), by simp [LTable.ForEach, LTable.array, LTable.strdict,
      LTable.dict, arrayEntries, strdictEntries, dictEntries, LValue.isNil], rfl⟩
  ⟨hk, luaTableToGo_non_number_key _ _ hk⟩

/-! ## Totality of `luaToGo` -/

theorem luaTableToGo_isHost_of_parts (E : Env) (t : LTable)
    (ha : ∀ v ∈ t.array, IsHostValue (luaToGo E v))
    (hs : ∀ p ∈ t.strdict, IsHostValue (luaToGo E p.2))
    (hd : ∀ p ∈ t.dict, IsHostValue (luaToGo E p.2)) :
    IsHostValue (luaTableToGo E t) := by
  rw [luaTableToGo_eq]
  split
  · apply IsHostValue.slice
    intro x hx
    obtain ⟨i, -, rfl⟩ := List.mem_map.mp hx
    rw [luaToGo_rawGetInt]
    rw [List.getD_eq_getElem?_getD]
    cases hget : (t.array.map (luaToGo E))[i]? with
    | none => exact IsHostValue.nil
    | some y =>
      obtain ⟨v, hv, rfl⟩ := List.mem_map.mp (List.getElem?_mem hget)
      exact ha v hv
  · apply IsHostValue.map
    apply foldSet_values (fun kv : LKey × LValue => kv.1.String E) (fun kv => luaToGo E kv.2)
      IsHostValue
    · intro p hp; cases hp
    · intro kv hkv
      rcases (mem_ForEach t kv).mp hkv with h | h | h
      · obtain ⟨j, hj, -, -⟩ := (mem_arrayEntries _ _ kv.1 kv.2).mp h
        exact ha _ (List.getElem?_mem hj)
      · obtain ⟨n, hn, -, -⟩ := (mem_strdictEntries _ kv.1 kv.2).mp h
        exact hs (n, kv.2) hn
      · exact hd kv ((mem_dictEntries _ kv.1 kv.2).mp h).1

mutual
theorem luaToGo_isHost (E : Env) : ∀ v : LValue, IsHostValue (luaToGo E v)
  | .nil => by rw [luaToGo]; exact IsHostValue.nil
  | .bool b => by rw [luaToGo]; exact IsHostValue.bool b
  | .number x => by
    rw [luaToGo]
    split
    · exact IsHostValue.int64 _
    · exact IsHostValue.float64 _
  | .str s => by rw [luaToGo]; exact IsHostValue.string s
  | .table t => by rw [luaToGo]; exact luaTableToGo_isHost E t
  | .other kind addr => by rw [luaToGo]; exact IsHostValue.string _
theorem luaTableToGo_isHost (E : Env) : ∀ t : LTable, IsHostValue (luaTableToGo E t)
  | .mk a s d =>
    luaTableToGo_isHost_of_parts E (.mk a s d) (array_isHost E a) (strdict_isHost E s)
      (dict_isHost E d)
theorem array_isHost (E : Env) : ∀ l : List LValue, ∀ v ∈ l, IsHostValue (luaToGo E v)
  | [] => fun _ hv => by cases hv
  | w :: ws => fun v hv => by
    rcases List.mem_cons.mp hv with h | h
    · rw [h]; exact luaToGo_isHost E w
    · exact array_isHost E ws v h
theorem strdict_isHost (E : Env) :
    ∀ l : List (String × LValue), ∀ p ∈ l, IsHostValue (luaToGo E p.2)
  | [] => fun _ hp => by cases hp
  | (k, w) :: ws => fun p hp => by
    rcases List.mem_cons.mp hp with h | h
    · rw [h]; exact luaToGo_isHost E w
    · exact strdict_isHost E ws p h
theorem dict_isHost (E : Env) :
    ∀ l : List (LKey × LValue), ∀ p ∈ l, IsHostValue (luaToGo E p.2)
  | [] => fun _ hp => by cases hp
  | (k, w) :: ws => fun p hp => by
    rcases List.mem_cons.mp hp with h | h
    · rw [h]; exact luaToGo_isHost E w
    · exact dict_isHost E ws p h
end

/-- C10: `luaToGo` is a total function on the Lua values (nil, booleans,
numbers, strings, finitely nested tables, and the remaining kinds): on every
input it returns a value of the closed set, namely nil, a bool, an int64, a
float64, a string, a slice of such values or a string-keyed map of such values;
a value of a remaining kind is returned as its `String()` text. -/
theorem luaToGo_total (E : Env) :
    (∀ v : LValue, ∃ r : GoValue, luaToGo E v = r ∧ IsHostValue r) ∧
    (∀ (kind : RefKind) (addr : ℕ),
      luaToGo E (.other kind addr) = GoValue.string (kind.name ++ ": " ++ hexAddr addr)) :=
  ⟨fun v => ⟨luaToGo E v, rfl, luaToGo_isHost E v⟩, fun kind addr => by rw [luaToGo]⟩

/-! ## Tables whose entries all sit in the array part -/

theorem toInt64_natCast (a : Arch) (i : ℕ) (h : (i : ℤ) ≤ maxInt64) :
    (Float64.fin (i : ℚ)).toInt64 a = (i : ℤ) := by
  have := toInt64_intCast a (i : ℤ) (by simp only [minInt64]; omega) h
  simpa using this

theorem roundInt53_natCast_small (i : ℕ) (h : i < 2 ^ 53) : roundInt53 (i : ℤ) = (i : ℤ) := by
  unfold roundInt53
  rw [if_neg (by omega)]
  simp only [Int.natAbs_ofNat]
  rw [roundNat53_small i h]

theorem isInteger_natCast (a : Arch) (i : ℕ) (h : i < 2 ^ 53) :
    isInteger a (.fin (i : ℚ)) = true := by
  have h1 : (i : ℤ) ≤ maxInt64 := by
    simp only [maxInt64]
    have : (2 : ℕ) ^ 53 = 9007199254740992 := by norm_num
    omega
  rw [isInteger, toInt64_natCast a i h1, Float64.ofInt64, roundInt53_natCast_small i h,
    Float64.eq_fin_fin]
  simp

theorem isArrayKey_natCast (a : Arch) (i : ℕ) (h1 : 1 ≤ i) (h2 : i < MaxArrayIndex) :
    isArrayKey a (.fin (i : ℚ)) = true := by
  have hM : MaxArrayIndex = 67108864 := rfl
  have h53 : i < 2 ^ 53 := by
    have : (2 : ℕ) ^ 53 = 9007199254740992 := by norm_num
    omega
  have h3 : (i : ℤ) ≤ maxInt64 := by simp only [maxInt64]; omega
  rw [isArrayKey, isInteger_natCast a i h53, toInt64_natCast a i h3]
  simp only [Bool.true_and, Bool.and_eq_true, decide_eq_true_eq]
  constructor
  · omega
  · exact_mod_cast h2

theorem number_fin_natCast_inj (i j : ℕ)
    (h : LKey.number (.fin (i : ℚ)) = LKey.number (.fin (j : ℚ))) : i = j := by
  injection h with h
  injection h with h
  exact_mod_cast h

theorem getD_isNil_lt_length (a : List LValue) (j : ℕ)
    (h : (a.getD j LValue.nil).isNil = false) : j < a.length := by
  by_contra hj
  rw [List.getD_eq_getElem?_getD, List.getElem?_eq_none (by omega)] at h
  simp [LValue.isNil] at h

theorem getD_of_getElem? (a : List LValue) (j : ℕ) (v : LValue) (h : a[j]? = some v) :
    a.getD j LValue.nil = v := by
  rw [List.getD_eq_getElem?_getD, h]; rfl

theorem getElem?_of_getD_isNil (a : List LValue) (j : ℕ)
    (h : (a.getD j LValue.nil).isNil = false) : a[j]? = some (a.getD j LValue.nil) := by
  have hj := getD_isNil_lt_length a j h
  rw [List.getD_eq_getElem?_getD, List.getElem?_eq_getElem hj]
  rfl

/-- A table with no entry in the hash parts whose last non-nil array element is
at position `N ≥ 1` passes the test `isArray && maxN > 0 && tbl.Len() == maxN`,
with `maxN = N`. -/
theorem scan_of_array (E : Env) (t : LTable) (N : ℕ)
    (hs : strdictEntries t.strdict = []) (hd : dictEntries t.dict = [])
    (hN : 1 ≤ N) (hmax : (N : ℤ) ≤ maxInt64)
    (hlast : (t.array.getD (N - 1) LValue.nil).isNil = false)
    (hnil : ∀ j, N ≤ j → (t.array.getD j LValue.nil).isNil = true) :
    scanKeys E t = (true, (N : ℤ)) ∧ t.Len = N ∧ isSequence E t = true := by
  have hfe : t.ForEach = arrayEntries 0 t.array := by
    rw [LTable.ForEach, hs, hd]; simp
  have hlen : N ≤ t.array.length := by
    have := getD_isNil_lt_length _ _ hlast
    omega
  have hLen : t.Len = N :=
    lenLoop_eq t.array N t.array.length hlen (fun j h1 _ => hnil j h1) (Or.inr hlast)
  have hkey : ∀ k ∈ t.ForEach.map Prod.fst,
      ∃ j : ℕ, j < N ∧ k = LKey.number (.fin ((j + 1 : ℕ) : ℚ)) := by
    intro k hk
    obtain ⟨kv, hkv, rfl⟩ := List.mem_map.mp hk
    rw [hfe] at hkv
    obtain ⟨j, hj1, hj2, hj3⟩ := (mem_arrayEntries _ _ kv.1 kv.2).mp hkv
    refine ⟨j, ?_, by rw [hj3]; simp⟩
    by_contra hjN
    have := hnil j (by omega)
    rw [getD_of_getElem? _ _ _ hj1, hj2] at this
    cases this
  have hfst : (scanKeys E t).1 = true := by
    rw [scanKeys_eq, scanFold_fst]
    simp only [Bool.true_and, List.all_eq_true]
    intro k hk
    obtain ⟨j, -, rfl⟩ := hkey k hk
    rfl
  have hsnd : (scanKeys E t).2 = (N : ℤ) := by
    obtain ⟨h0, hub, hex⟩ := scanFold_snd E (t.ForEach.map Prod.fst) (true, 0)
    rw [← scanKeys_eq] at h0 hub hex
    have hNmem : LKey.number (.fin ((N : ℕ) : ℚ)) ∈ t.ForEach.map Prod.fst := by
      rw [hfe]
      apply List.mem_map.mpr
      refine ⟨(LKey.number (.fin ((N : ℕ) : ℚ)), t.array.getD (N - 1) LValue.nil), ?_, rfl⟩
      rw [mem_arrayEntries]
      refine ⟨N - 1, getElem?_of_getD_isNil _ _ hlast, hlast, ?_⟩
      congr 3
      omega
    have hge := hub _ hNmem
    rw [toInt64_natCast _ N hmax] at hge
    rcases hex with h | ⟨x, hx, hx2⟩
    · simp only at h
      omega
    · obtain ⟨j, hj, hjk⟩ := hkey _ hx
      injection hjk with hjk
      subst hjk
      rw [toInt64_natCast _ (j + 1) (by omega)] at hx2
      have : ((j + 1 : ℕ) : ℤ) ≤ N := by exact_mod_cast hj
      omega
  refine ⟨Prod.ext hfst hsnd, hLen, ?_⟩
  rw [isSequence, hfst, hsnd, hLen]
  simp only [Bool.true_and, Bool.and_eq_true, decide_eq_true_eq]
  exact ⟨by omega, trivial⟩

/-- The slice `luaTableToGo` returns when the test succeeds with `maxN = N`. -/
theorem luaTableToGo_slice (E : Env) (t : LTable) (N : ℕ)
    (h1 : scanKeys E t = (true, (N : ℤ))) (h2 : isSequence E t = true) :
    luaTableToGo E t =
      GoValue.slice ((List.range N).map (fun i => (t.array.map (luaToGo E)).getD i GoValue.nil)) := by
  rw [luaTableToGo_eq, h2, h1]
  simp only [if_true, Int.toNat_ofNat]
  congr 1
  apply List.map_congr_left
  intro i _
  exact luaToGo_rawGetInt E t i

/-! ## Tables with the keys `1..N` -/

theorem hash_empty_of_keys (a : Arch) (t : LTable) (N : ℕ) (hwf : t.WF a)
    (hNmax : N < MaxArrayIndex)
    (hkeys : ∀ k, k ∈ t.ForEach.map Prod.fst →
      ∃ i : ℕ, 1 ≤ i ∧ i ≤ N ∧ k = LKey.number (.fin (i : ℚ))) :
    strdictEntries t.strdict = [] ∧ dictEntries t.dict = [] := by
  constructor
  · apply List.eq_nil_iff_forall_not_mem.mpr
    intro kv hkv
    obtain ⟨n, -, -, hn⟩ := (mem_strdictEntries _ kv.1 kv.2).mp hkv
    obtain ⟨i, -, -, hi⟩ := hkeys kv.1
      (List.mem_map_of_mem _ ((mem_ForEach t kv).mpr (Or.inr (Or.inl hkv))))
    rw [hn] at hi
    cases hi
  · apply List.eq_nil_iff_forall_not_mem.mpr
    intro kv hkv
    obtain ⟨i, hi1, hi2, hi⟩ := hkeys kv.1
      (List.mem_map_of_mem _ ((mem_ForEach t kv).mpr (Or.inr (Or.inr hkv))))
    have hmem := ((mem_dictEntries _ kv.1 kv.2).mp hkv).1
    have := hwf kv hmem _ hi
    rw [isArrayKey_natCast a i hi1 (by omega)] at this
    cases this

/-- C3, below `MaxArrayIndex`: a table, in the representation the interpreter
keeps, whose keys are exactly `1, 2, ..., N` with `1 ≤ N < MaxArrayIndex =
67108864` is converted to a slice of length `N` whose element at position `i-1`
is `luaToGo` of the value the table holds at key `i`. -/
theorem luaTableToGo_keys_1_to_N (E : Env) (t : LTable) (N : ℕ) (hwf : t.WF E.arch)
    (hN : 1 ≤ N) (hNmax : N < MaxArrayIndex)
    (hkeys : ∀ k, k ∈ t.ForEach.map Prod.fst ↔
      ∃ i : ℕ, 1 ≤ i ∧ i ≤ N ∧ k = LKey.number (.fin (i : ℚ))) :
    ∃ xs : List GoValue, luaTableToGo E t = GoValue.slice xs ∧ xs.length = N ∧
      ∀ (i : ℕ) (v : LValue), (LKey.number (.fin (i : ℚ)), v) ∈ t.ForEach →
        xs[i - 1]? = some (luaToGo E v) := by
  have hM : MaxArrayIndex = 67108864 := rfl
  obtain ⟨hs, hd⟩ := hash_empty_of_keys E.arch t N hwf hNmax (fun k hk => (hkeys k).mp hk)
  have hfe : t.ForEach = arrayEntries 0 t.array := by
    rw [LTable.ForEach, hs, hd]; simp
  have hpos : ∀ i : ℕ, 1 ≤ i → i ≤ N →
      ∃ v, t.array[i - 1]? = some v ∧ v.isNil = false := by
    intro i h1 h2
    obtain ⟨kv, hkv, hk⟩ := List.mem_map.mp ((hkeys _).mpr ⟨i, h1, h2, rfl⟩)
    rw [hfe] at hkv
    obtain ⟨j, hj1, hj2, hj3⟩ := (mem_arrayEntries _ _ kv.1 kv.2).mp hkv
    rw [hk] at hj3
    have := number_fin_natCast_inj _ _ hj3
    have hji : j = i - 1 := by omega
    exact ⟨kv.2, by rw [← hji]; exact hj1, hj2⟩
  have hlast : (t.array.getD (N - 1) LValue.nil).isNil = false := by
    obtain ⟨v, hv1, hv2⟩ := hpos N hN (le_refl _)
    rw [getD_of_getElem? _ _ _ hv1]; exact hv2
  have hnil : ∀ j, N ≤ j → (t.array.getD j LValue.nil).isNil = true := by
    intro j hj
    by_contra hne
    have hne2 : (t.array.getD j LValue.nil).isNil = false := by simpa using hne
    have hmem : (LKey.number (.fin ((0 + j + 1 : ℕ) : ℚ)), t.array.getD j LValue.nil) ∈
        t.ForEach := by
      rw [hfe, mem_arrayEntries]
      exact ⟨j, getElem?_of_getD_isNil _ _ hne2, hne2, rfl⟩
    obtain ⟨i, -, hi2, hi⟩ := (hkeys _).mp (List.mem_map_of_mem Prod.fst hmem)
    have := number_fin_natCast_inj _ _ hi
    omega
  obtain ⟨hscan, -, hseq⟩ := scan_of_array E t N hs hd hN
    (by simp only [maxInt64]; omega) hlast hnil
  refine ⟨_, luaTableToGo_slice E t N hscan hseq, by simp, ?_⟩
  intro i v hiv
  obtain ⟨i2, hi1, hi2, hi3⟩ := (hkeys _).mp (List.mem_map_of_mem Prod.fst hiv)
  have hii := number_fin_natCast_inj _ _ hi3
  subst hii
  rw [hfe] at hiv
  obtain ⟨j, hj1, -, hj3⟩ := (mem_arrayEntries _ _ _ _).mp hiv
  have hj := number_fin_natCast_inj _ _ hj3
  have hji : i - 1 = j := by omega
  rw [hji, List.getElem?_map, List.getElem?_range (by omega)]
  simp only [Option.map_some', List.getD_eq_getElem?_getD, List.getElem?_map, hj1,
    Option.getD_some]

theorem luaTableToGo_keys_1_to_N_witness :
    (LTable.mk [.bool true, .str "b"] [] []).WF Arch.amd64 ∧ 1 ≤ 2 ∧ 2 < MaxArrayIndex ∧
    (∀ k, k ∈ (LTable.mk [.bool true, .str "b"] [] []).ForEach.map Prod.fst ↔
      ∃ i : ℕ, 1 ≤ i ∧ i ≤ 2 ∧ k = LKey.number (.fin (i : ℚ))) ∧
    ∃ xs : List GoValue,
      luaTableToGo ⟨.amd64, fun _ => "", fun _ => none⟩ (.mk [.bool true, .str "b"] [] []) =
        GoValue.slice xs ∧ xs.length = 2 ∧
      ∀ (i : ℕ) (v : LValue),
        (LKey.number (.fin (i : ℚ)), v) ∈ (LTable.mk [.bool true, .str "b"] [] []).ForEach →
        xs[i - 1]? = some (luaToGo ⟨.amd64, fun _ => "", fun _ => none⟩ v) :=
  have hwf : (LTable.mk [.bool true, .str "b"] [] []).WF Arch.amd64 :=
    fun kv hkv => by cases hkv
  have hkeys : ∀ k, k ∈ (LTable.mk [.bool true, .str "b"] [] []).ForEach.map Prod.fst ↔
      ∃ i : ℕ, 1 ≤ i ∧ i ≤ 2 ∧ k = LKey.number (.fin (i : ℚ)) := by
    intro k
    have hfe : (LTable.mk [.bool true, .str "b"] [] []).ForEach =
        [(LKey.number (.fin ((1 : ℕ) : ℚ)), LValue.bool true),
          (LKey.number (.fin ((2 : ℕ) : ℚ)), LValue.str "b")] := rfl
    rw [hfe]
    simp only [List.map_cons, List.map_nil, List.mem_cons, List.mem_singleton,
      List.not_mem_nil, or_false]
    constructor
    · rintro (h | h)
      · exact ⟨1, le_refl _, by norm_num, h⟩
      · exact ⟨2, by norm_num, le_refl _, h⟩
    · rintro ⟨i, h1, h2, h3⟩
      have : i = 1 ∨ i = 2 := by omega
      rcases this with h | h
      · left; rw [h3, h]
      · right; rw [h3, h]
  ⟨hwf, by norm_num, by decide, hkeys,
    luaTableToGo_keys_1_to_N ⟨.amd64, fun _ => "", fun _ => none⟩ _ 2 hwf (by norm_num)
      (by decide) hkeys⟩

/-! ## Tables that reach `MaxArrayIndex` -/

theorem getD_replicate_true (n j : ℕ) :
    (List.replicate n (LValue.bool true)).getD j LValue.nil =
      if j < n then LValue.bool true else LValue.nil := by
  rw [List.getD_eq_getElem?_getD, List.getElem?_replicate]
  split <;> rfl

theorem fullTable_append (n : ℕ) :
    (fullTable n).Append (LValue.bool true) = fullTable (n + 1) := by
  have hnil : (LValue.bool true).isNil = false := rfl
  rw [LTable.Append, if_neg (by rw [hnil]; simp)]
  have harr : (fullTable n).array = List.replicate n (LValue.bool true) := rfl
  rw [if_pos]
  · rw [harr]
    show LTable.mk (List.replicate n (LValue.bool true) ++ [LValue.bool true]) [] [] =
      LTable.mk (List.replicate (n + 1) (LValue.bool true)) [] []
    rw [List.replicate_succ']
  · rw [harr, List.length_replicate, getD_replicate_true]
    by_cases h : n = 0
    · left; exact h
    · right; rw [if_pos (by omega)]; rfl

theorem fullTable_rawSetInt (n : ℕ) (h1 : MaxArrayIndex ≤ n + 1) (h2 : n + 1 < 2 ^ 53) :
    (fullTable n).RawSetInt ((n + 1 : ℕ) : ℤ) (LValue.bool true) = spillTable n := by
  rw [LTable.RawSetInt, if_pos (Or.inr (by exact_mod_cast h1))]
  rw [Float64.ofInt64, roundInt53_natCast_small (n + 1) h2]
  simp only [LTable.RawSetH, LValue.isNil, Bool.false_eq_true, if_false]
  rfl

theorem mem_keys_fullTable (n : ℕ) (k : LKey) :
    k ∈ (fullTable n).ForEach.map Prod.fst ↔
      ∃ i : ℕ, 1 ≤ i ∧ i ≤ n ∧ k = LKey.number (.fin (i : ℚ)) := by
  have hfe : (fullTable n).ForEach = arrayEntries 0 (List.replicate n (LValue.bool true)) := by
    rw [LTable.ForEach]
    show arrayEntries 0 (List.replicate n (LValue.bool true)) ++
      (strdictEntries [] ++ dictEntries []) = _
    rw [strdictEntries, dictEntries, List.append_nil, List.append_nil]
  rw [hfe]
  constructor
  · intro hk
    obtain ⟨kv, hkv, rfl⟩ := List.mem_map.mp hk
    obtain ⟨j, hj1, -, hj3⟩ := (mem_arrayEntries _ _ kv.1 kv.2).mp hkv
    rw [List.getElem?_replicate] at hj1
    have hjn : j < n := by
      by_contra h; rw [if_neg h] at hj1; cases hj1
    exact ⟨j + 1, by omega, by omega, by rw [hj3]; congr 3; omega⟩
  · rintro ⟨i, h1, h2, rfl⟩
    apply List.mem_map.mpr
    refine ⟨(LKey.number (.fin (i : ℚ)), LValue.bool true), ?_, rfl⟩
    rw [mem_arrayEntries]
    refine ⟨i - 1, ?_, rfl, ?_⟩
    · rw [List.getElem?_replicate, if_pos (by omega)]
    · congr 3; omega

theorem forEach_spillTable (n : ℕ) :
    (spillTable n).ForEach = (fullTable n).ForEach ++
      [(LKey.number (.fin ((n + 1 : ℕ) : ℚ)), LValue.bool true)] := by
  rw [LTable.ForEach, LTable.ForEach]
  show arrayEntries 0 (List.replicate n (LValue.bool true)) ++
      (strdictEntries [] ++ dictEntries [(LKey.number (.fin ((n + 1 : ℕ) : ℚ)), LValue.bool true)])
    = arrayEntries 0 (List.replicate n (LValue.bool true)) ++
      (strdictEntries [] ++ dictEntries []) ++ _
  rw [strdictEntries, dictEntries, dictEntries, dictEntries, if_neg (by simp [LValue.isNil]),
    List.nil_append, List.append_nil, List.append_nil]

theorem mem_keys_spillTable (n : ℕ) (k : LKey) :
    k ∈ (spillTable n).ForEach.map Prod.fst ↔
      ∃ i : ℕ, 1 ≤ i ∧ i ≤ n + 1 ∧ k = LKey.number (.fin (i : ℚ)) := by
  rw [forEach_spillTable, List.map_append, List.mem_append, mem_keys_fullTable]
  simp only [List.map_cons, List.map_nil, List.mem_singleton]
  constructor
  · rintro (⟨i, h1, h2, h3⟩ | h)
    · exact ⟨i, h1, by omega, h3⟩
    · exact ⟨n + 1, by omega, le_refl _, h⟩
  · rintro ⟨i, h1, h2, h3⟩
    by_cases hi : i = n + 1
    · right; rw [h3, hi]
    · left; exact ⟨i, h1, by omega, h3⟩

theorem fullTable_wf (a : Arch) (n : ℕ) : (fullTable n).WF a :=
  fun kv hkv => by cases hkv

theorem spillTable_wf (a : Arch) (n : ℕ) (h1 : MaxArrayIndex ≤ n + 1)
    (h2 : ((n + 1 : ℕ) : ℤ) ≤ maxInt64) : (spillTable n).WF a := by
  intro kv hkv x hx
  have hkv2 : kv = (LKey.number (.fin ((n + 1 : ℕ) : ℚ)), LValue.bool true) := by
    have : kv ∈ [(LKey.number (.fin ((n + 1 : ℕ) : ℚ)), LValue.bool true)] := hkv
    exact List.mem_singleton.mp this
  rw [hkv2] at hx
  injection hx with hx
  subst hx
  rw [isArrayKey, toInt64_natCast a (n + 1) h2]
  have : ¬ (((n + 1 : ℕ) : ℤ) < (MaxArrayIndex : ℤ)) := by
    have : (MaxArrayIndex : ℤ) ≤ ((n + 1 : ℕ) : ℤ) := by exact_mod_cast h1
    omega
  rw [decide_eq_false this, Bool.and_false]

theorem isSequence_spillTable (E : Env) (n : ℕ) (h2 : ((n + 1 : ℕ) : ℤ) ≤ maxInt64) :
    isSequence E (spillTable n) = false := by
  have hlen : (spillTable n).Len ≤ n := by
    have := Len_le_length (spillTable n)
    have harr : (spillTable n).array = List.replicate n (LValue.bool true) := rfl
    rw [harr, List.length_replicate] at this
    exact this
  obtain ⟨-, hub, -⟩ := scanFold_snd E ((spillTable n).ForEach.map Prod.fst) (true, 0)
  rw [← scanKeys_eq] at hub
  have := hub (.fin ((n + 1 : ℕ) : ℚ)) (by
    rw [forEach_spillTable, List.map_append]
    exact List.mem_append_right _ (List.mem_singleton.mpr rfl))
  rw [toInt64_natCast _ _ h2] at this
  have hne : ¬ (((spillTable n).Len : ℤ) = (scanKeys E (spillTable n)).2) := by
    have : ((spillTable n).Len : ℤ) ≤ (n : ℤ) := by exact_mod_cast hlen
    push_cast at *
    omega
  simp [isSequence, hne]

theorem isSequence_fullTable (E : Env) (n : ℕ) (h1 : 1 ≤ n) (h2 : (n : ℤ) ≤ maxInt64) :
    isSequence E (fullTable n) = true := by
  have harr : (fullTable n).array = List.replicate n (LValue.bool true) := rfl
  refine (scan_of_array E (fullTable n) n rfl rfl h1 h2 ?_ ?_).2.2
  · rw [harr, getD_replicate_true, if_pos (by omega)]; rfl
  · intro j hj
    rw [harr, getD_replicate_true, if_neg (by omega)]; rfl

theorem luaTableToGo_shape (E : Env) (t : LTable) :
    (isSequence E t = true → ∃ xs, luaTableToGo E t = GoValue.slice xs) ∧
    (isSequence E t = false → ∃ m, luaTableToGo E t = GoValue.map m) := by
  rw [luaTableToGo_eq]
  constructor
  · intro h; rw [h]; exact ⟨_, rfl⟩
  · intro h; rw [h]; exact ⟨_, rfl⟩

/-- C3: the table with the keys `1..67108864`, each bound to `true`, that the
assignment `t[67108864] = true` leaves when the keys `1..67108863` are present,
keeps its last key in the hash part because `67108864` is not below
`MaxArrayIndex`; `Len` is then `67108863`, the test `tbl.Len() == maxN` fails and
`luaTableToGo` returns a map, not the slice of length `67108864` that its
sequential integer keys starting from `1` call for. -/
theorem luaTableToGo_keys_1_to_MaxArrayIndex :
    (fullTable 67108863).RawSetInt 67108864 (LValue.bool true) = spillTable 67108863 ∧
    (∀ a : Arch, (spillTable 67108863).WF a) ∧
    (∀ k, k ∈ (spillTable 67108863).ForEach.map Prod.fst ↔
      ∃ i : ℕ, 1 ≤ i ∧ i ≤ 67108864 ∧ k = LKey.number (.fin (i : ℚ))) ∧
    (∀ E : Env, ∃ m, luaTableToGo E (spillTable 67108863) = GoValue.map m) := by
  have hmax : (((67108863 : ℕ) + 1 : ℕ) : ℤ) ≤ maxInt64 := by
    simp only [maxInt64]; norm_num
  refine ⟨?_, ?_, ?_, ?_⟩
  · exact fullTable_rawSetInt 67108863 (le_refl _) (by norm_num)
  · intro a
    exact spillTable_wf a 67108863 (le_refl _) hmax
  · intro k
    exact mem_keys_spillTable 67108863 k
  · intro E
    exact (luaTableToGo_shape E _).2 (isSequence_spillTable E 67108863 hmax)

/-! ## The shape decision as a function of the key set -/

theorem scanKeys_eq_of_same_keys (E : Env) (t1 t2 : LTable)
    (hkeys : ∀ k, k ∈ t1.ForEach.map Prod.fst ↔ k ∈ t2.ForEach.map Prod.fst) :
    scanKeys E t1 = scanKeys E t2 := by
  apply Prod.ext
  · rw [scanKeys_eq, scanKeys_eq, scanFold_fst, scanFold_fst]
    simp only [Bool.true_and]
    rw [Bool.eq_iff_iff, List.all_eq_true, List.all_eq_true]
    exact ⟨fun h k hk => h k ((hkeys k).mpr hk), fun h k hk => h k ((hkeys k).mp hk)⟩
  · obtain ⟨a0, aub, aex⟩ := scanFold_snd E (t1.ForEach.map Prod.fst) (true, 0)
    obtain ⟨b0, bub, bex⟩ := scanFold_snd E (t2.ForEach.map Prod.fst) (true, 0)
    rw [← scanKeys_eq] at a0 aub aex b0 bub bex
    simp only at a0 b0 aex bex
    apply le_antisymm
    · rcases aex with h | ⟨x, hx, hx2⟩
      · rw [h]; exact b0
      · rw [← hx2]; exact bub x ((hkeys _).mp hx)
    · rcases bex with h | ⟨x, hx, hx2⟩
      · rw [h]; exact a0
      · rw [← hx2]; exact aub x ((hkeys _).mpr hx)

/-- What `Len` returns in terms of the keys of the array part: the largest of
them, or `0` when there is none. -/
theorem Len_spec (t : LTable) :
    (t.Len = 0 ∨ ∃ v, (LKey.number (.fin ((t.Len : ℕ) : ℚ)), v) ∈ arrayEntries 0 t.array) ∧
    ∀ (m : ℕ) (v : LValue),
      (LKey.number (.fin ((m : ℕ) : ℚ)), v) ∈ arrayEntries 0 t.array → m ≤ t.Len := by
  obtain ⟨h1, h2⟩ := lenLoop_spec t.array t.array.length
  constructor
  · rcases h1 with h | h
    · left; exact h
    · by_cases h0 : t.Len = 0
      · left; exact h0
      · right
        refine ⟨t.array.getD (t.Len - 1) LValue.nil, ?_⟩
        rw [mem_arrayEntries]
        refine ⟨t.Len - 1, getElem?_of_getD_isNil _ _ h, h, ?_⟩
        congr 3
        omega
  · intro m v hmv
    obtain ⟨j, hj1, hj2, hj3⟩ := (mem_arrayEntries _ _ _ _).mp hmv
    have hm := number_fin_natCast_inj _ _ hj3
    by_contra hlt
    have hjlen : j < t.array.length := by
      by_contra hj
      rw [List.getElem?_eq_none (by omega)] at hj1
      cases hj1
    have := h2 j (by show t.Len ≤ j; omega) hjlen
    rw [getD_of_getElem? _ _ _ hj1, hj2] at this
    cases this

theorem arrayKey_transfer (a : Arch) (t1 t2 : LTable) (hwf2 : t2.WF a)
    (hkeys : ∀ k, k ∈ t1.ForEach.map Prod.fst → k ∈ t2.ForEach.map Prod.fst)
    (hb : ∀ k ∈ t1.ForEach.map Prod.fst, ∀ i : ℕ,
      k = LKey.number (.fin (i : ℚ)) → i < MaxArrayIndex)
    (m : ℕ) (h : ∃ v, (LKey.number (.fin ((m : ℕ) : ℚ)), v) ∈ arrayEntries 0 t1.array) :
    ∃ v, (LKey.number (.fin ((m : ℕ) : ℚ)), v) ∈ arrayEntries 0 t2.array := by
  obtain ⟨v, hv⟩ := h
  have hm1 : 1 ≤ m := by
    obtain ⟨j, -, -, hj3⟩ := (mem_arrayEntries _ _ _ _).mp hv
    have := number_fin_natCast_inj _ _ hj3
    omega
  have hk1 : LKey.number (.fin ((m : ℕ) : ℚ)) ∈ t1.ForEach.map Prod.fst :=
    List.mem_map_of_mem Prod.fst ((mem_ForEach t1 _).mpr (Or.inl hv))
  have hmM := hb _ hk1 m rfl
  obtain ⟨kv, hkv, hk⟩ := List.mem_map.mp (hkeys _ hk1)
  rcases (mem_ForEach t2 kv).mp hkv with h | h | h
  · refine ⟨kv.2, ?_⟩
    rw [← hk]; exact h
  · obtain ⟨n, -, -, hn⟩ := (mem_strdictEntries _ kv.1 kv.2).mp h
    rw [hn] at hk; cases hk
  · have := hwf2 kv ((mem_dictEntries _ kv.1 kv.2).mp h).1 _ hk
    rw [isArrayKey_natCast a m hm1 hmM] at this
    cases this

theorem isSequence_eq_of_same_keys (E : Env) (t1 t2 : LTable) (hwf1 : t1.WF E.arch)
    (hwf2 : t2.WF E.arch)
    (hb : ∀ k ∈ t1.ForEach.map Prod.fst, ∀ i : ℕ,
      k = LKey.number (.fin (i : ℚ)) → i < MaxArrayIndex)
    (hkeys : ∀ k, k ∈ t1.ForEach.map Prod.fst ↔ k ∈ t2.ForEach.map Prod.fst) :
    isSequence E t1 = isSequence E t2 := by
  have hscan := scanKeys_eq_of_same_keys E t1 t2 hkeys
  have hb2 : ∀ k ∈ t2.ForEach.map Prod.fst, ∀ i : ℕ,
      k = LKey.number (.fin (i : ℚ)) → i < MaxArrayIndex :=
    fun k hk => hb k ((hkeys k).mpr hk)
  have h12 := arrayKey_transfer E.arch t1 t2 hwf2 (fun k hk => (hkeys k).mp hk) hb
  have h21 := arrayKey_transfer E.arch t2 t1 hwf1 (fun k hk => (hkeys k).mpr hk) hb2
  obtain ⟨a1, a2⟩ := Len_spec t1
  obtain ⟨b1, b2⟩ := Len_spec t2
  have hlen : t1.Len = t2.Len := by
    apply le_antisymm
    · rcases a1 with h | h
      · omega
      · obtain ⟨v, hv⟩ := h12 _ h
        exact b2 _ v hv
    · rcases b1 with h | h
      · omega
      · obtain ⟨v, hv⟩ := h21 _ h
        exact a2 _ v hv
  rw [isSequence, isSequence, hscan, hlen]

/-- C8, below `MaxArrayIndex`: two tables, in the representation the interpreter
keeps, that have the same set of keys, none of them an integer of
`MaxArrayIndex` (67108864) or more, are both converted to a slice or both to a
map, whatever values they hold. -/
theorem luaTableToGo_shape_of_keys (E : Env) (t1 t2 : LTable) (hwf1 : t1.WF E.arch)
    (hwf2 : t2.WF E.arch)
    (hb : ∀ k ∈ t1.ForEach.map Prod.fst, ∀ i : ℕ,
      k = LKey.number (.fin (i : ℚ)) → i < MaxArrayIndex)
    (hkeys : ∀ k, k ∈ t1.ForEach.map Prod.fst ↔ k ∈ t2.ForEach.map Prod.fst) :
    ((∃ xs, luaTableToGo E t1 = GoValue.slice xs) ∧
      (∃ ys, luaTableToGo E t2 = GoValue.slice ys)) ∨
    ((∃ m1, luaTableToGo E t1 = GoValue.map m1) ∧
      (∃ m2, luaTableToGo E t2 = GoValue.map m2)) := by
  have h := isSequence_eq_of_same_keys E t1 t2 hwf1 hwf2 hb hkeys
  cases h1 : isSequence E t1 with
  | true =>
    left
    exact ⟨(luaTableToGo_shape E t1).1 h1, (luaTableToGo_shape E t2).1 (by rw [← h, h1])⟩
  | false =>
    right
    exact ⟨(luaTableToGo_shape E t1).2 h1, (luaTableToGo_shape E t2).2 (by rw [← h, h1])⟩

theorem luaTableToGo_shape_of_keys_witness :
    (LTable.mk [.bool true] [] []).WF Arch.amd64 ∧
    (LTable.mk [.str "a", .nil] [] []).WF Arch.amd64 ∧
    (∀ k ∈ (LTable.mk [.bool true] [] []).ForEach.map Prod.fst, ∀ i : ℕ,
      k = LKey.number (.fin (i : ℚ)) → i < MaxArrayIndex) ∧
    (∀ k, k ∈ (LTable.mk [.bool true] [] []).ForEach.map Prod.fst ↔
      k ∈ (LTable.mk [.str "a", .nil] [] []).ForEach.map Prod.fst) ∧
    (((∃ xs, luaTableToGo ⟨.amd64, fun _ => "", fun _ => none⟩ (.mk [.bool true] [] []) =
          GoValue.slice xs) ∧
        (∃ ys, luaTableToGo ⟨.amd64, fun _ => "", fun _ => none⟩ (.mk [.str "a", .nil] [] []) =
          GoValue.slice ys)) ∨
      ((∃ m1, luaTableToGo ⟨.amd64, fun _ => "", fun _ => none⟩ (.mk [.bool true] [] []) =
          GoValue.map m1) ∧
        (∃ m2, luaTableToGo ⟨.amd64, fun _ => "", fun _ => none⟩ (.mk [.str "a", .nil] [] []) =
          GoValue.map m2))) :=
  have hwf1 : (LTable.mk [.bool true] [] []).WF Arch.amd64 := fun kv hkv => by cases hkv
  have hwf2 : (LTable.mk [.str "a", .nil] [] []).WF Arch.amd64 := fun kv hkv => by cases hkv
  have hfe1 : (LTable.mk [.bool true] [] []).ForEach =
      [(LKey.number (.fin ((1 : ℕ) : ℚ)), LValue.bool true)] := rfl
  have hfe2 : (LTable.mk [.str "a", .nil] [] []).ForEach =
      [(LKey.number (.fin ((1 : ℕ) : ℚ)), LValue.str "a")] := rfl
  have hb : ∀ k ∈ (LTable.mk [.bool true] [] []).ForEach.map Prod.fst, ∀ i : ℕ,
      k = LKey.number (.fin (i : ℚ)) → i < MaxArrayIndex := by
    intro k hk i hi
    rw [hfe1] at hk
    simp only [List.map_cons, List.map_nil, List.mem_singleton] at hk
    rw [hk] at hi
    have := number_fin_natCast_inj _ _ hi
    rw [← this]; decide
  have hkeys : ∀ k, k ∈ (LTable.mk [.bool true] [] []).ForEach.map Prod.fst ↔
      k ∈ (LTable.mk [.str "a", .nil] [] []).ForEach.map Prod.fst := by
    intro k; rw [hfe1, hfe2]; rfl
  ⟨hwf1, hwf2, hb, hkeys,
    luaTableToGo_shape_of_keys ⟨.amd64, fun _ => "", fun _ => none⟩ _ _ hwf1 hwf2 hb hkeys⟩

/-- C8: the two tables with the keys `1..67108864`, each bound to `true`, that
`table.insert` and the assignment `t[i] = true` build, have the same set of keys,
yet the first is converted to a slice and the second to a map, so that the
decision is not a function of the key set: only the assignment sends the key
`67108864 = MaxArrayIndex` to the hash part, where `Len` does not see it. -/
theorem luaTableToGo_same_keys_two_shapes :
    (∀ a : Arch, (fullTable 67108864).WF a ∧ (spillTable 67108863).WF a) ∧
    (∀ k, k ∈ (fullTable 67108864).ForEach.map Prod.fst ↔
      k ∈ (spillTable 67108863).ForEach.map Prod.fst) ∧
    (∀ E : Env, (∃ xs, luaTableToGo E (fullTable 67108864) = GoValue.slice xs) ∧
      (∃ m, luaTableToGo E (spillTable 67108863) = GoValue.map m)) := by
  have hmax : (((67108863 : ℕ) + 1 : ℕ) : ℤ) ≤ maxInt64 := by
    simp only [maxInt64]; norm_num
  have hmax2 : ((67108864 : ℕ) : ℤ) ≤ maxInt64 := by
    simp only [maxInt64]; norm_num
  refine ⟨?_, ?_, ?_⟩
  · intro a
    exact ⟨fullTable_wf a _, spillTable_wf a 67108863 (le_refl _) hmax⟩
  · intro k
    rw [mem_keys_fullTable, mem_keys_spillTable]
  · intro E
    exact ⟨(luaTableToGo_shape E _).1 (isSequence_fullTable E 67108864 (by norm_num) hmax2),
      (luaTableToGo_shape E _).2 (isSequence_spillTable E 67108863 hmax)⟩

/-! ## The round trip of a host slice -/

theorem goToLua_slice (E : Env) (S : List GoValue) :
    goToLua E (.slice S) = LValue.table (goSliceToLua E S) := by
  rw [goToLua, goSliceToLua]

theorem rawSetInt_append (a : List LValue) (s : List (String × LValue))
    (d : List (LKey × LValue)) (x : LValue) (h : a.length + 1 < MaxArrayIndex) :
    (LTable.mk a s d).RawSetInt ((a.length : ℤ) + 1) x = LTable.mk (a ++ [x]) s d := by
  have hM : (MaxArrayIndex : ℤ) = 67108864 := rfl
  have hlt : ((a.length + 1 : ℕ) : ℤ) < (MaxArrayIndex : ℤ) := by exact_mod_cast h
  rw [LTable.RawSetInt, if_neg (by push_cast at hlt; omega)]
  have : ((a.length : ℤ) + 1 - 1).toNat = a.length := by omega
  rw [this]
  show LTable.mk (arrayStore a a.length x) s d = _
  rw [arrayStore, if_pos rfl]

theorem goSliceLoop_array (E : Env) (rest : List GoValue) (a : List LValue)
    (s : List (String × LValue)) (d : List (LKey × LValue))
    (h : a.length + rest.length < MaxArrayIndex) :
    goSliceLoop E (.mk a s d) a.length rest = .mk (a ++ rest.map (goToLua E)) s d := by
  induction rest generalizing a with
  | nil => simp [goSliceLoop]
  | cons v vs ih =>
    rw [goSliceLoop, rawSetInt_append a s d _ (by simp only [List.length_cons] at h; omega)]
    have hl : (a ++ [goToLua E v]).length = a.length + 1 := by simp
    have hlen2 : (a ++ [goToLua E v]).length + vs.length < MaxArrayIndex := by
      rw [hl]
      simp only [List.length_cons] at h
      omega
    have := ih (a ++ [goToLua E v]) hlen2
    rw [hl] at this
    rw [this]
    simp

theorem goSliceToLua_eq (E : Env) (S : List GoValue) (h : S.length < MaxArrayIndex) :
    goSliceToLua E S = .mk (S.map (goToLua E)) [] [] := by
  have := goSliceLoop_array E S [] [] [] (by simpa using h)
  simpa [goSliceToLua, LTable.empty] using this

theorem map_range_getD {α : Type} (l : List α) (d : α) :
    (List.range l.length).map (fun i => l.getD i d) = l := by
  apply List.ext_getElem
  · simp
  · intro n h1 h2
    simp [List.getD_eq_getElem?_getD, List.getElem?_eq_getElem h2]

theorem goToLua_ne_nil_of_stable (E : Env) (e : GoValue)
    (hst : luaToGo E (goToLua E e) = e) (hne : e ≠ GoValue.nil) :
    (goToLua E e).isNil = false := by
  cases h : goToLua E e with
  | nil =>
    rw [h, luaToGo_nil] at hst
    exact absurd hst.symm hne
  | bool b => rfl
  | number x => rfl
  | str s => rfl
  | table t => rfl
  | other kind addr => rfl

/-- C9 (amended): for a host slice `S` with at least one and fewer than
`MaxArrayIndex` (67108864) elements, whose last element is not nil and whose
elements each satisfy `luaToGo(goToLua(e)) = e`, `luaToGo(goToLua(S))` is the
slice `S` itself: same length, same elements in the same order. -/
theorem luaToGo_goToLua_slice (E : Env) (S : List GoValue) (hne : S ≠ [])
    (hlen : S.length < MaxArrayIndex) (hlast : S.getLast hne ≠ GoValue.nil)
    (hst : ∀ e ∈ S, luaToGo E (goToLua E e) = e) :
    luaToGo E (goToLua E (.slice S)) = GoValue.slice S := by
  have hM : MaxArrayIndex = 67108864 := rfl
  have hpos : 1 ≤ S.length := List.length_pos.mpr hne
  rw [goToLua_slice, luaToGo_table, goSliceToLua_eq E S hlen]
  have harr : (LTable.mk (S.map (goToLua E)) [] []).array = S.map (goToLua E) := rfl
  have hlastv : ((S.map (goToLua E)).getD (S.length - 1) LValue.nil).isNil = false := by
    have hlt : S.length - 1 < S.length := by omega
    rw [List.getD_eq_getElem?_getD, List.getElem?_map, List.getElem?_eq_getElem hlt]
    simp only [Option.map_some', Option.getD_some]
    have hl : S[S.length - 1] = S.getLast hne := (List.getLast_eq_getElem S hne).symm
    rw [hl]
    exact goToLua_ne_nil_of_stable E _ (hst _ (List.getLast_mem hne)) hlast
  have hnil : ∀ j, S.length ≤ j → ((S.map (goToLua E)).getD j LValue.nil).isNil = true := by
    intro j hj
    rw [List.getD_eq_getElem?_getD, List.getElem?_eq_none (by simpa using hj)]
    rfl
  obtain ⟨hscan, -, hseq⟩ := scan_of_array E (.mk (S.map (goToLua E)) [] []) S.length rfl rfl
    hpos (by simp only [maxInt64]; omega) (by rw [harr]; exact hlastv)
    (by rw [harr]; exact hnil)
  rw [luaTableToGo_slice E _ S.length hscan hseq, harr]
  congr 1
  have h1 : (S.map (goToLua E)).map (luaToGo E) = S := by
    rw [List.map_map]
    conv_rhs => rw [← List.map_id S]
    apply List.map_congr_left
    intro e he
    exact hst e he
  rw [h1]
  exact map_range_getD S GoValue.nil

theorem luaToGo_goToLua_slice_witness :
    [GoValue.nil, GoValue.bool true, GoValue.string "a"] ≠ [] ∧
    [GoValue.nil, GoValue.bool true, GoValue.string "a"].length < MaxArrayIndex ∧
    (∀ e ∈ [GoValue.nil, GoValue.bool true, GoValue.string "a"],
      luaToGo ⟨.amd64, fun _ => "", fun _ => none⟩
        (goToLua ⟨.amd64, fun _ => "", fun _ => none⟩ e) = e) ∧
    luaToGo ⟨.amd64, fun _ => "", fun _ => none⟩
      (goToLua ⟨.amd64, fun _ => "", fun _ => none⟩
        (.slice [GoValue.nil, GoValue.bool true, GoValue.string "a"])) =
      GoValue.slice [GoValue.nil, GoValue.bool true, GoValue.string "a"] :=
  have hne : [GoValue.nil, GoValue.bool true, GoValue.string "a"] ≠ [] := by simp
  have hlen : [GoValue.nil, GoValue.bool true, GoValue.string "a"].length < MaxArrayIndex := by
    decide
  have hst : ∀ e ∈ [GoValue.nil, GoValue.bool true, GoValue.string "a"],
      luaToGo ⟨.amd64, fun _ => "", fun _ => none⟩
        (goToLua ⟨.amd64, fun _ => "", fun _ => none⟩ e) = e := by
    intro e he
    simp only [List.mem_cons, List.mem_singleton, List.not_mem_nil, or_false] at he
    rcases he with h | h | h <;> rw [h] <;> rfl
  ⟨hne, hlen, hst,
    luaToGo_goToLua_slice ⟨.amd64, fun _ => "", fun _ => none⟩ _ hne hlen
      (by simp) hst⟩

/-- C9 (as stated, refuted): the empty host slice, all of whose elements are
trivially stable, comes back from `luaToGo(goToLua(...))` as the empty map and
not as a slice of length `0`: the table made for it has no key, so `maxN` is `0`
and the test `maxN > 0` fails. -/
theorem luaToGo_goToLua_empty_slice :
    (∀ e ∈ ([] : List GoValue), ∀ E : Env, luaToGo E (goToLua E e) = e) ∧
    (∀ E : Env, luaToGo E (goToLua E (GoValue.slice [])) = GoValue.map []) ∧
    (∀ E : Env, luaToGo E (goToLua E (GoValue.slice [])) ≠ GoValue.slice []) := by
  have h : ∀ E : Env, luaToGo E (goToLua E (GoValue.slice [])) = GoValue.map [] :=
    fun _ => rfl
  refine ⟨?_, h, ?_⟩
  · intro e he
    cases he
  · intro E hc
    rw [h E] at hc
    cases hc

/-! ## The stores keep the representation invariant -/

theorem mem_assocSet {κ β : Type} (eqv : κ → κ → Bool) (m : List (κ × β)) (k : κ) (v : β)
    (p : κ × β) (hp : p ∈ assocSet eqv m k v) : p ∈ m ∨ p = (k, v) := by
  induction m with
  | nil =>
    right
    simpa [assocSet] using hp
  | cons q rest ih =>
    obtain ⟨k0, v0⟩ := q
    rw [assocSet] at hp
    split at hp
    · rcases List.mem_cons.mp hp with h | h
      · right; exact h
      · left; exact List.mem_cons_of_mem _ h
    · rcases List.mem_cons.mp hp with h | h
      · left; rw [h]; exact List.mem_cons_self _ _
      · rcases ih h with h2 | h2
        · left; exact List.mem_cons_of_mem _ h2
        · right; exact h2

theorem empty_wf (a : Arch) : LTable.empty.WF a :=
  fun kv hkv => by cases hkv

theorem RawSetString_wf (a : Arch) (t : LTable) (key : String) (value : LValue)
    (hwf : t.WF a) : (t.RawSetString key value).WF a := by
  rw [LTable.RawSetString]
  split <;> exact hwf

theorem RawSetH_wf (a : Arch) (t : LTable) (key : LKey) (value : LValue) (hwf : t.WF a)
    (hkey : ∀ x, key = LKey.number x → isArrayKey a x = false) :
    (t.RawSetH key value).WF a := by
  have hgen : ∀ d2 : List (LKey × LValue),
      (∀ p ∈ d2, p ∈ t.dict ∨ p = (key, value)) → (LTable.mk t.array t.strdict d2).WF a := by
    intro d2 hd2 kv hkv x hx
    rcases hd2 kv hkv with h | h
    · exact hwf kv h x hx
    · rw [h] at hx; exact hkey x hx
  have hdel : (LTable.mk t.array t.strdict (assocDelete LKey.goEq t.dict key)).WF a :=
    hgen _ (fun p hp => Or.inl (List.mem_filter.mp hp).1)
  have hset : (LTable.mk t.array t.strdict (assocSet LKey.goEq t.dict key value)).WF a :=
    hgen _ (fun p hp => mem_assocSet _ _ _ _ p hp)
  cases key with
  | str s => exact RawSetString_wf a t s value hwf
  | bool b =>
    simp only [LTable.RawSetH]
    split
    · exact hdel
    · exact hset
  | number x =>
    simp only [LTable.RawSetH]
    split
    · exact hdel
    · exact hset
  | ref kind addr =>
    simp only [LTable.RawSetH]
    split
    · exact hdel
    · exact hset

theorem RawSet_wf (a : Arch) (t : LTable) (key : LKey) (value : LValue) (hwf : t.WF a) :
    (t.RawSet a key value).WF a := by
  cases key with
  | str s => exact RawSetString_wf a t s value hwf
  | bool b => exact RawSetH_wf a t (LKey.bool b) value hwf (fun x hx => by cases hx)
  | ref kind addr =>
    exact RawSetH_wf a t (LKey.ref kind addr) value hwf (fun x hx => by cases hx)
  | number v =>
    simp only [LTable.RawSet]
    by_cases h : isArrayKey a v = true
    · rw [if_pos h]; exact hwf
    · rw [if_neg h]
      exact RawSetH_wf a t _ value hwf (fun x hx => by
        injection hx with hx
        rw [← hx]
        simpa using h)

theorem Append_wf (a : Arch) (t : LTable) (value : LValue) (hwf : t.WF a) :
    (t.Append value).WF a := by
  rw [LTable.Append]
  split
  · exact hwf
  · split <;> exact hwf

theorem le_roundNat53 (n : ℕ) (h : MaxArrayIndex ≤ n) : MaxArrayIndex ≤ roundNat53 n := by
  have hM : MaxArrayIndex = 67108864 := rfl
  by_cases hsmall : n < 2 ^ 53
  · rw [roundNat53_small n hsmall]; exact h
  · have hn0 : n ≠ 0 := by
      intro h0; rw [h0] at hsmall; exact hsmall (Nat.pow_pos (by norm_num))
    have hlog : 53 ≤ Nat.log2 n := by
      by_contra hc
      exact hsmall ((Nat.log2_lt hn0).1 (by omega))
    have hle : 2 ^ Nat.log2 n ≤ n := Nat.log2_self_le hn0
    have hsplit : 2 ^ Nat.log2 n = 2 ^ 52 * 2 ^ (Nat.log2 n - 52) := by
      rw [← pow_add]; congr 1; omega
    have hq : 2 ^ 52 ≤ n / 2 ^ (Nat.log2 n - 52) := by
      rw [Nat.le_div_iff_mul_le (Nat.pow_pos (by norm_num))]
      rw [← hsplit]; exact hle
    have hs1 : 1 ≤ 2 ^ (Nat.log2 n - 52) := Nat.pow_pos (by norm_num)
    have hbase : 2 ^ 52 ≤ n / 2 ^ (Nat.log2 n - 52) * 2 ^ (Nat.log2 n - 52) :=
      le_trans hq (Nat.le_mul_of_pos_right _ hs1)
    have h52 : MaxArrayIndex ≤ 2 ^ 52 := by rw [hM]; norm_num
    unfold roundNat53
    simp only
    split
    · have : n / 2 ^ (Nat.log2 n - 52) * 2 ^ (Nat.log2 n - 52) ≤
          (n / 2 ^ (Nat.log2 n - 52) + 1) * 2 ^ (Nat.log2 n - 52) :=
        Nat.mul_le_mul_right _ (Nat.le_succ _)
      omega
    · omega

theorem isArrayKey_ofInt64 (a : Arch) (key : ℤ) (h : key < 1 ∨ (MaxArrayIndex : ℤ) ≤ key) :
    ∀ x, LKey.number (Float64.ofInt64 key) = LKey.number x → isArrayKey a x = false := by
  intro x hx
  injection hx with hx
  rw [← hx, Float64.ofInt64]
  have hM : (MaxArrayIndex : ℤ) = 67108864 := rfl
  have hr : roundInt53 key ≤ 0 ∨ (MaxArrayIndex : ℤ) ≤ roundInt53 key := by
    rcases h with h | h
    · left
      unfold roundInt53
      by_cases hneg : key < 0
      · rw [if_pos hneg]; omega
      · have : key = 0 := by omega
        rw [if_neg hneg, this]
        simp [roundNat53_small]
    · right
      unfold roundInt53
      rw [if_neg (by omega)]
      have hn : MaxArrayIndex ≤ key.natAbs := by
        have : (MaxArrayIndex : ℤ) ≤ (key.natAbs : ℤ) := by
          rw [Int.natCast_natAbs]; exact le_trans h (le_abs_self _)
        exact_mod_cast this
      exact_mod_cast le_roundNat53 _ hn
  have ht : ¬ (0 < (Float64.fin ((roundInt53 key : ℤ) : ℚ)).toInt64 a ∧
      (Float64.fin ((roundInt53 key : ℤ) : ℚ)).toInt64 a < (MaxArrayIndex : ℤ)) := by
    simp only [Float64.toInt64, truncQ_intCast]
    have hmin : minInt64 = -9223372036854775808 := rfl
    have hmax : maxInt64 = 9223372036854775807 := rfl
    split
    · omega
    · cases a with
      | amd64 => simp only; omega
      | arm64 =>
        simp only
        split <;> omega
  rw [isArrayKey]
  by_cases h1 : 0 < (Float64.fin ((roundInt53 key : ℤ) : ℚ)).toInt64 a
  · have h2 : ¬ (Float64.fin ((roundInt53 key : ℤ) : ℚ)).toInt64 a < (MaxArrayIndex : ℤ) :=
      fun h2 => ht ⟨h1, h2⟩
    rw [decide_eq_false h2, Bool.and_false]
  · rw [decide_eq_false h1, Bool.and_false, Bool.false_and]

theorem RawSetInt_wf (a : Arch) (t : LTable) (key : ℤ) (value : LValue) (hwf : t.WF a) :
    (t.RawSetInt key value).WF a := by
  rw [LTable.RawSetInt]
  split
  · rename_i h
    exact RawSetH_wf a t _ value hwf (isArrayKey_ofInt64 a key h)
  · exact hwf

/-- A nil at the end of a host slice is lost on the way: a Lua table holds no
nil, so `[true, nil]` comes back as `[true]`. -/
theorem luaToGo_goToLua_trailing_nil (E : Env) :
    luaToGo E (goToLua E (GoValue.slice [GoValue.bool true, GoValue.nil])) =
      GoValue.slice [GoValue.bool true] := rfl

/-! ## Scalars across the bridge -/

/-- C14: nil, a bool and a string come back from `luaToGo(goToLua(x))` as the
same value of the same kind: nil as nil, `true` as `true`, the string `"1"` as
the string `"1"`. -/
theorem luaToGo_goToLua_scalar (E : Env) :
    luaToGo E (goToLua E GoValue.nil) = GoValue.nil ∧
    (∀ b : Bool, luaToGo E (goToLua E (GoValue.bool b)) = GoValue.bool b) ∧
    (∀ s : String, luaToGo E (goToLua E (GoValue.string s)) = GoValue.string s) ∧
    luaToGo E (goToLua E (GoValue.string "1")) = GoValue.string "1" :=
  ⟨rfl, fun _ => rfl, fun _ => rfl, rfl⟩

/-! ## The default arm of `goToLua` -/

theorem GoValue.depth_pos (v : GoValue) : 1 ≤ v.depth := by
  cases v <;> simp only [GoValue.depth] <;> omega

theorem opaqueSlice_zero (xs : List GoValue)
    (h : ∀ x ∈ xs, opaqueValues x = 0) : opaqueSlice xs = 0 := by
  induction xs with
  | nil => rw [opaqueSlice]
  | cons x rest ih =>
    rw [opaqueSlice, h x (List.mem_cons_self _ _),
      ih (fun y hy => h y (List.mem_cons_of_mem _ hy))]

theorem opaqueMap_zero (m : List (String × GoValue))
    (h : ∀ p ∈ m, opaqueValues p.2 = 0) : opaqueMap m = 0 := by
  induction m with
  | nil => rw [opaqueMap]
  | cons p rest ih =>
    obtain ⟨k, v⟩ := p
    rw [opaqueMap, h (k, v) (List.mem_cons_self _ _),
      ih (fun y hy => h y (List.mem_cons_of_mem _ hy))]

theorem opaqueValues_tree (T : GoValue) (hT : IsJSONTree T) : opaqueValues T = 0 := by
  induction hT with
  | nil => rfl
  | bool b => rfl
  | float64 x => rfl
  | string s => rfl
  | slice xs _ ih =>
    rw [opaqueValues]
    exact opaqueSlice_zero xs ih
  | map m _ ih =>
    rw [opaqueValues]
    exact opaqueMap_zero m ih

theorem decodedTrees_of_tree (T : GoValue) (hT : IsJSONTree T) : DecodedTrees T := by
  induction hT with
  | nil => exact DecodedTrees.nil
  | bool b => exact DecodedTrees.bool b
  | float64 x => exact DecodedTrees.float64 x
  | string s => exact DecodedTrees.string s
  | slice xs _ ih => exact DecodedTrees.slice xs ih
  | map m _ ih => exact DecodedTrees.map m ih

mutual
theorem goToLuaRun_spec (E : Env) : ∀ (v : GoValue) (n : ℕ) (inD : Bool), v.depth ≤ n →
    ∃ c d, goToLuaRun E n inD v = some (goToLua E v, c, d) ∧
      (DecodedTrees v → c = opaqueValues v ∧ d = if inD then opaqueValues v else 0)
  | .nil, n, inD, hn => by
    cases n with
    | zero => exact absurd hn (by simp [GoValue.depth])
    | succ k => exact ⟨0, 0, rfl, fun _ => ⟨rfl, by cases inD <;> rfl⟩⟩
  | .bool b, n, inD, hn => by
    cases n with
    | zero => exact absurd hn (by simp [GoValue.depth])
    | succ k => exact ⟨0, 0, rfl, fun _ => ⟨rfl, by cases inD <;> rfl⟩⟩
  | .int x, n, inD, hn => by
    cases n with
    | zero => exact absurd hn (by simp [GoValue.depth])
    | succ k => exact ⟨0, 0, rfl, fun _ => ⟨rfl, by cases inD <;> rfl⟩⟩
  | .int32 x, n, inD, hn => by
    cases n with
    | zero => exact absurd hn (by simp [GoValue.depth])
    | succ k => exact ⟨0, 0, rfl, fun _ => ⟨rfl, by cases inD <;> rfl⟩⟩
  | .int64 x, n, inD, hn => by
    cases n with
    | zero => exact absurd hn (by simp [GoValue.depth])
    | succ k => exact ⟨0, 0, rfl, fun _ => ⟨rfl, by cases inD <;> rfl⟩⟩
  | .float32 x, n, inD, hn => by
    cases n with
    | zero => exact absurd hn (by simp [GoValue.depth])
    | succ k => exact ⟨0, 0, rfl, fun _ => ⟨rfl, by cases inD <;> rfl⟩⟩
  | .float64 x, n, inD, hn => by
    cases n with
    | zero => exact absurd hn (by simp [GoValue.depth])
    | succ k => exact ⟨0, 0, rfl, fun _ => ⟨rfl, by cases inD <;> rfl⟩⟩
  | .string s, n, inD, hn => by
    cases n with
    | zero => exact absurd hn (by simp [GoValue.depth])
    | succ k => exact ⟨0, 0, rfl, fun _ => ⟨rfl, by cases inD <;> rfl⟩⟩
  | .foreignText data, n, inD, hn => by
    cases n with
    | zero => exact absurd hn (by simp [GoValue.depth])
    | succ k =>
      exact ⟨1, if inD then 1 else 0, rfl, fun _ => ⟨rfl, by cases inD <;> rfl⟩⟩
  | .slice xs, n, inD, hn => by
    cases n with
    | zero =>
      rw [GoValue.depth] at hn
      omega
    | succ k =>
      have hd : depthSlice xs ≤ k := by
        rw [GoValue.depth] at hn
        omega
      obtain ⟨c, d, h1, h2⟩ := goSliceLoopRun_spec E xs k inD LTable.empty 0 hd
      refine ⟨c, d, ?_, ?_⟩
      · simp only [goToLuaRun, h1, goToLua]
      · intro hdt
        cases hdt with
        | slice _ h =>
          rw [opaqueValues]
          exact h2 h
  | .map m, n, inD, hn => by
    cases n with
    | zero =>
      rw [GoValue.depth] at hn
      omega
    | succ k =>
      have hd : depthMap m ≤ k := by
        rw [GoValue.depth] at hn
        omega
      obtain ⟨c, d, h1, h2⟩ := goMapLoopRun_spec E m k inD LTable.empty hd
      refine ⟨c, d, ?_, ?_⟩
      · simp only [goToLuaRun, h1, goToLua]
      · intro hdt
        cases hdt with
        | map _ h =>
          rw [opaqueValues]
          exact h2 h
  | .mapSlice ms, n, inD, hn => by
    cases n with
    | zero =>
      rw [GoValue.depth] at hn
      omega
    | succ k =>
      have hd : depthMaps ms ≤ k := by
        rw [GoValue.depth] at hn
        omega
      obtain ⟨c, d, h1, h2⟩ := goMapSliceLoopRun_spec E ms k inD LTable.empty 0 hd
      refine ⟨c, d, ?_, ?_⟩
      · simp only [goToLuaRun, h1, goToLua]
      · intro hdt
        cases hdt with
        | mapSlice _ h =>
          rw [opaqueValues]
          exact h2 h
  | .foreignTree data T, n, inD, hn => by
    cases n with
    | zero =>
      rw [GoValue.depth] at hn
      omega
    | succ k =>
      have hd : T.depth ≤ k := by
        rw [GoValue.depth] at hn
        omega
      obtain ⟨c, d, h1, h2⟩ := goToLuaRun_spec E T k true hd
      refine ⟨c + 1, d + (if inD then 1 else 0), ?_, ?_⟩
      · simp only [goToLuaRun, h1, goToLua]
      · intro hdt
        cases hdt with
        | foreignTree _ _ hT =>
          obtain ⟨hc, hd2⟩ := h2 (decodedTrees_of_tree T hT)
          rw [opaqueValues_tree T hT] at hc hd2
          simp only [if_true] at hd2
          subst hc
          subst hd2
          refine ⟨rfl, ?_⟩
          cases inD <;> rfl
theorem goSliceLoopRun_spec (E : Env) :
    ∀ (xs : List GoValue) (n : ℕ) (inD : Bool) (tbl : LTable) (i : ℕ), depthSlice xs ≤ n →
    ∃ c d, goSliceLoopRun (goToLuaRun E n inD) tbl i xs = some (goSliceLoop E tbl i xs, c, d) ∧
      ((∀ x ∈ xs, DecodedTrees x) →
        c = opaqueSlice xs ∧ d = if inD then opaqueSlice xs else 0)
  | [], n, inD, tbl, i, _ => ⟨0, 0, rfl, fun _ => ⟨rfl, by cases inD <;> rfl⟩⟩
  | v :: rest, n, inD, tbl, i, hn => by
    have hv : v.depth ≤ n := by
      rw [depthSlice] at hn
      omega
    have hr : depthSlice rest ≤ n := by
      rw [depthSlice] at hn
      omega
    obtain ⟨c1, d1, e1, p1⟩ := goToLuaRun_spec E v n inD hv
    obtain ⟨c2, d2, e2, p2⟩ :=
      goSliceLoopRun_spec E rest n inD (tbl.RawSetInt ((i : ℤ) + 1) (goToLua E v)) (i + 1) hr
    refine ⟨c1 + c2, d1 + d2, ?_, ?_⟩
    · simp only [goSliceLoopRun, e1, e2, goSliceLoop]
    · intro h
      obtain ⟨a1, b1⟩ := p1 (h v (List.mem_cons_self _ _))
      obtain ⟨a2, b2⟩ := p2 (fun x hx => h x (List.mem_cons_of_mem _ hx))
      rw [opaqueSlice, a1, a2, b1, b2]
      refine ⟨rfl, ?_⟩
      cases inD <;> rfl
theorem goMapLoopRun_spec (E : Env) :
    ∀ (m : List (String × GoValue)) (n : ℕ) (inD : Bool) (tbl : LTable), depthMap m ≤ n →
    ∃ c d, goMapLoopRun (goToLuaRun E n inD) tbl m = some (goMapLoop E tbl m, c, d) ∧
      ((∀ p ∈ m, DecodedTrees p.2) →
        c = opaqueMap m ∧ d = if inD then opaqueMap m else 0)
  | [], n, inD, tbl, _ => ⟨0, 0, rfl, fun _ => ⟨rfl, by cases inD <;> rfl⟩⟩
  | (key, v) :: rest, n, inD, tbl, hn => by
    have hv : v.depth ≤ n := by
      rw [depthMap] at hn
      omega
    have hr : depthMap rest ≤ n := by
      rw [depthMap] at hn
      omega
    obtain ⟨c1, d1, e1, p1⟩ := goToLuaRun_spec E v n inD hv
    obtain ⟨c2, d2, e2, p2⟩ :=
      goMapLoopRun_spec E rest n inD (tbl.RawSetString key (goToLua E v)) hr
    refine ⟨c1 + c2, d1 + d2, ?_, ?_⟩
    · simp only [goMapLoopRun, e1, e2, goMapLoop]
    · intro h
      obtain ⟨a1, b1⟩ := p1 (h (key, v) (List.mem_cons_self _ _))
      obtain ⟨a2, b2⟩ := p2 (fun x hx => h x (List.mem_cons_of_mem _ hx))
      rw [opaqueMap, a1, a2, b1, b2]
      refine ⟨rfl, ?_⟩
      cases inD <;> rfl
theorem goMapSliceLoopRun_spec (E : Env) :
    ∀ (ms : List (List (String × GoValue))) (n : ℕ) (inD : Bool) (tbl : LTable) (i : ℕ),
    depthMaps ms ≤ n →
    ∃ c d, goMapSliceLoopRun (goToLuaRun E n inD) tbl i ms =
        some (goMapSliceLoop E tbl i ms, c, d) ∧
      ((∀ m ∈ ms, ∀ p ∈ m, DecodedTrees p.2) →
        c = opaqueMaps ms ∧ d = if inD then opaqueMaps ms else 0)
  | [], n, inD, tbl, i, _ => ⟨0, 0, rfl, fun _ => ⟨rfl, by cases inD <;> rfl⟩⟩
  | item :: rest, n, inD, tbl, i, hn => by
    have hv : depthMap item ≤ n := by
      rw [depthMaps] at hn
      omega
    have hr : depthMaps rest ≤ n := by
      rw [depthMaps] at hn
      omega
    obtain ⟨c1, d1, e1, p1⟩ := goMapLoopRun_spec E item n inD LTable.empty hv
    obtain ⟨c2, d2, e2, p2⟩ :=
      goMapSliceLoopRun_spec E rest n inD
        (tbl.RawSetInt ((i : ℤ) + 1) (.table (goMapLoop E LTable.empty item))) (i + 1) hr
    refine ⟨c1 + c2, d1 + d2, ?_, ?_⟩
    · simp only [goMapSliceLoopRun, e1, e2, goMapSliceLoop]
    · intro h
      obtain ⟨a1, b1⟩ := p1 (h item (List.mem_cons_self _ _))
      obtain ⟨a2, b2⟩ := p2 (fun x hx => h x (List.mem_cons_of_mem _ hx))
      rw [opaqueMaps, a1, a2, b1, b2]
      refine ⟨rfl, ?_⟩
      cases inD <;> rfl
end

/-- C11: for every host value `v`, values of a foreign type included, `goToLua`
returns: run with room for `v.depth` calls on the stack or more, it ends with the
Lua value `goToLua E v`.  When every value of a foreign type in `v` has decoded
to a tree of nil, `bool`, `float64`, `string`, `[]interface{}` and
`map[string]interface{}`, as `json.Unmarshal` makes it, the default arm is
entered once for each value of a foreign type in `v`, and never from within
itself: no entry is made during the call `goToLua(L, parsed)` of an earlier
entry.  For a value of a foreign type that is one entry, for the value itself,
and the result is the conversion of its tree. -/
theorem goToLua_terminates (E : Env) (v : GoValue) :
    (∀ (n : ℕ) (inDefault : Bool), v.depth ≤ n →
      ∃ c d, goToLuaRun E n inDefault v = some (goToLua E v, c, d)) ∧
    (DecodedTrees v → ∀ n : ℕ, v.depth ≤ n →
      goToLuaRun E n false v = some (goToLua E v, opaqueValues v, 0)) ∧
    (∀ (data : String) (T : GoValue), v = GoValue.foreignTree data T → IsJSONTree T →
      ∀ n : ℕ, v.depth ≤ n → goToLuaRun E n false v = some (goToLua E T, 1, 0)) := by
  have h2 : DecodedTrees v → ∀ n : ℕ, v.depth ≤ n →
      goToLuaRun E n false v = some (goToLua E v, opaqueValues v, 0) := by
    intro hdt n hn
    obtain ⟨c, d, h1, h2⟩ := goToLuaRun_spec E v n false hn
    obtain ⟨hc, hd⟩ := h2 hdt
    rw [h1, hc, hd]
    rfl
  refine ⟨?_, h2, ?_⟩
  · intro n inDefault hn
    obtain ⟨c, d, h1, -⟩ := goToLuaRun_spec E v n inDefault hn
    exact ⟨c, d, h1⟩
  · intro data T hv hT n hn
    have := h2 (by rw [hv]; exact DecodedTrees.foreignTree data T hT) n hn
    rw [this, hv]
    rfl

theorem goToLua_terminates_witness :
    DecodedTrees (GoValue.slice [GoValue.foreignTree "\x7b\"id\":7\x7d"
        (GoValue.map [("id", GoValue.float64 (.fin 7))]), GoValue.foreignText none]) ∧
    (GoValue.slice [GoValue.foreignTree "\x7b\"id\":7\x7d"
        (GoValue.map [("id", GoValue.float64 (.fin 7))]), GoValue.foreignText none]).depth ≤ 4 ∧
    goToLuaRun ⟨.amd64, fun _ => "", fun _ => none⟩ 4 false
      (GoValue.slice [GoValue.foreignTree "\x7b\"id\":7\x7d"
        (GoValue.map [("id", GoValue.float64 (.fin 7))]), GoValue.foreignText none]) =
      some (goToLua ⟨.amd64, fun _ => "", fun _ => none⟩
        (GoValue.slice [GoValue.foreignTree "\x7b\"id\":7\x7d"
          (GoValue.map [("id", GoValue.float64 (.fin 7))]), GoValue.foreignText none]),
        opaqueValues (GoValue.slice [GoValue.foreignTree "\x7b\"id\":7\x7d"
          (GoValue.map [("id", GoValue.float64 (.fin 7))]), GoValue.foreignText none]), 0) ∧
    opaqueValues (GoValue.slice [GoValue.foreignTree "\x7b\"id\":7\x7d"
      (GoValue.map [("id", GoValue.float64 (.fin 7))]), GoValue.foreignText none]) = 2 :=
  have hT : IsJSONTree (GoValue.map [("id", GoValue.float64 (.fin 7))]) := by
    apply IsJSONTree.map
    intro p hp
    rw [List.mem_singleton.mp hp]
    exact IsJSONTree.float64 _
  have hdt : DecodedTrees (GoValue.slice [GoValue.foreignTree "\x7b\"id\":7\x7d"
      (GoValue.map [("id", GoValue.float64 (.fin 7))]), GoValue.foreignText none]) := by
    apply DecodedTrees.slice
    intro x hx
    rcases List.mem_cons.mp hx with h | h
    · rw [h]; exact DecodedTrees.foreignTree _ _ hT
    · rw [List.mem_singleton.mp h]; exact DecodedTrees.foreignText none
  have hdepth : (GoValue.slice [GoValue.foreignTree "\x7b\"id\":7\x7d"
      (GoValue.map [("id", GoValue.float64 (.fin 7))]), GoValue.foreignText none]).depth ≤ 4 := by
    decide
  ⟨hdt, hdepth,
    (goToLua_terminates ⟨.amd64, fun _ => "", fun _ => none⟩ _).2.1 hdt 4 hdepth, rfl⟩

/-- The count of entries made from within the default arm is not zero by
construction: were the decoded value itself of a foreign type, the second entry
would be counted; and without room for the calls the run does not return. -/
theorem goToLuaRun_examples :
    goToLuaRun ⟨.amd64, fun _ => "", fun _ => none⟩ 2 false
      (GoValue.foreignTree "" (GoValue.foreignText none)) = some (LValue.str "<error>", 2, 1) ∧
    goToLuaRun ⟨.amd64, fun _ => "", fun _ => none⟩ 1 false
      (GoValue.foreignTree "" (GoValue.foreignText none)) = none ∧
    goToLuaRun ⟨.amd64, fun _ => "", fun _ => none⟩ 2 false
      (GoValue.slice [GoValue.foreignText none, GoValue.foreignText none]) =
      some (goToLua ⟨.amd64, fun _ => "", fun _ => none⟩
        (GoValue.slice [GoValue.foreignText none, GoValue.foreignText none]), 2, 0) :=
  ⟨rfl, rfl, rfl⟩

theorem goToLua_tree_eq_nil (E : Env) (T : GoValue) (hT : IsJSONTree T) :
    goToLua E T = LValue.nil ↔ T = GoValue.nil := by
  cases hT with
  | nil => exact ⟨fun _ => rfl, fun _ => rfl⟩
  | bool b => exact ⟨fun h => (by rw [goToLua] at h; cases h), fun h => (by cases h)⟩
  | float64 x => exact ⟨fun h => (by rw [goToLua] at h; cases h), fun h => (by cases h)⟩
  | string s => exact ⟨fun h => (by rw [goToLua] at h; cases h), fun h => (by cases h)⟩
  | slice xs _ => exact ⟨fun h => (by rw [goToLua] at h; cases h), fun h => (by cases h)⟩
  | map m _ => exact ⟨fun h => (by rw [goToLua] at h; cases h), fun h => (by cases h)⟩

/-- C15 (amended): for a host value of a type without a case in the switch,
whose JSON, when it decodes, decodes to a tree of nil, bool, float64, string,
slices and maps, `goToLua` returns a Lua value in every case, and that value is
`LNil` exactly when the JSON decodes to `null`; in every other case, failed
serialisation included, it is different from `LNil`. -/
theorem goToLua_foreign_eq_nil_iff (E : Env) (v : GoValue) (hv : v.isForeign = true)
    (ht : ∀ data T, v = GoValue.foreignTree data T → IsJSONTree T) :
    (∃ r : LValue, goToLua E v = r) ∧
    (goToLua E v = LValue.nil ↔ ∃ data, v = GoValue.foreignTree data GoValue.nil) := by
  refine ⟨⟨_, rfl⟩, ?_⟩
  cases v with
  | foreignTree data T =>
    rw [goToLua, goToLua_tree_eq_nil E T (ht data T rfl)]
    constructor
    · intro h; exact ⟨data, by rw [h]⟩
    · rintro ⟨d, hd⟩
      injection hd
  | foreignText data =>
    rw [goToLua]
    constructor
    · intro h; cases h
    · rintro ⟨d, hd⟩; cases hd
  | nil => cases hv
  | bool b => cases hv
  | int n => cases hv
  | int32 n => cases hv
  | int64 n => cases hv
  | float32 x => cases hv
  | float64 x => cases hv
  | string s => cases hv
  | slice xs => cases hv
  | map m => cases hv
  | mapSlice ms => cases hv

theorem goToLua_foreign_eq_nil_iff_witness :
    (GoValue.foreignTree "true" (GoValue.bool true)).isForeign = true ∧
    (∀ data T, GoValue.foreignTree "true" (GoValue.bool true) = GoValue.foreignTree data T →
      IsJSONTree T) ∧
    (∃ r : LValue, goToLua ⟨.amd64, fun _ => "", fun _ => none⟩
      (GoValue.foreignTree "true" (GoValue.bool true)) = r) ∧
    (goToLua ⟨.amd64, fun _ => "", fun _ => none⟩
        (GoValue.foreignTree "true" (GoValue.bool true)) = LValue.nil ↔
      ∃ data, GoValue.foreignTree "true" (GoValue.bool true) =
        GoValue.foreignTree data GoValue.nil) :=
  have ht : ∀ data T, GoValue.foreignTree "true" (GoValue.bool true) =
      GoValue.foreignTree data T → IsJSONTree T := by
    intro data T h
    injection h with h1 h2
    rw [← h2]; exact IsJSONTree.bool true
  ⟨rfl, ht, goToLua_foreign_eq_nil_iff _ _ rfl ht⟩

/-- C15 (as stated, refuted): a value of a foreign type whose JSON is `null`, as
for a nil pointer or a nil `[]string`, is a value without a case in the switch
for which `goToLua` returns `LNil`: the decoded tree is nil and goes through the
normal path. -/
theorem goToLua_foreign_null :
    (GoValue.foreignTree "null" GoValue.nil).isForeign = true ∧
    IsJSONTree GoValue.nil ∧
    (∀ E : Env, jsonMarshal E (GoValue.foreignTree "null" GoValue.nil) = some "null") ∧
    (∀ E : Env, goToLua E (GoValue.foreignTree "null" GoValue.nil) = LValue.nil) :=
  ⟨rfl, IsJSONTree.nil, fun _ => rfl, fun _ => rfl⟩

/-- C16: for a value of a foreign type that `json.Marshal` renders as `data` and
`json.Unmarshal` decodes to the tree `T`, `goToLua` returns what it returns for
`T`. -/
theorem goToLua_foreignTree (E : Env) (data : String) (T : GoValue) :
    jsonMarshal E (.foreignTree data T) = some data ∧
    goToLua E (.foreignTree data T) = goToLua E T :=
  ⟨rfl, by rw [goToLua]⟩

/-- C17: for a value of a foreign type whose serialisation fails, `goToLua`
returns the Lua string `toString(v)`, which is the sentinel `"<error>"`; and
`toString` returns a string unchanged, the JSON text of any other value whose
serialisation succeeds, and `"<error>"` when it fails.  No error is returned. -/
theorem goToLua_marshal_failure (E : Env) :
    jsonMarshal E (.foreignText none) = none ∧
    goToLua E (.foreignText none) = LValue.str (toString E (.foreignText none)) ∧
    toString E (.foreignText none) = "<error>" ∧
    (∀ s : String, toString E (.string s) = s) ∧
    (∀ (v : GoValue) (data : String), (∀ s, v ≠ GoValue.string s) →
      jsonMarshal E v = some data → toString E v = data) ∧
    (∀ v : GoValue, (∀ s, v ≠ GoValue.string s) →
      jsonMarshal E v = none → toString E v = "<error>") := by
  refine ⟨rfl, by rw [goToLua], rfl, fun _ => rfl, ?_, ?_⟩
  · intro v data hv hm
    cases v with
    | string s => exact absurd rfl (hv s)
    | _ => simp only [toString, hm]
  · intro v hv hm
    cases v with
    | string s => exact absurd rfl (hv s)
    | _ => simp only [toString, hm]

/-! ## The gate of `contextWithTimeout` -/

theorem Gate.run_returned (g : Gate) (h : g.blocked = false) (cs : List SelectCase) :
    g.run cs = g := by
  induction cs with
  | nil => rfl
  | cons c rest ih =>
    have hs : g.step c = g := by simp [Gate.step, h]
    rw [Gate.run, List.foldl_cons, hs]
    exact ih

theorem contextWithTimeout_run_cons (c : SelectCase) (rest : List SelectCase) :
    contextWithTimeout.run (c :: rest) = ⟨false, 1, 0⟩ := by
  have hs : contextWithTimeout.step c = ⟨false, 1, 0⟩ := by
    cases c <;> rfl
  rw [Gate.run, List.foldl_cons, hs]
  exact Gate.run_returned ⟨false, 1, 0⟩ rfl rest

/-- C19: in every run of the watcher of `contextWithTimeout`, whichever case of
the `select` becomes ready first and whatever becomes ready afterwards, `ch` has
been closed exactly once and never sent on; before any case is ready it is not
closed, and once closed it stays closed, so that every later check reports
fired. -/
theorem contextWithTimeout_closes_once (c : SelectCase) (rest more : List SelectCase) :
    (contextWithTimeout.run []).closes = 0 ∧
    (contextWithTimeout.run []).fired = false ∧
    (contextWithTimeout.run (c :: rest)).closes = 1 ∧
    (contextWithTimeout.run (c :: rest)).sends = 0 ∧
    (contextWithTimeout.run (c :: rest)).fired = true ∧
    ((contextWithTimeout.run (c :: rest)).run more).closes = 1 ∧
    ((contextWithTimeout.run (c :: rest)).run more).sends = 0 ∧
    ((contextWithTimeout.run (c :: rest)).run more).fired = true := by
  rw [contextWithTimeout_run_cons, Gate.run_returned ⟨false, 1, 0⟩ rfl more]
  exact ⟨rfl, rfl, rfl, rfl, rfl, rfl, rfl, rfl⟩

theorem truncQ_nonpos (q : ℚ) (h : q ≤ 0) : truncQ q ≤ 0 := by
  unfold truncQ
  have hn : q.num ≤ 0 := Rat.num_nonpos.mpr h
  have hd : (0 : ℤ) ≤ (q.den : ℤ) := Int.natCast_nonneg _
  have h1 : 0 ≤ (-q.num).tdiv (q.den : ℤ) := Int.tdiv_nonneg (by omega) hd
  rw [Int.neg_tdiv] at h1
  omega

theorem toInt64_nonpos (a : Arch) (q : ℚ) (h : q ≤ 0) : (Float64.fin q).toInt64 a ≤ 0 := by
  have ht := truncQ_nonpos q h
  have hmin : minInt64 = -9223372036854775808 := rfl
  have hmax : maxInt64 = 9223372036854775807 := rfl
  simp only [Float64.toInt64]
  split
  · exact ht
  · cases a with
    | amd64 => simp only; omega
    | arm64 =>
      simp only
      split <;> omega

theorem roundHalfEven_nonneg (x : ℚ) (h : 0 ≤ x) : 0 ≤ roundHalfEven x := by
  have hf : 0 ≤ ⌊x⌋ := Int.floor_nonneg.mpr h
  unfold roundHalfEven
  split <;> omega

theorem ofRat_nonpos (p : ℚ) (h : p ≤ 0) :
    Float64.ofRat p = Float64.negInf ∨ ∃ r : ℚ, r ≤ 0 ∧ Float64.ofRat p = Float64.fin r := by
  unfold Float64.ofRat
  by_cases h0 : p = 0
  · right; exact ⟨0, le_refl _, by rw [if_pos h0]⟩
  · have hneg : p < 0 := lt_of_le_of_ne h h0
    rw [if_neg h0]
    simp only [if_pos hneg]
    split
    · left; rfl
    · right
      refine ⟨_, ?_, rfl⟩
      have h2 : (0 : ℚ) < (2 : ℚ) ^ (max (Int.log 2 |p| - 52) (-1074)) :=
        zpow_pos (by norm_num) _
      have h3 : (0 : ℚ) ≤ |p| / (2 : ℚ) ^ (max (Int.log 2 |p| - 52) (-1074)) :=
        div_nonneg (abs_nonneg _) (le_of_lt h2)
      have h4 : (0 : ℚ) ≤ (roundHalfEven (|p| / (2 : ℚ) ^ (max (Int.log 2 |p| - 52) (-1074))) : ℚ) := by
        exact_mod_cast roundHalfEven_nonneg _ h3
      have := mul_nonneg h4 (le_of_lt h2)
      linarith

theorem timeoutDuration_nonpos (a : Arch) (seconds : Float64) (h : seconds.leZero = true) :
    timeoutDuration a seconds ≤ 0 := by
  have hmin : minInt64 = -9223372036854775808 := rfl
  unfold timeoutDuration
  cases seconds with
  | fin q =>
    have hq : q ≤ 0 := by simpa [Float64.leZero] using h
    have hp : q * 1000000000 ≤ 0 := mul_nonpos_of_nonpos_of_nonneg hq (by norm_num)
    simp only [Float64.mul]
    rcases ofRat_nonpos _ hp with h1 | ⟨r, hr, h1⟩
    · rw [h1]; simp only [Float64.toInt64]; omega
    · rw [h1]; exact toInt64_nonpos a r hr
  | posInf => simp [Float64.leZero] at h
  | negInf =>
    simp only [Float64.mul]
    rw [if_neg (by norm_num), if_pos (by norm_num)]
    simp only [Float64.toInt64]; omega
  | nan => simp [Float64.leZero] at h

/-- C20: for `seconds <= 0`, zero, negative and fractional values and `-Inf`
included, the duration `time.Duration(float64(seconds) * float64(time.Second))`
is zero or negative on both targets, so the timer case of the `select` is ready
at once and the gate fires without waiting, with `ctx` never done. -/
theorem contextWithTimeout_nonpositive (a : Arch) (seconds : Float64)
    (h : seconds.leZero = true) :
    timeoutDuration a seconds ≤ 0 ∧
    timeAfterReady (timeoutDuration a seconds) 0 = true ∧
    (contextWithTimeout.run [SelectCase.timeAfter]).fired = true := by
  have hd := timeoutDuration_nonpos a seconds h
  refine ⟨hd, ?_, rfl⟩
  simp only [timeAfterReady, decide_eq_true_eq]
  exact_mod_cast hd

theorem contextWithTimeout_nonpositive_witness :
    (Float64.fin (-3)).leZero = true ∧
    timeoutDuration Arch.amd64 (Float64.fin (-3)) ≤ 0 ∧
    timeAfterReady (timeoutDuration Arch.amd64 (Float64.fin (-3))) 0 = true ∧
    (contextWithTimeout.run [SelectCase.timeAfter]).fired = true :=
  have h : (Float64.fin (-3)).leZero = true := by
    simp [Float64.leZero]
  ⟨h, contextWithTimeout_nonpositive Arch.amd64 (Float64.fin (-3)) h⟩

theorem intLog_eq_of_bounds (r : ℚ) (k : ℤ) (h1 : (2 : ℚ) ^ k ≤ r) (h2 : r < (2 : ℚ) ^ (k + 1)) :
    Int.log 2 r = k := by
  have hr : 0 < r := lt_of_lt_of_le (zpow_pos (by norm_num) k) h1
  have ha : k ≤ Int.log 2 r := (Int.zpow_le_iff_le_log (by norm_num) hr).mp (by exact_mod_cast h1)
  have hb : Int.log 2 r < k + 1 := (Int.lt_zpow_iff_log_lt (by norm_num) hr).mp (by exact_mod_cast h2)
  omega

theorem roundHalfEven_intCast (n : ℤ) : roundHalfEven (n : ℚ) = n := by
  unfold roundHalfEven
  rw [Int.floor_intCast]
  rw [if_neg]
  simp

/-- The overflow is not confined to `+Inf`: for `seconds = 10000000000` on
`amd64` the product `1e19` exceeds the largest `int64`, and the duration is
again the smallest 64-bit integer. -/
theorem timeoutDuration_1e10_amd64 :
    timeoutDuration Arch.amd64 (Float64.fin 10000000000) = minInt64 := by
  have hprod : (10000000000 : ℚ) * 1000000000 = 10000000000000000000 := by norm_num
  have hlog : Int.log 2 |(10000000000000000000 : ℚ)| = 63 := by
    rw [abs_of_pos (by norm_num)]
    apply intLog_eq_of_bounds
    · norm_num
    · norm_num
  have hscaled : |(10000000000000000000 : ℚ)| / (2 : ℚ) ^ (11 : ℤ) =
      ((4882812500000000 : ℤ) : ℚ) := by
    rw [abs_of_pos (by norm_num)]
    norm_num
  have hof : Float64.ofRat 10000000000000000000 = Float64.fin 10000000000000000000 := by
    unfold Float64.ofRat
    rw [if_neg (by norm_num)]
    simp only [hlog]
    have he : max ((63 : ℤ) - 52) (-1074) = 11 := by decide
    rw [he, hscaled, roundHalfEven_intCast]
    rw [if_neg (by norm_num)]
    rw [if_neg (by norm_num)]
    congr 1
    norm_num
  unfold timeoutDuration
  simp only [Float64.mul, hprod, hof]
  have hc : (10000000000000000000 : ℚ) = ((10000000000000000000 : ℤ) : ℚ) := by norm_num
  rw [hc]
  simp only [Float64.toInt64, truncQ_intCast]
  rw [if_neg (by simp only [minInt64, maxInt64]; omega)]

/-- C18: for `seconds = +Inf` (Lua's `math.huge`) on `amd64` the duration
`time.Duration(float64(seconds) * float64(time.Second))` is the smallest 64-bit
integer, a negative duration, so the timer case is ready at once and the gate
fires immediately, while `ctx` is not done and no number of seconds that is
`+Inf` has elapsed.  The same duration results for the finite value
`seconds = 10000000000`. -/
theorem contextWithTimeout_infinite_amd64 :
    timeoutDuration Arch.amd64 Float64.posInf = minInt64 ∧
    timeoutDuration Arch.amd64 (Float64.fin 10000000000) = minInt64 ∧
    minInt64 < 0 ∧
    timeAfterReady minInt64 0 = true ∧
    (contextWithTimeout.run []).fired = false ∧
    (contextWithTimeout.run [SelectCase.timeAfter]).fired = true := by
  have hd : timeoutDuration Arch.amd64 Float64.posInf = minInt64 := by
    unfold timeoutDuration
    simp only [Float64.mul]
    rw [if_neg (by norm_num), if_pos (by norm_num)]
    rfl
  exact ⟨hd, timeoutDuration_1e10_amd64, by decide, by decide, rfl, rfl⟩

/-! ## The table `goMapToLua` builds -/

theorem assocGet_assocDelete {β : Type} (m : List (String × β)) (k s : String) :
    assocGet strEq (assocDelete strEq m k) s =
      if k = s then none else assocGet strEq m s := by
  induction m with
  | nil => simp [assocDelete, assocGet]
  | cons p rest ih =>
    obtain ⟨k0, v0⟩ := p
    have hrest : assocDelete strEq rest k = rest.filter (fun p => !(strEq p.1 k)) := rfl
    by_cases h0 : k0 = k
    · subst h0
      have : assocDelete strEq ((k0, v0) :: rest) k0 = assocDelete strEq rest k0 := by
        simp [assocDelete, strEq]
      rw [this, ih]
      by_cases hs : k0 = s
      · simp [hs]
      · simp [assocGet, strEq, hs]
    · have : assocDelete strEq ((k0, v0) :: rest) k =
          (k0, v0) :: assocDelete strEq rest k := by
        simp [assocDelete, strEq, h0]
      rw [this]
      by_cases hs : k0 = s
      · subst hs
        have hks : ¬ k = k0 := fun h => h0 h.symm
        simp [assocGet, strEq, hks]
      · simp only [assocGet, strEq, hs, decide_False, Bool.false_eq_true, if_false]
        exact ih

theorem RawGetString_RawSetString (t : LTable) (k s : String) (v : LValue) :
    (t.RawSetString k v).RawGetString s = if k = s then v else t.RawGetString s := by
  unfold LTable.RawSetString
  by_cases hv : v.isNil = true
  · rw [if_pos hv]
    have hvn : v = LValue.nil := by
      cases v <;> first | rfl | cases hv
    show (match assocGet strEq (assocDelete strEq t.strdict k) s with
      | some v => v | none => LValue.nil) = _
    rw [assocGet_assocDelete]
    by_cases hks : k = s
    · rw [if_pos hks, if_pos hks, hvn]
    · rw [if_neg hks, if_neg hks]; rfl
  · rw [if_neg hv]
    show (match assocGet strEq (assocSet strEq t.strdict k v) s with
      | some v => v | none => LValue.nil) = _
    rw [assocGet_assocSet]
    by_cases hks : k = s
    · rw [if_pos hks, if_pos hks]
    · rw [if_neg hks, if_neg hks]; rfl

theorem RawSetString_array (t : LTable) (k : String) (v : LValue) :
    (t.RawSetString k v).array = t.array ∧ (t.RawSetString k v).dict = t.dict := by
  unfold LTable.RawSetString
  split <;> exact ⟨rfl, rfl⟩

theorem RawSetString_keys (t : LTable) (k : String) (v : LValue) (s : String)
    (h : s ∈ (t.RawSetString k v).strdict.map Prod.fst) :
    s = k ∨ s ∈ t.strdict.map Prod.fst := by
  unfold LTable.RawSetString at h
  split at h
  · right
    obtain ⟨p, hp, rfl⟩ := List.mem_map.mp h
    exact List.mem_map_of_mem _ (List.mem_filter.mp hp).1
  · exact (keys_assocSet _ _ _ _).mp h

theorem goMapLoop_parts (E : Env) (l : List (String × GoValue)) (t : LTable) :
    (goMapLoop E t l).array = t.array ∧ (goMapLoop E t l).dict = t.dict ∧
    ∀ s ∈ (goMapLoop E t l).strdict.map Prod.fst,
      s ∈ l.map Prod.fst ∨ s ∈ t.strdict.map Prod.fst := by
  induction l generalizing t with
  | nil =>
    rw [goMapLoop]
    exact ⟨rfl, rfl, fun s hs => Or.inr hs⟩
  | cons p rest ih =>
    obtain ⟨k, v⟩ := p
    rw [goMapLoop]
    obtain ⟨h1, h2, h3⟩ := ih (t.RawSetString k (goToLua E v))
    obtain ⟨g1, g2⟩ := RawSetString_array t k (goToLua E v)
    refine ⟨h1.trans g1, h2.trans g2, fun s hs => ?_⟩
    rcases h3 s hs with h | h
    · left; exact List.mem_cons_of_mem _ h
    · rcases RawSetString_keys t k _ s h with h | h
      · left; rw [h]; exact List.mem_cons_self _ _
      · right; exact h

theorem goMapLoop_get_of_not_mem (E : Env) (l : List (String × GoValue)) (t : LTable)
    (s : String) (hs : s ∉ l.map Prod.fst) :
    (goMapLoop E t l).RawGetString s = t.RawGetString s := by
  induction l generalizing t with
  | nil => rw [goMapLoop]
  | cons p rest ih =>
    obtain ⟨k, v⟩ := p
    simp only [List.map_cons, List.mem_cons, not_or] at hs
    rw [goMapLoop, ih _ hs.2, RawGetString_RawSetString, if_neg (fun h => hs.1 h.symm)]

theorem goMapLoop_get_of_mem (E : Env) (l : List (String × GoValue)) (t : LTable)
    (hnd : (l.map Prod.fst).Nodup) (k : String) (v : GoValue) (hkv : (k, v) ∈ l) :
    (goMapLoop E t l).RawGetString k = goToLua E v := by
  induction l generalizing t with
  | nil => cases hkv
  | cons p rest ih =>
    obtain ⟨k0, v0⟩ := p
    simp only [List.map_cons, List.nodup_cons] at hnd
    rw [goMapLoop]
    rcases List.mem_cons.mp hkv with h | h
    · injection h with h1 h2
      subst h1; subst h2
      rw [goMapLoop_get_of_not_mem E rest _ k hnd.1, RawGetString_RawSetString, if_pos rfl]
    · exact ih _ hnd.2 h

theorem RawGetString_empty (s : String) : LTable.empty.RawGetString s = LValue.nil := rfl

theorem goMapToLua_get (E : Env) (m : List (String × GoValue))
    (hnd : (m.map Prod.fst).Nodup) (k : String) :
    (∀ v, (k, v) ∈ m → (goMapToLua E m).RawGetString k = goToLua E v) ∧
    (k ∉ m.map Prod.fst → (goMapToLua E m).RawGetString k = LValue.nil) :=
  ⟨fun v hv => goMapLoop_get_of_mem E m _ hnd k v hv,
    fun hk => by rw [goMapToLua, goMapLoop_get_of_not_mem E m _ k hk]; rfl⟩

/-- C13: for a host map `m` (its keys pairwise distinct), `goMapToLua` returns a
table in which the string key `k` holds `goToLua(m[k])` for every key `k` of
`m`, whose keys are all strings that are keys of `m`, which holds nothing at any
numeric key, and whose content is the same for every order in which `m` is
iterated. -/
theorem goMapToLua_spec (E : Env) (m : List (String × GoValue))
    (hnd : (m.map Prod.fst).Nodup) :
    (∀ k v, (k, v) ∈ m → (goMapToLua E m).RawGet E.arch (LKey.str k) = goToLua E v) ∧
    (∀ kv ∈ (goMapToLua E m).ForEach, ∃ k ∈ m.map Prod.fst, kv.1 = LKey.str k) ∧
    (∀ x : Float64, (goMapToLua E m).RawGet E.arch (LKey.number x) = LValue.nil) ∧
    (∀ m2 : List (String × GoValue), m2.Perm m →
      ∀ key : LKey, (goMapToLua E m2).RawGet E.arch key = (goMapToLua E m).RawGet E.arch key) := by
  have hparts : ∀ l : List (String × GoValue),
      (goMapToLua E l).array = [] ∧ (goMapToLua E l).dict = [] := by
    intro l
    obtain ⟨h1, h2, -⟩ := goMapLoop_parts E l LTable.empty
    exact ⟨h1, h2⟩
  have hnum : ∀ (l : List (String × GoValue)) (key : LKey), (∀ s, key ≠ LKey.str s) →
      (goMapToLua E l).RawGet E.arch key = LValue.nil := by
    intro l key hkey
    obtain ⟨ha, hd⟩ := hparts l
    cases key with
    | str s => exact absurd rfl (hkey s)
    | number x =>
      simp only [LTable.RawGet, ha, hd, assocGet]
      split
      · split
        · rfl
        · simp
      · rfl
    | bool b => simp only [LTable.RawGet, hd, assocGet]
    | ref kind addr => simp only [LTable.RawGet, hd, assocGet]
  refine ⟨?_, ?_, ?_, ?_⟩
  · intro k v hkv
    exact (goMapToLua_get E m hnd k).1 v hkv
  · intro kv hkv
    obtain ⟨ha, hd⟩ := hparts m
    obtain ⟨-, -, hkeys⟩ := goMapLoop_parts E m LTable.empty
    rcases (mem_ForEach _ kv).mp hkv with h | h | h
    · rw [ha] at h; cases h
    · obtain ⟨n, hn, -, hn2⟩ := (mem_strdictEntries _ kv.1 kv.2).mp h
      rcases hkeys n (List.mem_map_of_mem Prod.fst hn) with h2 | h2
      · exact ⟨n, h2, hn2⟩
      · cases h2
    · rw [hd] at h; cases h
  · intro x
    exact hnum m (LKey.number x) (fun s h => by cases h)
  · intro m2 hperm key
    have hnd2 : (m2.map Prod.fst).Nodup := (hperm.map Prod.fst).nodup_iff.mpr hnd
    cases key with
    | str s =>
      show (goMapToLua E m2).RawGetString s = (goMapToLua E m).RawGetString s
      by_cases hs : s ∈ m.map Prod.fst
      · obtain ⟨p, hp, hps⟩ := List.mem_map.mp hs
        obtain ⟨k, v⟩ := p
        simp only at hps
        subst hps
        rw [(goMapToLua_get E m hnd k).1 v hp,
          (goMapToLua_get E m2 hnd2 k).1 v (hperm.mem_iff.mpr hp)]
      · have hs2 : s ∉ m2.map Prod.fst := fun h => hs ((hperm.map Prod.fst).mem_iff.mp h)
        rw [(goMapToLua_get E m hnd s).2 hs, (goMapToLua_get E m2 hnd2 s).2 hs2]
    | number x =>
      rw [hnum m2 _ (fun s h => by cases h), hnum m _ (fun s h => by cases h)]
    | bool b =>
      rw [hnum m2 _ (fun s h => by cases h), hnum m _ (fun s h => by cases h)]
    | ref kind addr =>
      rw [hnum m2 _ (fun s h => by cases h), hnum m _ (fun s h => by cases h)]

theorem goMapToLua_spec_witness :
    ([("1", GoValue.bool true), ("b", GoValue.nil)].map Prod.fst).Nodup ∧
    (∀ k v, (k, v) ∈ [("1", GoValue.bool true), ("b", GoValue.nil)] →
      (goMapToLua ⟨.amd64, fun _ => "", fun _ => none⟩
        [("1", GoValue.bool true), ("b", GoValue.nil)]).RawGet Arch.amd64 (LKey.str k) =
        goToLua ⟨.amd64, fun _ => "", fun _ => none⟩ v) ∧
    (∀ kv ∈ (goMapToLua ⟨.amd64, fun _ => "", fun _ => none⟩
        [("1", GoValue.bool true), ("b", GoValue.nil)]).ForEach,
      ∃ k ∈ [("1", GoValue.bool true), ("b", GoValue.nil)].map Prod.fst, kv.1 = LKey.str k) ∧
    (∀ x : Float64, (goMapToLua ⟨.amd64, fun _ => "", fun _ => none⟩
        [("1", GoValue.bool true), ("b", GoValue.nil)]).RawGet Arch.amd64 (LKey.number x) =
        LValue.nil) ∧
    (∀ m2 : List (String × GoValue), m2.Perm [("1", GoValue.bool true), ("b", GoValue.nil)] →
      ∀ key : LKey,
        (goMapToLua ⟨.amd64, fun _ => "", fun _ => none⟩ m2).RawGet Arch.amd64 key =
        (goMapToLua ⟨.amd64, fun _ => "", fun _ => none⟩
          [("1", GoValue.bool true), ("b", GoValue.nil)]).RawGet Arch.amd64 key) :=
  have hnd : ([("1", GoValue.bool true), ("b", GoValue.nil)].map Prod.fst).Nodup := by
    decide
  ⟨hnd, goMapToLua_spec ⟨.amd64, fun _ => "", fun _ => none⟩ _ hnd⟩

/-! ## The table `goSliceToLua` builds -/

theorem assocGet_assocSet_of_eq {κ β : Type} [DecidableEq κ] (eqv : κ → κ → Bool)
    (m : List (κ × β)) (k s : κ) (v : β) (hk : ∀ a, eqv a k = decide (a = k))
    (hs : ∀ a, eqv a s = decide (a = s)) :
    assocGet eqv (assocSet eqv m k v) s = if k = s then some v else assocGet eqv m s := by
  induction m with
  | nil => simp [assocSet, assocGet, hs]
  | cons p rest ih =>
    obtain ⟨k0, v0⟩ := p
    by_cases h0 : k0 = k
    · subst h0
      by_cases hks : k0 = s
      · simp [assocSet, assocGet, hk, hs, hks]
      · simp [assocSet, assocGet, hk, hs, hks]
    · by_cases hks : k0 = s
      · subst hks
        have : ¬ k = k0 := fun h => h0 h.symm
        simp [assocSet, assocGet, hk, hs, h0, this]
      · simp [assocSet, assocGet, hk, hs, h0, hks, ih]

theorem assocGet_assocDelete_of_eq {κ β : Type} [DecidableEq κ] (eqv : κ → κ → Bool)
    (m : List (κ × β)) (k s : κ) (hk : ∀ a, eqv a k = decide (a = k))
    (hs : ∀ a, eqv a s = decide (a = s)) :
    assocGet eqv (assocDelete eqv m k) s = if k = s then none else assocGet eqv m s := by
  have hfil : ∀ l : List (κ × β),
      assocDelete eqv l k = l.filter (fun p => !decide (p.1 = k)) := by
    intro l
    unfold assocDelete
    congr 1
    funext p
    rw [hk]
  rw [hfil]
  induction m with
  | nil => simp [assocGet]
  | cons p rest ih =>
    obtain ⟨k0, v0⟩ := p
    by_cases h0 : k0 = k
    · subst h0
      rw [List.filter_cons_of_neg (by simp), ih]
      by_cases hks : k0 = s
      · rw [if_pos hks, if_pos hks]
      · rw [if_neg hks, if_neg hks, assocGet, hs, if_neg (by simpa using hks)]
    · rw [List.filter_cons_of_pos (by simpa using h0)]
      by_cases hks : k0 = s
      · subst hks
        have : ¬ k = k0 := fun h => h0 h.symm
        rw [if_neg this, assocGet, assocGet, hs, if_pos (by simp), if_pos (by simp)]
      · have hr : assocGet eqv ((k0, v0) :: rest) s = assocGet eqv rest s := by
          rw [assocGet, hs, if_neg (by simpa using hks)]
        rw [hr, ← ih, assocGet, hs, if_neg (by simpa using hks)]

theorem goEq_number_fin (a : LKey) (q : ℚ) :
    LKey.goEq a (LKey.number (.fin q)) = decide (a = LKey.number (.fin q)) := by
  cases a with
  | number x =>
    cases x with
    | fin p =>
      simp only [LKey.goEq, Float64.eq]
      by_cases h : p = q
      · subst h; simp
      · have h1 : ¬ Float64.fin p = Float64.fin q := fun hc => h (by injection hc)
        have h2 : ¬ LKey.number (Float64.fin p) = LKey.number (Float64.fin q) :=
          fun hc => h1 (by injection hc)
        simp [h1, h2]
    | posInf => simp [LKey.goEq, Float64.eq]
    | negInf => simp [LKey.goEq, Float64.eq]
    | nan => simp [LKey.goEq, Float64.eq]
  | bool b => simp [LKey.goEq]
  | str s => simp [LKey.goEq]
  | ref kind addr => simp [LKey.goEq]

theorem sliceInv_empty (E : Env) : SliceInv E LTable.empty [] := by
  refine ⟨rfl, rfl, fun kv hkv => (by cases hkv), fun j h1 h2 => ?_⟩
  have hM : MaxArrayIndex = 67108864 := rfl
  simp only [List.length_nil] at h2
  omega

theorem rawSetInt_number (t : LTable) (n : ℕ) (x : LValue) (h1 : MaxArrayIndex ≤ n)
    (h2 : n < 2 ^ 53) :
    t.RawSetInt (n : ℤ) x =
      if x.isNil then
        .mk t.array t.strdict (assocDelete LKey.goEq t.dict (LKey.number (.fin (n : ℚ))))
      else .mk t.array t.strdict (assocSet LKey.goEq t.dict (LKey.number (.fin (n : ℚ))) x) := by
  rw [LTable.RawSetInt, if_pos (Or.inr (by exact_mod_cast h1)), Float64.ofInt64,
    roundInt53_natCast_small n h2]
  simp only [LTable.RawSetH, Int.cast_natCast]

theorem sliceInv_step (E : Env) (t : LTable) (P : List GoValue) (v : GoValue)
    (hinv : SliceInv E t P) (hlen : P.length + 1 < 2 ^ 53) :
    SliceInv E (t.RawSetInt ((P.length : ℤ) + 1) (goToLua E v)) (P ++ [v]) := by
  have hM : MaxArrayIndex = 67108864 := rfl
  obtain ⟨hs, ha, hsound, hcompl⟩ := hinv
  have hgetL : ∀ j : ℕ, 1 ≤ j → j ≤ P.length →
      (P ++ [v]).getD (j - 1) GoValue.nil = P.getD (j - 1) GoValue.nil := by
    intro j h1 h2
    exact List.getD_append P [v] GoValue.nil (j - 1) (by omega)
  have hgetR : (P ++ [v]).getD (P.length + 1 - 1) GoValue.nil = v := by
    rw [Nat.add_sub_cancel, List.getD_append_right P [v] GoValue.nil P.length (le_refl _),
      Nat.sub_self]
    rfl
  by_cases hcase : P.length + 1 < MaxArrayIndex
  · -- the element goes to the array part
    have htake : P.take (MaxArrayIndex - 1) = P := List.take_of_length_le (by omega)
    have hl2 : (P ++ [v]).length = P.length + 1 := by simp
    have htake2 : (P ++ [v]).take (MaxArrayIndex - 1) = P ++ [v] :=
      List.take_of_length_le (by rw [hl2]; omega)
    have halen : t.array.length = P.length := by rw [ha, htake, List.length_map]
    have hset : t.RawSetInt ((P.length : ℤ) + 1) (goToLua E v) =
        .mk (t.array ++ [goToLua E v]) t.strdict t.dict := by
      have hlt : ((P.length + 1 : ℕ) : ℤ) < (MaxArrayIndex : ℤ) := by exact_mod_cast hcase
      rw [LTable.RawSetInt, if_neg (by push_cast at hlt; omega)]
      have : ((P.length : ℤ) + 1 - 1).toNat = t.array.length := by omega
      rw [this, arrayStore, if_pos rfl]
    rw [hset]
    refine ⟨hs, ?_, ?_, ?_⟩
    · show t.array ++ [goToLua E v] = _
      rw [htake2, ha, htake, List.map_append]
      rfl
    · intro kv hkv
      obtain ⟨j, h1, h2, -⟩ := hsound kv hkv
      omega
    · intro j h1 h2
      simp only [List.length_append, List.length_cons, List.length_nil] at h2
      omega
  · -- the element goes to the hash part
    have hcase2 : MaxArrayIndex ≤ P.length + 1 := by omega
    have htake2 : (P ++ [v]).take (MaxArrayIndex - 1) = P.take (MaxArrayIndex - 1) :=
      List.take_append_of_le_length (by omega)
    have hcast : ((P.length : ℤ) + 1) = ((P.length + 1 : ℕ) : ℤ) := by push_cast; rfl
    have hkeyne : ∀ j : ℕ, j ≤ P.length →
        ¬ LKey.number (.fin ((P.length + 1 : ℕ) : ℚ)) = LKey.number (.fin (j : ℚ)) := by
      intro j hj hc
      have := number_fin_natCast_inj _ _ hc
      omega
    rw [hcast, rawSetInt_number t (P.length + 1) _ hcase2 hlen]
    by_cases hnil : (goToLua E v).isNil = true
    · rw [if_pos hnil]
      refine ⟨hs, ?_, ?_, ?_⟩
      · show t.array = _
        rw [htake2, ha]
      · intro kv hkv
        obtain ⟨j, h1, h2, h3, h4, h5⟩ := hsound kv (List.mem_filter.mp hkv).1
        refine ⟨j, h1, ?_, h3, ?_, h5⟩
        · simp only [List.length_append, List.length_cons, List.length_nil]; omega
        · rw [hgetL j (by omega) h2]; exact h4
      · intro j h1 h2
        simp only [List.length_append, List.length_cons, List.length_nil] at h2
        show assocGet LKey.goEq (assocDelete LKey.goEq t.dict _) _ = _
        rw [assocGet_assocDelete_of_eq LKey.goEq t.dict _ _ (fun a => goEq_number_fin a _)
          (fun a => goEq_number_fin a _)]
        by_cases hj : j = P.length + 1
        · subst hj
          rw [if_pos rfl, hgetR, if_pos hnil]
        · rw [if_neg (hkeyne j (by omega)), hcompl j h1 (by omega), hgetL j (by omega) (by omega)]
    · rw [if_neg hnil]
      refine ⟨hs, ?_, ?_, ?_⟩
      · show t.array = _
        rw [htake2, ha]
      · intro kv hkv
        rcases mem_assocSet _ _ _ _ kv hkv with h | h
        · obtain ⟨j, h1, h2, h3, h4, h5⟩ := hsound kv h
          refine ⟨j, h1, ?_, h3, ?_, h5⟩
          · simp only [List.length_append, List.length_cons, List.length_nil]; omega
          · rw [hgetL j (by omega) h2]; exact h4
        · refine ⟨P.length + 1, hcase2, ?_, ?_, ?_, ?_⟩
          · simp only [List.length_append, List.length_cons, List.length_nil]; omega
          · rw [h]
          · rw [h, hgetR]
          · rw [h]; simpa using hnil
      · intro j h1 h2
        simp only [List.length_append, List.length_cons, List.length_nil] at h2
        show assocGet LKey.goEq (assocSet LKey.goEq t.dict _ _) _ = _
        rw [assocGet_assocSet_of_eq LKey.goEq t.dict _ _ _ (fun a => goEq_number_fin a _)
          (fun a => goEq_number_fin a _)]
        by_cases hj : j = P.length + 1
        · subst hj
          rw [if_pos rfl, hgetR, if_neg hnil]
        · rw [if_neg (hkeyne j (by omega)), hcompl j h1 (by omega), hgetL j (by omega) (by omega)]

theorem sliceInv_loop (E : Env) (rest : List GoValue) (t : LTable) (P : List GoValue)
    (hinv : SliceInv E t P) (hlen : P.length + rest.length < 2 ^ 53) :
    SliceInv E (goSliceLoop E t P.length rest) (P ++ rest) := by
  induction rest generalizing t P with
  | nil =>
    rw [goSliceLoop, List.append_nil]
    exact hinv
  | cons v vs ih =>
    simp only [List.length_cons] at hlen
    rw [goSliceLoop]
    have hstep := sliceInv_step E t P v hinv (by omega)
    have hl : (P ++ [v]).length = P.length + 1 := by simp
    have := ih _ (P ++ [v]) hstep (by rw [hl]; omega)
    rw [hl, List.append_assoc] at this
    exact this

theorem sliceInv_goSliceToLua (E : Env) (S : List GoValue) (hlen : S.length < 2 ^ 53) :
    SliceInv E (goSliceToLua E S) S := by
  have := sliceInv_loop E S LTable.empty [] (sliceInv_empty E) (by simpa using hlen)
  simpa [goSliceToLua] using this

theorem isArrayKey_natCast_large (a : Arch) (i : ℕ) (h1 : MaxArrayIndex ≤ i)
    (h2 : (i : ℤ) ≤ maxInt64) : isArrayKey a (.fin (i : ℚ)) = false := by
  rw [isArrayKey, toInt64_natCast a i h2]
  have : ¬ ((i : ℤ) < (MaxArrayIndex : ℤ)) := by
    have : (MaxArrayIndex : ℤ) ≤ (i : ℤ) := by exact_mod_cast h1
    omega
  rw [decide_eq_false this, Bool.and_false]

theorem isNil_eq_nil (x : LValue) (h : x.isNil = true) : x = LValue.nil := by
  cases x <;> first | rfl | cases h

/-- C12: for a host slice `S` of length `N` (below `2^53`, as every Go slice
is), the table `goSliceToLua` returns holds `goToLua(S[i-1])` at the integer key
`i` for each `i` in `1..N`, and has no other key: every key is an integer between
`1` and `N`, and there is no string key. -/
theorem goSliceToLua_spec (E : Env) (S : List GoValue) (hlen : S.length < 2 ^ 53) :
    (∀ (i : ℕ) (e : GoValue), 1 ≤ i → S[i - 1]? = some e →
      (goSliceToLua E S).RawGet E.arch (LKey.number (.fin (i : ℚ))) = goToLua E e) ∧
    (∀ kv ∈ (goSliceToLua E S).ForEach,
      ∃ i : ℕ, 1 ≤ i ∧ i ≤ S.length ∧ kv.1 = LKey.number (.fin (i : ℚ))) ∧
    (goSliceToLua E S).strdict = [] := by
  have hM : MaxArrayIndex = 67108864 := rfl
  have h53 : (2 : ℕ) ^ 53 = 9007199254740992 := by norm_num
  obtain ⟨hs, ha, hsound, hcompl⟩ := sliceInv_goSliceToLua E S hlen
  have halen : (goSliceToLua E S).array.length = min (MaxArrayIndex - 1) S.length := by
    rw [ha, List.length_map, List.length_take]
  refine ⟨?_, ?_, hs⟩
  · intro i e hi he
    have hiN : i - 1 < S.length := by
      by_contra hc
      rw [List.getElem?_eq_none (by omega)] at he
      cases he
    have hgetD : S.getD (i - 1) GoValue.nil = e := by
      rw [List.getD_eq_getElem?_getD, he]; rfl
    have himax : (i : ℤ) ≤ maxInt64 := by simp only [maxInt64]; omega
    by_cases hcase : i < MaxArrayIndex
    · simp only [LTable.RawGet, isArrayKey_natCast E.arch i hi hcase, if_true,
        toInt64_natCast E.arch i himax]
      have hidx : ((i : ℤ) - 1).toNat = i - 1 := by omega
      rw [if_neg (by rw [halen]; omega), hidx, ha, List.getD_eq_getElem?_getD,
        List.getElem?_map, List.getElem?_take_of_lt (by omega), he]
      rfl
    · simp only [LTable.RawGet, isArrayKey_natCast_large E.arch i (by omega) himax,
        Bool.false_eq_true, if_false]
      rw [hcompl i (by omega) (by omega), hgetD]
      by_cases hnil : (goToLua E e).isNil = true
      · rw [if_pos hnil, isNil_eq_nil _ hnil]
      · rw [if_neg hnil]
  · intro kv hkv
    rcases (mem_ForEach _ kv).mp hkv with h | h | h
    · obtain ⟨j, hj1, -, hj3⟩ := (mem_arrayEntries _ _ kv.1 kv.2).mp h
      have hjlen : j < (goSliceToLua E S).array.length := by
        by_contra hc
        rw [List.getElem?_eq_none (by omega)] at hj1
        cases hj1
      rw [halen] at hjlen
      exact ⟨j + 1, by omega, by omega, by rw [hj3]; congr 3; omega⟩
    · rw [hs] at h; cases h
    · obtain ⟨j, h1, h2, h3, -, -⟩ := hsound kv ((mem_dictEntries _ kv.1 kv.2).mp h).1
      exact ⟨j, by omega, h2, h3⟩

theorem goSliceToLua_spec_witness :
    [GoValue.bool true, GoValue.nil, GoValue.string "c"].length < 2 ^ 53 ∧
    (∀ (i : ℕ) (e : GoValue), 1 ≤ i →
      [GoValue.bool true, GoValue.nil, GoValue.string "c"][i - 1]? = some e →
      (goSliceToLua ⟨.amd64, fun _ => "", fun _ => none⟩
        [GoValue.bool true, GoValue.nil, GoValue.string "c"]).RawGet Arch.amd64
          (LKey.number (.fin (i : ℚ))) =
        goToLua ⟨.amd64, fun _ => "", fun _ => none⟩ e) ∧
    (∀ kv ∈ (goSliceToLua ⟨.amd64, fun _ => "", fun _ => none⟩
        [GoValue.bool true, GoValue.nil, GoValue.string "c"]).ForEach,
      ∃ i : ℕ, 1 ≤ i ∧ i ≤ [GoValue.bool true, GoValue.nil, GoValue.string "c"].length ∧
        kv.1 = LKey.number (.fin (i : ℚ))) ∧
    (goSliceToLua ⟨.amd64, fun _ => "", fun _ => none⟩
      [GoValue.bool true, GoValue.nil, GoValue.string "c"]).strdict = [] :=
  have hlen : [GoValue.bool true, GoValue.nil, GoValue.string "c"].length < 2 ^ 53 := by
    norm_num
  ⟨hlen, goSliceToLua_spec ⟨.amd64, fun _ => "", fun _ => none⟩ _ hlen⟩

/-- The read `RawGetInt`, which `luaTableToGo` uses, does not see an element
stored from position `MaxArrayIndex` on, while `RawGet` does. -/
theorem fullTable_rawGetInt_spilled :
    (spillTable 67108863).RawGetInt 67108864 = LValue.nil := by
  rw [LTable.RawGetInt, if_pos]
  right
  show ((List.replicate 67108863 (LValue.bool true)).length : ℤ) ≤ 67108864 - 1
  rw [List.length_replicate]
  norm_num

/-! ## Integers across the bridge -/

theorem isBinary64_of_abs_le (n : ℤ) (h : |n| ≤ 2 ^ 53) : IsBinary64 (n : ℚ) := by
  by_cases hlt : |n| < 2 ^ 53
  · exact ⟨n, 0, 0, hlt, by norm_num, by norm_num, by simp⟩
  · have heq : |n| = 2 ^ 53 := le_antisymm h (not_lt.mp hlt)
    rcases abs_eq (by norm_num : (0 : ℤ) ≤ 2 ^ 53) |>.mp heq with h1 | h1
    · refine ⟨2 ^ 52, 1, 0, by norm_num, by norm_num, by norm_num, ?_⟩
      rw [h1]; norm_num
    · refine ⟨-2 ^ 52, 1, 0, by norm_num, by norm_num, by norm_num, ?_⟩
      rw [h1]; norm_num

/-- C29: an `int64` `n` with `|n| <= 2^53` comes back from
`luaToGo(goToLua(n))` as the `int64` `n`: the conversion to a Lua number is
exact, and the number, being integral, is returned as an integer. -/
theorem luaToGo_goToLua_int64 (E : Env) (n : ℤ) (h : |n| ≤ 2 ^ 53) :
    goToLua E (GoValue.int64 n) = LValue.number (.fin (n : ℚ)) ∧
    luaToGo E (goToLua E (GoValue.int64 n)) = GoValue.int64 n := by
  have hb := isBinary64_of_abs_le n h
  have hr := roundInt53_of_isBinary64 n hb
  have habs := abs_le.mp h
  have hlo : minInt64 ≤ n := by simp only [minInt64]; omega
  have hhi : n ≤ maxInt64 := by simp only [maxInt64]; omega
  have hg : goToLua E (GoValue.int64 n) = LValue.number (.fin (n : ℚ)) := by
    rw [goToLua, Float64.ofInt64, hr]
  refine ⟨hg, ?_⟩
  rw [hg]
  have ht := toInt64_intCast E.arch n hlo hhi
  have := luaToGo_number_of_eq E (.fin (n : ℚ))
    (by rw [ht, Float64.ofInt64, hr, Float64.eq_fin_fin]; simp)
  rw [this, ht]

theorem luaToGo_goToLua_int64_witness :
    |(-9007199254740992 : ℤ)| ≤ 2 ^ 53 ∧
    goToLua ⟨.amd64, fun _ => "", fun _ => none⟩ (GoValue.int64 (-9007199254740992)) =
      LValue.number (.fin ((-9007199254740992 : ℤ) : ℚ)) ∧
    luaToGo ⟨.amd64, fun _ => "", fun _ => none⟩
      (goToLua ⟨.amd64, fun _ => "", fun _ => none⟩ (GoValue.int64 (-9007199254740992))) =
      GoValue.int64 (-9007199254740992) :=
  have h : |(-9007199254740992 : ℤ)| ≤ 2 ^ 53 := by decide
  ⟨h, luaToGo_goToLua_int64 _ _ h⟩

/-! ## `getTable` -/

/-- C27: `getTable` returns the nil map exactly when the argument is not a table
or is a table that `luaTableToGo` converts to a slice; for every other table,
the empty one included, it returns the map `luaTableToGo` makes, which is not
nil. -/
theorem getTable_spec (E : Env) (val : LValue) :
    (getTable E val = none ↔
      (∀ t, val ≠ LValue.table t) ∨ ∃ t, val = LValue.table t ∧ isSequence E t = true) ∧
    (∀ t, val = LValue.table t → isSequence E t = false →
      ∃ m, luaTableToGo E t = GoValue.map m ∧ getTable E val = some m) ∧
    getTable E (LValue.table LTable.empty) = some [] := by
  have htab : ∀ t : LTable, (isSequence E t = true → getTable E (.table t) = none) ∧
      (isSequence E t = false →
        ∃ m, luaTableToGo E t = GoValue.map m ∧ getTable E (.table t) = some m) := by
    intro t
    constructor
    · intro h
      obtain ⟨xs, hxs⟩ := (luaTableToGo_shape E t).1 h
      simp only [getTable, hxs]
    · intro h
      obtain ⟨m, hm⟩ := (luaTableToGo_shape E t).2 h
      exact ⟨m, hm, by simp only [getTable, hm]⟩
  refine ⟨?_, ?_, rfl⟩
  · cases val with
    | table t =>
      constructor
      · intro h
        right
        refine ⟨t, rfl, ?_⟩
        cases hs : isSequence E t with
        | true => rfl
        | false =>
          obtain ⟨m, -, hm⟩ := (htab t).2 hs
          rw [hm] at h; cases h
      · rintro (h | ⟨t2, ht2, hs⟩)
        · exact absurd rfl (h t)
        · injection ht2 with ht2
          subst ht2
          exact (htab t).1 hs
    | nil => exact ⟨fun _ => Or.inl (fun t h => by cases h), fun _ => rfl⟩
    | bool b => exact ⟨fun _ => Or.inl (fun t h => by cases h), fun _ => rfl⟩
    | number x => exact ⟨fun _ => Or.inl (fun t h => by cases h), fun _ => rfl⟩
    | str s => exact ⟨fun _ => Or.inl (fun t h => by cases h), fun _ => rfl⟩
    | other kind addr => exact ⟨fun _ => Or.inl (fun t h => by cases h), fun _ => rfl⟩
  · intro t ht hs
    subst ht
    exact (htab t).2 hs

/-! ## The number of entries of the map `luaTableToGo` makes -/

theorem length_assocSet_of_not_mem {β : Type} (m : List (String × β)) (k : String) (v : β)
    (h : k ∉ m.map Prod.fst) : (assocSet strEq m k v).length = m.length + 1 := by
  induction m with
  | nil => simp [assocSet]
  | cons p rest ih =>
    obtain ⟨k0, v0⟩ := p
    simp only [List.map_cons, List.mem_cons, not_or] at h
    have h0 : ¬ k0 = k := fun hc => h.1 hc.symm
    simp only [assocSet, strEq, h0, decide_False, Bool.false_eq_true, if_false,
      List.length_cons, ih h.2]

theorem foldSet_length {α β : Type} (g : α → String) (h : α → β) (l : List α)
    (m0 : List (String × β)) (hnd : (l.map g).Nodup)
    (hfresh : ∀ x ∈ l, g x ∉ m0.map Prod.fst) :
    (l.foldl (fun m x => assocSet strEq m (g x) (h x)) m0).length = m0.length + l.length := by
  induction l generalizing m0 with
  | nil => simp
  | cons x xs ih =>
    simp only [List.map_cons, List.nodup_cons] at hnd
    rw [List.foldl_cons, ih _ hnd.2, length_assocSet_of_not_mem _ _ _
      (hfresh x (List.mem_cons_self _ _)), List.length_cons]
    · omega
    · intro y hy hmem
      rcases (keys_assocSet _ _ _ _).mp hmem with h1 | h1
      · exact hnd.1 (by rw [← h1]; exact List.mem_map_of_mem g hy)
      · exact hfresh y (List.mem_cons_of_mem _ hy) h1

theorem foldSet_get_last {α β : Type} (g : α → String) (h : α → β) (l1 l2 : List α) (x : α)
    (m0 : List (String × β)) (hlast : ∀ y ∈ l2, g y ≠ g x) :
    assocGet strEq ((l1 ++ x :: l2).foldl (fun m x => assocSet strEq m (g x) (h x)) m0) (g x) =
      some (h x) := by
  rw [List.foldl_append, List.foldl_cons, foldSet_get_of_not_mem g h l2 _ (g x) hlast,
    assocGet_assocSet, if_pos rfl]

theorem length_eq_dedup_of_keys (ks forms : List String) (hnd : ks.Nodup)
    (hmem : ∀ s, s ∈ ks ↔ s ∈ forms) : ks.length = forms.dedup.length := by
  apply List.Perm.length_eq
  rw [List.perm_ext_iff_of_nodup hnd (List.nodup_dedup forms)]
  intro s
  rw [hmem s, List.mem_dedup]

theorem dedup_length_lt_of_not_nodup (forms : List String) (h : ¬ forms.Nodup) :
    forms.dedup.length < forms.length := by
  have hsub : forms.dedup.Sublist forms := List.dedup_sublist forms
  rcases Nat.lt_or_ge forms.dedup.length forms.length with hlt | hge
  · exact hlt
  · exact absurd (List.dedup_eq_self.mp (hsub.eq_of_length_le hge)) h

/-- C30 (amended): for a table that `luaTableToGo` converts to a map, the keys
of the map are the `String()` forms of the keys of the table, no map key twice,
so the map has as many entries as there are different forms among the keys; under
each form it holds the converted value of the entry with that form that
`ForEach` visited last, every earlier entry with the same form being
overwritten.  When the forms of the keys are pairwise different the map has
exactly as many entries as the table has keys and the value of every key is
found under its form; when two keys share a form it has fewer entries than the
table has keys. -/
theorem luaTableToGo_map_entries (E : Env) (t : LTable) (hmap : isSequence E t = false) :
    ∃ m : List (String × GoValue), luaTableToGo E t = GoValue.map m ∧
      (m.map Prod.fst).Nodup ∧
      (∀ s, s ∈ m.map Prod.fst ↔ ∃ kv ∈ t.ForEach, kv.1.String E = s) ∧
      m.length = (t.ForEach.map (fun kv => kv.1.String E)).dedup.length ∧
      (∀ (before after : List (LKey × LValue)) (kv : LKey × LValue),
        t.ForEach = before ++ kv :: after →
        (∀ kv2 ∈ after, kv2.1.String E ≠ kv.1.String E) →
        assocGet strEq m (kv.1.String E) = some (luaToGo E kv.2)) ∧
      ((t.ForEach.map (fun kv => kv.1.String E)).Nodup →
        m.length = t.ForEach.length ∧
        ∀ kv ∈ t.ForEach, assocGet strEq m (kv.1.String E) = some (luaToGo E kv.2)) ∧
      (¬ (t.ForEach.map (fun kv => kv.1.String E)).Nodup → m.length < t.ForEach.length) := by
  have hkeys : ∀ s, s ∈ (t.ForEach.foldl
      (fun m kv => assocSet strEq m (kv.1.String E) (luaToGo E kv.2)) []).map Prod.fst ↔
      ∃ kv ∈ t.ForEach, kv.1.String E = s := by
    intro s
    rw [foldSet_keys (fun kv : LKey × LValue => kv.1.String E) (fun kv => luaToGo E kv.2)]
    simp
  have hnodup : ((t.ForEach.foldl
      (fun m kv => assocSet strEq m (kv.1.String E) (luaToGo E kv.2)) []).map Prod.fst).Nodup :=
    foldSet_nodup _ _ _ _ (by simp)
  have hlen : (t.ForEach.foldl
      (fun m kv => assocSet strEq m (kv.1.String E) (luaToGo E kv.2)) []).length =
      (t.ForEach.map (fun kv => kv.1.String E)).dedup.length := by
    have := length_eq_dedup_of_keys _ (t.ForEach.map (fun kv => kv.1.String E)) hnodup
      (fun s => by rw [hkeys s]; simp)
    simpa using this
  refine ⟨t.ForEach.foldl
    (fun m kv => assocSet strEq m (kv.1.String E) (luaToGo E kv.2)) [], ?_, hnodup, hkeys, hlen,
    ?_, ?_, ?_⟩
  · rw [luaTableToGo_eq, hmap]; rfl
  · intro before after kv hsplit hlast
    rw [hsplit]
    exact foldSet_get_last (fun kv : LKey × LValue => kv.1.String E)
      (fun kv => luaToGo E kv.2) before after kv [] hlast
  · intro hnd
    constructor
    · rw [hlen, List.Nodup.dedup hnd, List.length_map]
    · intro kv hkv
      apply foldSet_get_unique (fun kv : LKey × LValue => kv.1.String E)
        (fun kv => luaToGo E kv.2) _ _ kv hkv
      intro y hy hyk
      have : y = kv := List.inj_on_of_nodup_map hnd hy hkv hyk
      rw [this]
  · intro hnd
    rw [hlen]
    have := dedup_length_lt_of_not_nodup _ hnd
    rwa [List.length_map] at this

theorem luaTableToGo_map_entries_witness :
    isSequence ⟨.amd64, fun _ => "", fun _ => none⟩
      (LTable.mk [.bool true] [("1", .bool false)] []) = false ∧
    ∃ m : List (String × GoValue),
      luaTableToGo ⟨.amd64, fun _ => "", fun _ => none⟩
        (LTable.mk [.bool true] [("1", .bool false)] []) = GoValue.map m ∧
      (m.map Prod.fst).Nodup ∧
      (∀ s, s ∈ m.map Prod.fst ↔
        ∃ kv ∈ (LTable.mk [.bool true] [("1", .bool false)] []).ForEach,
          kv.1.String ⟨.amd64, fun _ => "", fun _ => none⟩ = s) ∧
      m.length = ((LTable.mk [.bool true] [("1", .bool false)] []).ForEach.map
        (fun kv => kv.1.String ⟨.amd64, fun _ => "", fun _ => none⟩)).dedup.length ∧
      (∀ (before after : List (LKey × LValue)) (kv : LKey × LValue),
        (LTable.mk [.bool true] [("1", .bool false)] []).ForEach = before ++ kv :: after →
        (∀ kv2 ∈ after, kv2.1.String ⟨.amd64, fun _ => "", fun _ => none⟩ ≠
          kv.1.String ⟨.amd64, fun _ => "", fun _ => none⟩) →
        assocGet strEq m (kv.1.String ⟨.amd64, fun _ => "", fun _ => none⟩) =
          some (luaToGo ⟨.amd64, fun _ => "", fun _ => none⟩ kv.2)) ∧
      (((LTable.mk [.bool true] [("1", .bool false)] []).ForEach.map
          (fun kv => kv.1.String ⟨.amd64, fun _ => "", fun _ => none⟩)).Nodup →
        m.length = (LTable.mk [.bool true] [("1", .bool false)] []).ForEach.length ∧
        ∀ kv ∈ (LTable.mk [.bool true] [("1", .bool false)] []).ForEach,
          assocGet strEq m (kv.1.String ⟨.amd64, fun _ => "", fun _ => none⟩) =
            some (luaToGo ⟨.amd64, fun _ => "", fun _ => none⟩ kv.2)) ∧
      (¬ ((LTable.mk [.bool true] [("1", .bool false)] []).ForEach.map
          (fun kv => kv.1.String ⟨.amd64, fun _ => "", fun _ => none⟩)).Nodup →
        m.length < (LTable.mk [.bool true] [("1", .bool false)] []).ForEach.length) :=
  have h1 : isSequence ⟨.amd64, fun _ => "", fun _ => none⟩
      (LTable.mk [.bool true] [("1", .bool false)] []) = false := by
    have := scanKeys_fst_false ⟨.amd64, fun _ => "", fun _ => none⟩
      (LTable.mk [.bool true] [("1", .bool false)] [])
      ⟨(LKey.str "1", LValue.bool false),
        List.mem_cons_of_mem _ (List.mem_singleton.mpr rfl), rfl⟩
    rw [isSequence, this]
    rfl
  ⟨h1, luaTableToGo_map_entries _ _ h1⟩

theorem LKey_String_one (E : Env) :
    LKey.String E (LKey.number (.fin ((1 : ℕ) : ℚ))) = "1" := by
  have h1 : isInteger E.arch (.fin ((1 : ℕ) : ℚ)) = true :=
    isInteger_natCast E.arch 1 (by norm_num)
  have h2 : (Float64.fin ((1 : ℕ) : ℚ)).toInt64 E.arch = ((1 : ℕ) : ℤ) :=
    toInt64_natCast E.arch 1 (by decide)
  simp only [LKey.String, LNumber.String, h1, if_true, h2]
  rfl

/-- C30 (as stated, refuted): the table `{[1] = true, ["1"] = false}` has two
different keys, the number `1` and the string `"1"`, and is converted to a map
because of its string key; both keys have the `String()` form `"1"`, so the map
has the single entry `"1"` and the value of the key written first is
overwritten. -/
theorem luaTableToGo_keys_1_and_string_1 :
    (LTable.mk [.bool true] [("1", .bool false)] []).ForEach =
      [(LKey.number (.fin ((1 : ℕ) : ℚ)), LValue.bool true),
        (LKey.str "1", LValue.bool false)] ∧
    LKey.number (.fin ((1 : ℕ) : ℚ)) ≠ LKey.str "1" ∧
    (∀ E : Env, luaTableToGo E (LTable.mk [.bool true] [("1", .bool false)] []) =
      GoValue.map [("1", GoValue.bool false)]) := by
  refine ⟨rfl, fun h => (by cases h), fun E => ?_⟩
  have hfe : (LTable.mk [.bool true] [("1", .bool false)] []).ForEach =
      [(LKey.number (.fin ((1 : ℕ) : ℚ)), LValue.bool true),
        (LKey.str "1", LValue.bool false)] := rfl
  have hseq : isSequence E (LTable.mk [.bool true] [("1", .bool false)] []) = false := by
    have := scanKeys_fst_false E (LTable.mk [.bool true] [("1", .bool false)] [])
      ⟨(LKey.str "1", LValue.bool false),
        (by rw [hfe]; exact List.mem_cons_of_mem _ (List.mem_singleton.mpr rfl)), rfl⟩
    rw [isSequence, this]
    rfl
  rw [luaTableToGo_eq, hseq, hfe, if_neg (by decide)]
  refine congrArg GoValue.map ?_
  have hfold : ∀ (k1 k2 : LKey) (v1 v2 : LValue),
      List.foldl (fun m (kv : LKey × LValue) => assocSet strEq m (kv.1.String E) (luaToGo E kv.2))
        [] [(k1, v1), (k2, v2)] =
      assocSet strEq (assocSet strEq [] (k1.String E) (luaToGo E v1)) (k2.String E)
        (luaToGo E v2) := fun _ _ _ _ => rfl
  rw [hfold, LKey_String_one E]
  rfl

/-! ## The round trip of a host map -/

theorem assocSet_of_not_mem {β : Type} (m : List (String × β)) (k : String) (v : β)
    (hk : k ∉ m.map Prod.fst) : assocSet strEq m k v = m ++ [(k, v)] := by
  induction m with
  | nil => rfl
  | cons p rest ih =>
    obtain ⟨k0, v0⟩ := p
    simp only [List.map_cons, List.mem_cons, not_or] at hk
    have hne : strEq k0 k = false := by
      simp only [strEq, decide_eq_false_iff_not]
      exact fun h => hk.1 h.symm
    rw [assocSet, hne, ih hk.2]
    rfl

theorem assocGet_eq_none_iff {β : Type} (m : List (String × β)) (k : String) :
    assocGet strEq m k = none ↔ k ∉ m.map Prod.fst := by
  induction m with
  | nil => simp [assocGet]
  | cons p rest ih =>
    obtain ⟨k0, v0⟩ := p
    by_cases h : k0 = k
    · simp [assocGet, strEq, h]
    · have h2 : ¬ k = k0 := fun e => h e.symm
      simp [assocGet, strEq, h, h2, ih]

theorem assocGet_eq_some_iff {β : Type} (m : List (String × β)) (k : String) (v : β)
    (hnd : (m.map Prod.fst).Nodup) :
    assocGet strEq m k = some v ↔ (k, v) ∈ m := by
  induction m with
  | nil => simp [assocGet]
  | cons p rest ih =>
    obtain ⟨k0, v0⟩ := p
    simp only [List.map_cons, List.nodup_cons] at hnd
    by_cases h : k0 = k
    · subst h
      have hno : ∀ w, (k0, w) ∉ rest := fun w hw => hnd.1 (List.mem_map_of_mem Prod.fst hw)
      simp only [assocGet, strEq, decide_True, if_true, Option.some.injEq, List.mem_cons,
        Prod.mk.injEq, true_and]
      constructor
      · intro e; exact Or.inl e.symm
      · rintro (e | e)
        · exact e.symm
        · exact absurd e (hno v)
    · have h2 : ¬ k = k0 := fun e => h e.symm
      simp [assocGet, strEq, h, h2, ih hnd.2]

theorem assocGet_perm {β : Type} (m2 m : List (String × β)) (hp : m2.Perm m)
    (hnd : (m2.map Prod.fst).Nodup) (k : String) :
    assocGet strEq m2 k = assocGet strEq m k := by
  have hnd2 : (m.map Prod.fst).Nodup := (hp.map Prod.fst).nodup_iff.mp hnd
  cases h : assocGet strEq m k with
  | none =>
    rw [assocGet_eq_none_iff] at h ⊢
    exact fun hk => h ((hp.map Prod.fst).mem_iff.mp hk)
  | some v =>
    rw [assocGet_eq_some_iff m k v hnd2] at h
    rw [assocGet_eq_some_iff m2 k v hnd]
    exact hp.mem_iff.mpr h

theorem goMapLoop_fresh (E : Env) (l : List (String × GoValue)) (a : List LValue)
    (sd : List (String × LValue)) (d : List (LKey × LValue))
    (hnd : (l.map Prod.fst).Nodup) (hfresh : ∀ k ∈ l.map Prod.fst, k ∉ sd.map Prod.fst)
    (hnn : ∀ p ∈ l, (goToLua E p.2).isNil = false) :
    goMapLoop E (LTable.mk a sd d) l =
      LTable.mk a (sd ++ l.map (fun p => (p.1, goToLua E p.2))) d := by
  induction l generalizing sd with
  | nil => simp [goMapLoop]
  | cons p rest ih =>
    obtain ⟨k, v⟩ := p
    simp only [List.map_cons, List.nodup_cons] at hnd
    have hk : k ∉ sd.map Prod.fst := hfresh k (by simp)
    have hv : (goToLua E v).isNil = false := hnn (k, v) (List.mem_cons_self _ _)
    rw [goMapLoop]
    have hset : (LTable.mk a sd d).RawSetString k (goToLua E v) =
        LTable.mk a (sd ++ [(k, goToLua E v)]) d := by
      rw [LTable.RawSetString, hv]
      simp only [Bool.false_eq_true, if_false, LTable.array, LTable.strdict, LTable.dict]
      rw [assocSet_of_not_mem sd k _ hk]
    rw [hset, ih (sd ++ [(k, goToLua E v)]) hnd.2]
    · simp
    · intro k2 hk2
      simp only [List.map_append, List.map_cons, List.map_nil, List.mem_append,
        List.mem_singleton, not_or]
      refine ⟨hfresh k2 (by simp [hk2]), ?_⟩
      rintro rfl
      exact hnd.1 hk2
    · intro p hp
      exact hnn p (List.mem_cons_of_mem _ hp)

theorem strdictEntries_of_ne_nil (s : List (String × LValue))
    (h : ∀ p ∈ s, p.2.isNil = false) :
    strdictEntries s = s.map (fun p => (LKey.str p.1, p.2)) := by
  induction s with
  | nil => rfl
  | cons p rest ih =>
    obtain ⟨k, v⟩ := p
    have hv : v.isNil = false := h (k, v) (List.mem_cons_self _ _)
    rw [strdictEntries, hv]
    simp only [Bool.false_eq_true, if_false, List.map_cons]
    rw [ih (fun q hq => h q (List.mem_cons_of_mem _ hq))]

theorem foldSet_fresh {α β : Type} (g : α → String) (f : α → β) (l : List α)
    (m0 : List (String × β)) (hnd : (l.map g).Nodup)
    (hfresh : ∀ x ∈ l, g x ∉ m0.map Prod.fst) :
    l.foldl (fun m x => assocSet strEq m (g x) (f x)) m0 =
      m0 ++ l.map (fun x => (g x, f x)) := by
  induction l generalizing m0 with
  | nil => simp
  | cons x xs ih =>
    simp only [List.map_cons, List.nodup_cons] at hnd
    rw [List.foldl_cons, assocSet_of_not_mem m0 (g x) (f x) (hfresh x (List.mem_cons_self _ _)),
      ih (m0 ++ [(g x, f x)]) hnd.2]
    · simp
    · intro y hy
      simp only [List.map_append, List.map_cons, List.map_nil, List.mem_append,
        List.mem_singleton, not_or]
      refine ⟨hfresh y (List.mem_cons_of_mem _ hy), ?_⟩
      intro heq
      exact hnd.1 (heq ▸ List.mem_map_of_mem g hy)

theorem goMapToLua_fresh (E : Env) (m : List (String × GoValue))
    (hnd : (m.map Prod.fst).Nodup) (hnn : ∀ p ∈ m, (goToLua E p.2).isNil = false) :
    goMapToLua E m = LTable.mk [] (m.map (fun p => (p.1, goToLua E p.2))) [] := by
  have := goMapLoop_fresh E m [] [] [] hnd (fun _ _ h => by cases h) hnn
  simpa [goMapToLua, LTable.empty] using this

theorem luaToGo_goMapToLua (E : Env) (m : List (String × GoValue))
    (hnd : (m.map Prod.fst).Nodup)
    (hst : ∀ p ∈ m, p.2 ≠ GoValue.nil ∧ luaToGo E (goToLua E p.2) = p.2) :
    luaTableToGo E (goMapToLua E m) = GoValue.map m := by
  have hnn : ∀ p ∈ m, (goToLua E p.2).isNil = false := fun p hp =>
    goToLua_ne_nil_of_stable E p.2 (hst p hp).2 (hst p hp).1
  have hfe : (goMapToLua E m).ForEach =
      m.map (fun p => (LKey.str p.1, goToLua E p.2)) := by
    rw [goMapToLua_fresh E m hnd hnn]
    simp only [LTable.ForEach, LTable.array, LTable.strdict, LTable.dict, arrayEntries,
      dictEntries, List.nil_append, List.append_nil]
    rw [strdictEntries_of_ne_nil]
    · rw [List.map_map]; rfl
    · intro p hp
      obtain ⟨q, hq, rfl⟩ := List.mem_map.mp hp
      exact hnn q hq
  have hseq : isSequence E (goMapToLua E m) = false := by
    cases m with
    | nil => exact isSequence_of_forEach_nil E _ (by rw [hfe]; rfl)
    | cons p rest =>
      have := scanKeys_fst_false E (goMapToLua E (p :: rest))
        ⟨(LKey.str p.1, goToLua E p.2), (by rw [hfe]; exact List.mem_cons_self _ _), rfl⟩
      rw [isSequence, this]
      rfl
  rw [luaTableToGo_eq, hseq, hfe, if_neg (by decide)]
  refine congrArg GoValue.map ?_
  rw [List.foldl_map]
  have hfold := foldSet_fresh (fun p : String × GoValue => p.1)
    (fun p : String × GoValue => luaToGo E (goToLua E p.2)) m [] hnd (fun _ _ h => by cases h)
  simp only [LKey.String] at hfold ⊢
  rw [hfold, List.nil_append]
  conv_rhs => rw [← List.map_id m]
  apply List.map_congr_left
  intro p hp
  obtain ⟨k, v⟩ := p
  simp only [id]
  rw [(hst (k, v) hp).2]

/-- C28: for a host map `m` (its keys pairwise distinct, as in every Go map)
whose values are all non-nil and each come back unchanged from
`luaToGo(goToLua(v))`, `luaToGo(goToLua(m))` is the string-keyed map `m` itself,
with the same keys and the same value under each key, in whichever order `m` is
iterated; the empty map and integer-looking keys such as `"1"` are included. -/
theorem luaToGo_goToLua_map (E : Env) (m : List (String × GoValue))
    (hnd : (m.map Prod.fst).Nodup)
    (hst : ∀ p ∈ m, p.2 ≠ GoValue.nil ∧ luaToGo E (goToLua E p.2) = p.2) :
    luaToGo E (goToLua E (GoValue.map m)) = GoValue.map m ∧
    (∀ m2 : List (String × GoValue), m2.Perm m →
      ∃ r : List (String × GoValue), luaToGo E (goToLua E (GoValue.map m2)) = GoValue.map r ∧
        r.Perm m ∧ ∀ k, assocGet strEq r k = assocGet strEq m k) := by
  have key : ∀ l : List (String × GoValue), (l.map Prod.fst).Nodup →
      (∀ p ∈ l, p.2 ≠ GoValue.nil ∧ luaToGo E (goToLua E p.2) = p.2) →
      luaToGo E (goToLua E (GoValue.map l)) = GoValue.map l := by
    intro l h1 h2
    have : goToLua E (GoValue.map l) = LValue.table (goMapToLua E l) := by
      rw [goToLua]; rfl
    rw [this, luaToGo_table, luaToGo_goMapToLua E l h1 h2]
  refine ⟨key m hnd hst, fun m2 hp => ⟨m2, ?_, hp, ?_⟩⟩
  · exact key m2 ((hp.map Prod.fst).nodup_iff.mpr hnd) (fun p hp2 => hst p (hp.mem_iff.mp hp2))
  · intro k
    exact assocGet_perm m2 m hp ((hp.map Prod.fst).nodup_iff.mpr hnd) k

theorem luaToGo_goToLua_map_witness :
    ([("1", GoValue.bool true), ("b", GoValue.string "x")].map Prod.fst).Nodup ∧
    (∀ p ∈ [("1", GoValue.bool true), ("b", GoValue.string "x")],
      p.2 ≠ GoValue.nil ∧
      luaToGo ⟨.amd64, fun _ => "", fun _ => none⟩
        (goToLua ⟨.amd64, fun _ => "", fun _ => none⟩ p.2) = p.2) ∧
    luaToGo ⟨.amd64, fun _ => "", fun _ => none⟩
      (goToLua ⟨.amd64, fun _ => "", fun _ => none⟩
        (GoValue.map [("1", GoValue.bool true), ("b", GoValue.string "x")])) =
      GoValue.map [("1", GoValue.bool true), ("b", GoValue.string "x")] ∧
    (∀ m2 : List (String × GoValue),
      m2.Perm [("1", GoValue.bool true), ("b", GoValue.string "x")] →
      ∃ r : List (String × GoValue),
        luaToGo ⟨.amd64, fun _ => "", fun _ => none⟩
          (goToLua ⟨.amd64, fun _ => "", fun _ => none⟩ (GoValue.map m2)) = GoValue.map r ∧
        r.Perm [("1", GoValue.bool true), ("b", GoValue.string "x")] ∧
        ∀ k, assocGet strEq r k =
          assocGet strEq [("1", GoValue.bool true), ("b", GoValue.string "x")] k) :=
  have h1 : ([("1", GoValue.bool true), ("b", GoValue.string "x")].map Prod.fst).Nodup := by
    decide
  have h2 : ∀ p ∈ [("1", GoValue.bool true), ("b", GoValue.string "x")],
      p.2 ≠ GoValue.nil ∧
      luaToGo ⟨.amd64, fun _ => "", fun _ => none⟩
        (goToLua ⟨.amd64, fun _ => "", fun _ => none⟩ p.2) = p.2 := by
    intro p hp
    rcases List.mem_cons.mp hp with h | h
    · subst h; exact ⟨fun e => (by cases e), rfl⟩
    · rcases List.mem_cons.mp h with h | h
      · subst h; exact ⟨fun e => (by cases e), rfl⟩
      · cases h
  ⟨h1, h2, luaToGo_goToLua_map _ _ h1 h2⟩

/-! ## Facts about `splitCommaSeparated` -/

theorem splitFields_ne_nil (s : List Char) : splitFields s ≠ [] := by
  induction s with
  | nil => simp [splitFields]
  | cons c cs ih =>
    rw [splitFields]
    split
    · simp
    · split <;> simp

theorem splitFields_intercalate (s : List Char) :
    [comma].intercalate (splitFields s) = s := by
  induction s with
  | nil => rfl
  | cons c cs ih =>
    rw [splitFields]
    by_cases hc : c = comma
    · rw [if_pos hc]
      cases h : splitFields cs with
      | nil => exact absurd h (splitFields_ne_nil cs)
      | cons f fs =>
        rw [h] at ih
        rw [← ih, hc]
        simp [List.intercalate, List.intersperse]
    · rw [if_neg hc]
      cases h : splitFields cs with
      | nil => exact absurd h (splitFields_ne_nil cs)
      | cons f fs =>
        rw [h] at ih
        rw [← ih]
        cases fs <;> simp [List.intercalate, List.intersperse]

theorem splitFields_no_comma (s : List Char) : ∀ f ∈ splitFields s, comma ∉ f := by
  induction s with
  | nil => simp [splitFields]
  | cons c cs ih =>
    rw [splitFields]
    by_cases hc : c = comma
    · rw [if_pos hc]
      intro f hf
      rcases List.mem_cons.mp hf with h | h
      · subst h; simp
      · exact ih f h
    · rw [if_neg hc]
      cases h : splitFields cs with
      | nil => exact absurd h (splitFields_ne_nil cs)
      | cons f0 fs =>
        rw [h] at ih
        intro f hf
        rcases List.mem_cons.mp hf with h2 | h2
        · subst h2
          intro hmem
          rcases List.mem_cons.mp hmem with h3 | h3
          · exact hc h3.symm
          · exact ih f0 (List.mem_cons_self _ _) h3
        · exact ih f (List.mem_cons_of_mem _ h2)

theorem splitFields_subset (s : List Char) : ∀ f ∈ splitFields s, ∀ c ∈ f, c ∈ s := by
  induction s with
  | nil => simp [splitFields]
  | cons c cs ih =>
    rw [splitFields]
    by_cases hc : c = comma
    · rw [if_pos hc]
      intro f hf x hx
      rcases List.mem_cons.mp hf with h | h
      · subst h; cases hx
      · exact List.mem_cons_of_mem _ (ih f h x hx)
    · rw [if_neg hc]
      cases h : splitFields cs with
      | nil => exact absurd h (splitFields_ne_nil cs)
      | cons f0 fs =>
        rw [h] at ih
        intro f hf x hx
        rcases List.mem_cons.mp hf with h2 | h2
        · subst h2
          rcases List.mem_cons.mp hx with h3 | h3
          · rw [h3]; exact List.mem_cons_self _ _
          · exact List.mem_cons_of_mem _ (ih f0 (List.mem_cons_self _ _) x h3)
        · exact List.mem_cons_of_mem _ (ih f (List.mem_cons_of_mem _ h2) x hx)

theorem splitLoop_eq (l : List String) (acc : List String) :
    l.foldl (fun result p =>
        if stringsTrimSpace p ≠ "" then result ++ [stringsTrimSpace p] else result) acc =
      acc ++ (l.map stringsTrimSpace).filter (fun p => decide (p ≠ "")) := by
  induction l generalizing acc with
  | nil => simp
  | cons p rest ih =>
    rw [List.foldl_cons, ih]
    by_cases h : stringsTrimSpace p = ""
    · simp [h]
    · simp [h]

theorem trim_decompose (p : List Char) :
    ∃ pre post : List Char,
      p = pre ++ (p.dropWhile isSpace).rdropWhile isSpace ++ post ∧
      (∀ c ∈ pre, isSpace c = true) ∧ (∀ c ∈ post, isSpace c = true) := by
  refine ⟨p.takeWhile isSpace,
    ((p.dropWhile isSpace).reverse.takeWhile isSpace).reverse, ?_, ?_, ?_⟩
  · have h1 : p = p.takeWhile isSpace ++ p.dropWhile isSpace :=
      (List.takeWhile_append_dropWhile isSpace p).symm
    have h2 : p.dropWhile isSpace =
        (p.dropWhile isSpace).rdropWhile isSpace ++
          ((p.dropWhile isSpace).reverse.takeWhile isSpace).reverse := by
      rw [List.rdropWhile, ← List.reverse_append, List.takeWhile_append_dropWhile,
        List.reverse_reverse]
    rw [List.append_assoc, ← h2]
    exact h1
  · intro c hc
    exact List.mem_takeWhile_imp hc
  · intro c hc
    exact List.mem_takeWhile_imp (List.mem_reverse.mp hc)

theorem trim_head_not_space (p : List Char) (c : Char)
    (h : ((p.dropWhile isSpace).rdropWhile isSpace).head? = some c) : isSpace c = false := by
  have hpre : (p.dropWhile isSpace).rdropWhile isSpace <+: p.dropWhile isSpace :=
    List.rdropWhile_prefix isSpace _
  obtain ⟨t, ht⟩ := hpre
  cases hr : (p.dropWhile isSpace).rdropWhile isSpace with
  | nil => rw [hr] at h; cases h
  | cons x xs =>
    rw [hr] at h ht
    simp only [List.head?_cons, Option.some.injEq] at h
    subst h
    have h2 := List.head?_dropWhile_not isSpace p
    rw [← ht] at h2
    simpa using h2

theorem trim_last_not_space (p : List Char) (c : Char)
    (h : ((p.dropWhile isSpace).rdropWhile isSpace).getLast? = some c) : isSpace c = false := by
  have hne : (p.dropWhile isSpace).rdropWhile isSpace ≠ [] := by
    intro e; rw [e] at h; cases h
  have h2 := List.rdropWhile_last_not isSpace (p.dropWhile isSpace) hne
  rw [List.getLast?_eq_getLast _ hne] at h
  simp only [Option.some.injEq] at h
  rw [h] at h2
  simpa using h2

theorem trim_eq_nil_of_all_space (p : List Char) (h : ∀ c ∈ p, isSpace c = true) :
    (p.dropWhile isSpace).rdropWhile isSpace = [] := by
  have : p.dropWhile isSpace = [] := List.dropWhile_eq_nil_iff.mpr h
  rw [this]
  rfl

theorem trim_subset (p : List Char) :
    ∀ c ∈ (p.dropWhile isSpace).rdropWhile isSpace, c ∈ p := fun _ hc =>
  (List.dropWhile_sublist isSpace).subset ((List.rdropWhile_prefix isSpace _).subset hc)

/-- C22: for every string `s`, `splitCommaSeparated(s)` is the list, in the
original order, of the comma-separated fields of `s` (the parts of `s` that hold
no comma and that, joined by commas, give `s` back), each without its leading
and trailing whitespace, the fields that are empty after trimming left out; no
returned element is empty, starts or ends with whitespace, or contains a comma,
and an `s` that is empty or made only of commas and whitespace yields no
element. -/
theorem splitCommaSeparated_spec (s : String) :
    ([comma].intercalate ((stringsSplit s).map String.data) = s.data ∧
      ∀ f ∈ stringsSplit s, comma ∉ f.data) ∧
    (∀ p : String, ∃ pre post : List Char,
      p.data = pre ++ (stringsTrimSpace p).data ++ post ∧
      (∀ c ∈ pre, isSpace c = true) ∧ (∀ c ∈ post, isSpace c = true) ∧
      (∀ c, (stringsTrimSpace p).data.head? = some c → isSpace c = false) ∧
      (∀ c, (stringsTrimSpace p).data.getLast? = some c → isSpace c = false)) ∧
    splitCommaSeparated s = trimmedFields s ∧
    (∀ r ∈ splitCommaSeparated s, r ≠ "" ∧ comma ∉ r.data ∧
      (∀ c, r.data.head? = some c → isSpace c = false) ∧
      (∀ c, r.data.getLast? = some c → isSpace c = false)) ∧
    ((∀ c ∈ s.data, c = comma ∨ isSpace c = true) → splitCommaSeparated s = []) := by
  have hdata : (stringsSplit s).map String.data = splitFields s.data := by
    rw [stringsSplit, List.map_map]
    exact List.map_id _
  have heq : splitCommaSeparated s = trimmedFields s := by
    rw [splitCommaSeparated, trimmedFields]
    by_cases hs : s = ""
    · rw [if_pos hs, hs]
      rfl
    · rw [if_neg hs, splitLoop_eq, List.nil_append]
  have hmem : ∀ r ∈ splitCommaSeparated s, r ≠ "" ∧
      ∃ f ∈ splitFields s.data, r = stringsTrimSpace (String.mk f) := by
    intro r hr
    rw [heq, trimmedFields, List.mem_filter] at hr
    obtain ⟨h1, h2⟩ := hr
    refine ⟨by simpa using h2, ?_⟩
    obtain ⟨p, hp, rfl⟩ := List.mem_map.mp h1
    rw [stringsSplit] at hp
    obtain ⟨f, hf, rfl⟩ := List.mem_map.mp hp
    exact ⟨f, hf, rfl⟩
  refine ⟨⟨?_, ?_⟩, ?_, heq, ?_, ?_⟩
  · rw [hdata]
    exact splitFields_intercalate s.data
  · intro f hf
    rw [stringsSplit] at hf
    obtain ⟨g, hg, rfl⟩ := List.mem_map.mp hf
    exact splitFields_no_comma s.data g hg
  · intro p
    obtain ⟨pre, post, h1, h2, h3⟩ := trim_decompose p.data
    exact ⟨pre, post, h1, h2, h3, trim_head_not_space p.data, trim_last_not_space p.data⟩
  · intro r hr
    obtain ⟨hne, f, hf, rfl⟩ := hmem r hr
    refine ⟨hne, ?_, trim_head_not_space f, trim_last_not_space f⟩
    intro hc
    exact splitFields_no_comma s.data f hf (trim_subset f comma hc)
  · intro hall
    rw [heq, trimmedFields, List.filter_eq_nil_iff]
    intro r hr
    obtain ⟨p, hp, rfl⟩ := List.mem_map.mp hr
    rw [stringsSplit] at hp
    obtain ⟨f, hf, rfl⟩ := List.mem_map.mp hp
    have hsp : ∀ c ∈ f, isSpace c = true := by
      intro c hc
      rcases hall c (splitFields_subset s.data f hf c hc) with h | h
      · rw [h] at hc
        exact absurd hc (splitFields_no_comma s.data f hf)
      · exact h
    have : stringsTrimSpace (String.mk f) = "" := by
      rw [stringsTrimSpace]
      show String.mk ((f.dropWhile isSpace).rdropWhile isSpace) = ""
      rw [trim_eq_nil_of_all_space f hsp]
    simp [this]

/-- C22, on an example: the fields of `" a, b c ,, ,d"` are `"a"`, `"b c"` and
`"d"`; the empty string and `" , ,"` give no element. -/
theorem splitCommaSeparated_examples :
    splitCommaSeparated " a, b c ,, ,d" = ["a", "b c", "d"] ∧
    splitCommaSeparated "" = [] ∧
    splitCommaSeparated " , ," = [] := by
  refine ⟨?_, ?_, ?_⟩ <;> decide

theorem splitCommaSeparated_spec_witness :
    (∀ c ∈ " , ,".data, c = comma ∨ isSpace c = true) ∧ splitCommaSeparated " , ," = [] :=
  ⟨by decide, (splitCommaSeparated_spec " , ,").2.2.2.2 (by decide)⟩

/-! ## Facts about `processCookieAuth` -/

/-- C23: `processCookieAuth` returns the error "only one authentication
method" whenever more than one of basic auth (user name and password both
non-empty), cookie file and cookie string is configured, and the error
"authentication required" whenever none is; only when exactly one is configured
does it reach the loading of the cookies, where basic auth alone is accepted
with the cookies untouched, a cookie file alone is loaded and a cookie string
alone is parsed; it never succeeds with another number of methods. -/
theorem processCookieAuth_spec (W : AuthWorld) (i : AuthInput)
    (cookies0 : List (String × String)) :
    (1 < authMethods i → processCookieAuth W i cookies0 = .error .onlyOneMethod) ∧
    (authMethods i = 0 → processCookieAuth W i cookies0 = .error .authenticationRequired) ∧
    (authMethods i = 1 →
      (i.cookieFile = "" → i.cookieString = "" → processCookieAuth W i cookies0 = .ok cookies0) ∧
      (i.cookieFile ≠ "" →
        processCookieAuth W i cookies0 = processCookieFile W i.cookieFile cookies0) ∧
      (i.cookieString ≠ "" →
        processCookieAuth W i cookies0 = processCookieString W i.cookieString cookies0)) ∧
    (∀ cookies, processCookieAuth W i cookies0 = .ok cookies → authMethods i = 1) ∧
    (processCookieAuth W i cookies0 ≠ .error .onlyOneMethod →
      processCookieAuth W i cookies0 ≠ .error .authenticationRequired → authMethods i = 1) := by
  have hcount : authMethods i = 1 →
      (i.cookieFile ≠ "" → i.cookieString = "") ∧ (i.cookieString ≠ "" → i.cookieFile = "") := by
    intro h1
    unfold authMethods at h1
    constructor
    · intro hf
      by_contra hs
      rw [if_pos hf, if_pos hs] at h1
      omega
    · intro hs
      by_contra hf
      rw [if_pos hf, if_pos hs] at h1
      omega
  have hone : authMethods i = 1 → processCookieAuth W i cookies0 =
      match processCookieFile W i.cookieFile cookies0 with
      | .error e => .error e
      | .ok cookies1 => processCookieString W i.cookieString cookies1 := by
    intro h1
    rw [processCookieAuth, if_neg (by omega), if_neg (by omega)]
  refine ⟨?_, ?_, ?_, ?_, ?_⟩
  · intro h
    rw [processCookieAuth, if_pos h]
  · intro h
    rw [processCookieAuth, if_neg (by omega), if_pos h]
  · intro h1
    refine ⟨?_, ?_, ?_⟩
    · intro hf hs
      rw [hone h1, hf, hs]
      rfl
    · intro hf
      have hs := (hcount h1).1 hf
      rw [hone h1, hs]
      cases processCookieFile W i.cookieFile cookies0 <;> rfl
    · intro hs
      have hf := (hcount h1).2 hs
      rw [hone h1, hf]
      rfl
  · intro cookies hok
    by_contra hne
    rw [processCookieAuth] at hok
    by_cases h : authMethods i > 1
    · rw [if_pos h] at hok; cases hok
    · rw [if_neg h, if_pos (by omega)] at hok; cases hok
  · intro hA hB
    by_contra hne
    by_cases h : authMethods i > 1
    · exact hA (by rw [processCookieAuth, if_pos h])
    · exact hB (by rw [processCookieAuth, if_neg h, if_pos (by omega)])

theorem processCookieAuth_spec_witness :
    1 < authMethods ⟨"u", "p", "cookies.txt", "", "", ""⟩ ∧
    processCookieAuth ⟨fun _ => false, fun _ => some [("sid", "1")], fun _ => []⟩
      ⟨"u", "p", "cookies.txt", "", "", ""⟩ [] = .error .onlyOneMethod :=
  ⟨by decide, (processCookieAuth_spec ⟨fun _ => false, fun _ => some [("sid", "1")], fun _ => []⟩
    ⟨"u", "p", "cookies.txt", "", "", ""⟩ []).1 (by decide)⟩

/-- C23, on examples: a user name without password does not count as a method;
with the cookie string from viper alone the cookies are the parsed ones; with
nothing configured the call fails. -/
theorem processCookieAuth_examples :
    processCookieAuth ⟨fun _ => false, fun _ => none, fun _ => [("sid", "1")]⟩
      ⟨"u", "", "", "", "", "sid=1"⟩ [] = .ok [("sid", "1")] ∧
    processCookieAuth ⟨fun _ => false, fun _ => none, fun _ => []⟩
      ⟨"u", "", "", "", "", ""⟩ [] = .error .authenticationRequired ∧
    processCookieAuth ⟨fun _ => false, fun _ => none, fun _ => []⟩
      ⟨"u", "p", "", "", "", ""⟩ [("old", "1")] = .ok [("old", "1")] := by
  refine ⟨?_, ?_, ?_⟩ <;> rfl

/-! ## Facts about `parseServerArgs` -/

theorem argSwitch_Password (sys : SystemConfig) (arg val : String) :
    (argSwitch sys arg val).Password = sys.Password := by
  unfold argSwitch
  repeat' split
  all_goals rfl

theorem pairLoop_Password (sys : SystemConfig) (l : List String) :
    (pairLoop sys l).Password = sys.Password := by
  induction l generalizing sys with
  | nil => rfl
  | cons a rest ih =>
    cases rest with
    | nil => rfl
    | cons b rest2 =>
      rw [pairLoop, ih, argSwitch_Password]

theorem flagLoop_Password (sys : SystemConfig) (l : List String) :
    (flagLoop sys l).Password = sys.Password := by
  induction l generalizing sys with
  | nil => rfl
  | cons a rest ih =>
    rw [flagLoop, ih]
    repeat' split
    all_goals rfl

theorem flagLoop_Client (sys : SystemConfig) (l : List String) :
    (flagLoop sys l).Client = sys.Client := by
  induction l generalizing sys with
  | nil => rfl
  | cons a rest ih =>
    rw [flagLoop, ih]
    repeat' split
    all_goals rfl

theorem envURL_fields (sys : SystemConfig) (env : List (String × GoValue)) :
    (envURL sys env).Password = sys.Password ∧ (envURL sys env).Client = sys.Client := by
  unfold envURL
  repeat' split
  all_goals exact ⟨rfl, rfl⟩

theorem envUser_fields (sys : SystemConfig) (env : List (String × GoValue)) :
    (envUser sys env).Password = sys.Password ∧ (envUser sys env).Client = sys.Client := by
  unfold envUser
  repeat' split
  all_goals exact ⟨rfl, rfl⟩

theorem envPassword_Client (sys : SystemConfig) (env : List (String × GoValue)) :
    (envPassword sys env).Client = sys.Client := by
  unfold envPassword
  repeat' split
  all_goals rfl

theorem envClient_Password (sys : SystemConfig) (env : List (String × GoValue)) :
    (envClient sys env).Password = sys.Password := by
  unfold envClient
  repeat' split
  all_goals rfl

theorem envLanguage_fields (sys : SystemConfig) (env : List (String × GoValue)) :
    (envLanguage sys env).Password = sys.Password ∧
      (envLanguage sys env).Client = sys.Client := by
  unfold envLanguage
  repeat' split
  all_goals exact ⟨rfl, rfl⟩

theorem envInsecure_fields (sys : SystemConfig) (env : List (String × GoValue)) :
    (envInsecure sys env).Password = sys.Password ∧
      (envInsecure sys env).Client = sys.Client := by
  unfold envInsecure
  repeat' split
  all_goals exact ⟨rfl, rfl⟩

theorem envCookieFile_fields (sys : SystemConfig) (env : List (String × GoValue)) :
    (envCookieFile sys env).Password = sys.Password ∧
      (envCookieFile sys env).Client = sys.Client := by
  unfold envCookieFile
  repeat' split
  all_goals exact ⟨rfl, rfl⟩

theorem envCookieString_fields (sys : SystemConfig) (env : List (String × GoValue)) :
    (envCookieString sys env).Password = sys.Password ∧
      (envCookieString sys env).Client = sys.Client := by
  unfold envCookieString
  repeat' split
  all_goals exact ⟨rfl, rfl⟩

theorem envBlock_Password (sys : SystemConfig) (env : List (String × GoValue)) :
    (envBlock sys env).Password =
      match envString env "SAP_PASSWORD" with
      | some pwd => if realPassword pwd then pwd else sys.Password
      | none => sys.Password := by
  rw [envBlock, (envCookieString_fields _ _).1, (envCookieFile_fields _ _).1,
    (envInsecure_fields _ _).1, (envLanguage_fields _ _).1, envClient_Password]
  have h := (envUser_fields (envURL sys env) env).1
  rw [(envURL_fields sys env).1] at h
  unfold envPassword
  repeat' split
  all_goals first | exact h | rfl

theorem envBlock_Client (sys : SystemConfig) (env : List (String × GoValue)) :
    (envBlock sys env).Client =
      match envString env "SAP_CLIENT" with
      | some client => if client ≠ "" then client else sys.Client
      | none => sys.Client := by
  rw [envBlock, (envCookieString_fields _ _).2, (envCookieFile_fields _ _).2,
    (envInsecure_fields _ _).2, (envLanguage_fields _ _).2]
  have h : (envPassword (envUser (envURL sys env) env) env).Client = sys.Client := by
    rw [envPassword_Client, (envUser_fields _ _).2, (envURL_fields _ _).2]
  unfold envClient
  repeat' split
  all_goals first | exact h | rfl

theorem argSwitch_Client (sys : SystemConfig) (arg val : String) :
    (argSwitch sys arg val).Client = if arg = "--client" then val else sys.Client := by
  by_cases h : arg = "--client"
  · subst h
    rfl
  · rw [if_neg h]
    unfold argSwitch
    repeat' split
    all_goals rfl

theorem pairLoop_Client (sys : SystemConfig) (l : List String) :
    (pairLoop sys l).Client = (lastClientArg l).getD sys.Client := by
  induction l generalizing sys with
  | nil => rfl
  | cons a rest ih =>
    cases rest with
    | nil => rfl
    | cons b rest2 =>
      rw [pairLoop, ih, argSwitch_Client, lastClientArg]
      cases lastClientArg (b :: rest2) with
      | some c => rfl
      | none =>
        by_cases h : a = "--client"
        · simp [h]
        · simp [h]

theorem parseServerArgs_eq (sprintOther : GoValue → String)
    (serverMap : List (String × GoValue)) :
    parseServerArgs sprintOther serverMap =
      match assocGet strEq serverMap "env" with
      | some (.map env) =>
        envBlock (flagLoop (pairLoop ⟨"", "", "", "001", "EN", false, false, "", ""⟩
          (printedArgs sprintOther serverMap)) (printedArgs sprintOther serverMap)) env
      | _ =>
        flagLoop (pairLoop ⟨"", "", "", "001", "EN", false, false, "", ""⟩
          (printedArgs sprintOther serverMap)) (printedArgs sprintOther serverMap) := by
  unfold parseServerArgs printedArgs
  cases h : assocGet strEq serverMap "args" with
  | none => rfl
  | some v => cases v <;> rfl

theorem parseServerArgs_Password_eq (sprintOther : GoValue → String)
    (serverMap : List (String × GoValue)) :
    (parseServerArgs sprintOther serverMap).Password =
      match envEntry serverMap "SAP_PASSWORD" with
      | some pwd => if realPassword pwd then pwd else ""
      | none => "" := by
  have h0 : (flagLoop (pairLoop ⟨"", "", "", "001", "EN", false, false, "", ""⟩
      (printedArgs sprintOther serverMap)) (printedArgs sprintOther serverMap)).Password = "" := by
    rw [flagLoop_Password, pairLoop_Password]
  rw [parseServerArgs_eq, envEntry]
  cases h : assocGet strEq serverMap "env" with
  | none => exact h0
  | some v =>
    cases v with
    | map env =>
      show (envBlock _ env).Password = _
      rw [envBlock_Password, h0]
    | _ => exact h0

theorem parseServerArgs_Client_eq (sprintOther : GoValue → String)
    (serverMap : List (String × GoValue)) :
    (parseServerArgs sprintOther serverMap).Client =
      match envEntry serverMap "SAP_CLIENT" with
      | some client =>
        if client ≠ "" then client
        else (lastClientArg (printedArgs sprintOther serverMap)).getD "001"
      | none => (lastClientArg (printedArgs sprintOther serverMap)).getD "001" := by
  have h0 : (flagLoop (pairLoop ⟨"", "", "", "001", "EN", false, false, "", ""⟩
      (printedArgs sprintOther serverMap)) (printedArgs sprintOther serverMap)).Client =
      (lastClientArg (printedArgs sprintOther serverMap)).getD "001" := by
    rw [flagLoop_Client, pairLoop_Client]
  rw [parseServerArgs_eq, envEntry]
  cases h : assocGet strEq serverMap "env" with
  | none => exact h0
  | some v =>
    cases v with
    | map env =>
      show (envBlock _ env).Client = _
      rw [envBlock_Client, h0]
    | _ => exact h0

theorem realPassword_iff (pwd : String) :
    realPassword pwd = true ↔ pwd ≠ "" ∧ ¬ "YOUR_".data <+: pwd.data := by
  unfold realPassword
  simp only [Bool.and_eq_true, decide_eq_true_eq, Bool.not_eq_true', ← Bool.not_eq_true,
    List.isPrefixOf_iff_prefix]
  constructor
  · rintro ⟨⟨h1, -⟩, h3⟩
    exact ⟨h1, h3⟩
  · rintro ⟨h1, h3⟩
    refine ⟨⟨h1, ?_⟩, h3⟩
    rintro rfl
    exact h3 (by decide)

theorem envEntry_assocSet_args (serverMap : List (String × GoValue)) (v : GoValue)
    (key : String) :
    envEntry (assocSet strEq serverMap "args" v) key = envEntry serverMap key := by
  rw [envEntry, envEntry, assocGet_assocSet, if_neg (by decide)]

/-- C24: `parseServerArgs` sets `Password` to the string under `SAP_PASSWORD` in
the entry's `env` object exactly when that string is non-empty and does not
start with `"YOUR_"`; in every other case (no `env` object, no string under
`SAP_PASSWORD`, the empty string, a placeholder such as `"YOUR_PASSWORD_HERE"`)
`Password` stays empty; `args` has no influence on the password: whatever
stands under `args`, the password is the same. -/
theorem parseServerArgs_password (sprintOther : GoValue → String)
    (serverMap : List (String × GoValue)) :
    (∀ pwd, envEntry serverMap "SAP_PASSWORD" = some pwd → pwd ≠ "" →
      ¬ "YOUR_".data <+: pwd.data → (parseServerArgs sprintOther serverMap).Password = pwd) ∧
    ((∀ pwd, envEntry serverMap "SAP_PASSWORD" = some pwd →
        pwd = "" ∨ "YOUR_".data <+: pwd.data) →
      (parseServerArgs sprintOther serverMap).Password = "") ∧
    (envEntry serverMap "SAP_PASSWORD" = some "YOUR_PASSWORD_HERE" →
      (parseServerArgs sprintOther serverMap).Password = "") ∧
    (∀ v : GoValue, (parseServerArgs sprintOther (assocSet strEq serverMap "args" v)).Password =
      (parseServerArgs sprintOther serverMap).Password) := by
  have hno : (∀ pwd, envEntry serverMap "SAP_PASSWORD" = some pwd →
        pwd = "" ∨ "YOUR_".data <+: pwd.data) →
      (parseServerArgs sprintOther serverMap).Password = "" := by
    intro h
    rw [parseServerArgs_Password_eq]
    cases he : envEntry serverMap "SAP_PASSWORD" with
    | none => rfl
    | some pwd =>
      have hr : realPassword pwd = false := by
        rw [← Bool.not_eq_true, realPassword_iff]
        rintro ⟨h1, h2⟩
        rcases h pwd he with h3 | h3
        · exact h1 h3
        · exact h2 h3
      simp only [hr, Bool.false_eq_true, if_false]
  refine ⟨?_, hno, ?_, ?_⟩
  · intro pwd he h1 h2
    rw [parseServerArgs_Password_eq, he]
    simp only [(realPassword_iff pwd).mpr ⟨h1, h2⟩, if_true]
  · intro he
    apply hno
    intro pwd hp
    rw [he] at hp
    injection hp with hp
    subst hp
    right
    decide
  · intro v
    rw [parseServerArgs_Password_eq, parseServerArgs_Password_eq, envEntry_assocSet_args]

theorem parseServerArgs_password_witness :
    envEntry [("args", GoValue.slice [.string "--user", .string "dev", .string "--password",
        .string "secret"]), ("env", GoValue.map [("SAP_PASSWORD", .string "hunter2")])]
      "SAP_PASSWORD" = some "hunter2" ∧
    (parseServerArgs (fun _ => "")
      [("args", GoValue.slice [.string "--user", .string "dev", .string "--password",
        .string "secret"]), ("env", GoValue.map [("SAP_PASSWORD", .string "hunter2")])]).Password =
      "hunter2" :=
  ⟨rfl, (parseServerArgs_password (fun _ => "") _).1 "hunter2" rfl (by decide) (by decide)⟩

/-- C25: with `"--client", "100"` in `args` and `SAP_CLIENT` set to `"200"` in
`env`, `parseServerArgs` returns the client `"200"` and not the `"100"` of
`args`: the statement for `SAP_CLIENT` overwrites the value of the flag; with no
`"--client"` in `args` and the same `env`, it returns `"200"` and not the default
`"001"`. -/
theorem parseServerArgs_client_from_env :
    lastClientArg (printedArgs (fun _ => "")
      [("args", GoValue.slice [.string "--client", .string "100"]),
        ("env", GoValue.map [("SAP_CLIENT", .string "200")])]) = some "100" ∧
    (parseServerArgs (fun _ => "")
      [("args", GoValue.slice [.string "--client", .string "100"]),
        ("env", GoValue.map [("SAP_CLIENT", .string "200")])]).Client = "200" ∧
    lastClientArg (printedArgs (fun _ => "")
      [("args", GoValue.slice [.string "--url", .string "http://host"]),
        ("env", GoValue.map [("SAP_CLIENT", .string "200")])]) = none ∧
    (parseServerArgs (fun _ => "")
      [("args", GoValue.slice [.string "--url", .string "http://host"]),
        ("env", GoValue.map [("SAP_CLIENT", .string "200")])]).Client = "200" := by
  refine ⟨?_, ?_, ?_, ?_⟩ <;> rfl

/-- C25, the value of `Client` in every case: `parseServerArgs` returns as
`Client` the string under `SAP_CLIENT` in the entry's `env` object when that
string is non-empty, whatever `args` holds; when `env` gives no non-empty string
for `SAP_CLIENT`, `Client` is the value that follows the last `"--client"` of
`args` that has a successor, and the default `"001"` when `args` has no such
`"--client"`. -/
theorem parseServerArgs_client (sprintOther : GoValue → String)
    (serverMap : List (String × GoValue)) :
    (∀ client, envEntry serverMap "SAP_CLIENT" = some client → client ≠ "" →
      (parseServerArgs sprintOther serverMap).Client = client) ∧
    ((∀ client, envEntry serverMap "SAP_CLIENT" = some client → client = "") →
      (∀ c, lastClientArg (printedArgs sprintOther serverMap) = some c →
        (parseServerArgs sprintOther serverMap).Client = c) ∧
      (lastClientArg (printedArgs sprintOther serverMap) = none →
        (parseServerArgs sprintOther serverMap).Client = "001")) := by
  constructor
  · intro client he hne
    rw [parseServerArgs_Client_eq, he]
    simp only [ne_eq, hne, not_false_eq_true, if_true]
  · intro h
    have hc : (parseServerArgs sprintOther serverMap).Client =
        (lastClientArg (printedArgs sprintOther serverMap)).getD "001" := by
      rw [parseServerArgs_Client_eq]
      cases he : envEntry serverMap "SAP_CLIENT" with
      | none => rfl
      | some client =>
        have := h client he
        subst this
        rfl
    constructor
    · intro c hl
      rw [hc, hl]
      rfl
    · intro hl
      rw [hc, hl]
      rfl

theorem parseServerArgs_client_witness :
    (∀ client, envEntry [("args", GoValue.slice [.string "--client", .string "100",
        .string "--client", .string "300"])] "SAP_CLIENT" = some client → client = "") ∧
    lastClientArg (printedArgs (fun _ => "")
      [("args", GoValue.slice [.string "--client", .string "100", .string "--client",
        .string "300"])]) = some "300" ∧
    (parseServerArgs (fun _ => "")
      [("args", GoValue.slice [.string "--client", .string "100", .string "--client",
        .string "300"])]).Client = "300" :=
  ⟨fun _ h => (by cases h), rfl,
    ((parseServerArgs_client (fun _ => "") _).2 (fun _ h => (by cases h))).1 "300" rfl⟩

/-! ## Facts about `runConfigToolsInit` -/

theorem assocGet_foldSet_fun {β : Type} (f : String → β) (l : List String)
    (m0 : List (String × β)) (k : String) :
    assocGet strEq (l.foldl (fun m t => assocSet strEq m t (f t)) m0) k =
      if k ∈ l then some (f k) else assocGet strEq m0 k := by
  induction l generalizing m0 with
  | nil => simp
  | cons x xs ih =>
    rw [List.foldl_cons, ih, assocGet_assocSet]
    by_cases h1 : k ∈ xs
    · simp [h1]
    · by_cases h2 : x = k
      · subst h2
        simp
      · have h3 : ¬ k = x := fun e => h2 e.symm
        simp [h1, h2, h3]

theorem setHas_nameSet (names : List String) (tool : String) :
    setHas (nameSet names) tool = decide (tool ∈ names) := by
  rw [setHas, nameSet, assocGet_foldSet_fun (fun _ => true)]
  by_cases h : tool ∈ names
  · simp [h]
  · simp [h, assocGet]

theorem toolEnabled_eq_true (mode : String) (defaultDisabled focused : List String)
    (tool : String) :
    toolEnabled mode (nameSet defaultDisabled) (nameSet focused) tool = true ↔
      tool ∉ defaultDisabled ∧ (mode = "expert" ∨ tool ∈ focused) := by
  rw [toolEnabled, setHas_nameSet, setHas_nameSet]
  by_cases h1 : tool ∈ defaultDisabled
  · simp [h1]
  · by_cases h2 : mode = "expert"
    · simp [h1, h2]
    · simp [h1, h2]

theorem toolsLoop_spec (mode : String) (ds fs : List (String × Bool)) (l : List String)
    (r : ToolsInit) :
    (l.foldl (toolsStep mode ds fs) r).Tools =
      l.foldl (fun m t => assocSet strEq m t (toolEnabled mode ds fs t)) r.Tools ∧
    (l.foldl (toolsStep mode ds fs) r).enabledCount =
      r.enabledCount + (l.filter (fun t => toolEnabled mode ds fs t)).length ∧
    (l.foldl (toolsStep mode ds fs) r).disabledCount =
      r.disabledCount + (l.filter (fun t => !toolEnabled mode ds fs t)).length := by
  induction l generalizing r with
  | nil => simp
  | cons x xs ih =>
    rw [List.foldl_cons]
    obtain ⟨h1, h2, h3⟩ := ih (toolsStep mode ds fs r x)
    rw [h1, h2, h3]
    refine ⟨rfl, ?_, ?_⟩
    · by_cases h : toolEnabled mode ds fs x = true
      · simp [toolsStep, h, List.filter_cons]
        omega
      · simp [toolsStep, h, List.filter_cons]
    · by_cases h : toolEnabled mode ds fs x = true
      · simp [toolsStep, h, List.filter_cons]
      · simp [toolsStep, h, List.filter_cons]
        omega

theorem runConfigToolsInit_get (mode : String) (defaultDisabled : List String)
    (tool : String) :
    assocGet strEq (runConfigToolsInit mode defaultDisabled).Tools tool =
      if tool ∈ GetAllToolNames then
        some (toolEnabled mode (nameSet defaultDisabled) (nameSet GetFocusedToolNames) tool)
      else none := by
  rw [runConfigToolsInit, (toolsLoop_spec _ _ _ _ _).1,
    assocGet_foldSet_fun (toolEnabled mode (nameSet defaultDisabled) (nameSet GetFocusedToolNames))]
  rfl

theorem filter_length_add {α : Type} (p : α → Bool) (l : List α) :
    (l.filter p).length + (l.filter (fun t => !p t)).length = l.length := by
  induction l with
  | nil => rfl
  | cons x xs ih =>
    by_cases h : p x = true
    · simp [List.filter_cons, h]
      omega
    · simp [List.filter_cons, h]
      omega

theorem runQuery_not_listed : "RunQuery" ∉ GetAllToolNames := by
  decide

theorem runQuery_focused : "RunQuery" ∈ GetFocusedToolNames := by
  decide

/-- C26: in the tools map written by `runConfigToolsInit` the keys are exactly
the names of `GetAllToolNames`; a name is written as enabled exactly when it is
in `GetAllToolNames`, is not default-disabled and, unless the mode is
`"expert"`, is in `GetFocusedToolNames`; every other name of `GetAllToolNames` is
written as disabled, and the two counts add up to the number of names in
`GetAllToolNames`.  In expert mode the enabled names are thus the names of
`GetAllToolNames` that are not default-disabled.  In focused mode they are not
all the names of `GetFocusedToolNames` that are not default-disabled:
`"RunQuery"` is in `GetFocusedToolNames` and not in `GetAllToolNames`, so it is
never written, enabled or disabled. -/
theorem runConfigToolsInit_spec (mode : String) (defaultDisabled : List String) :
    (∀ tool, assocGet strEq (runConfigToolsInit mode defaultDisabled).Tools tool = some true ↔
      tool ∈ GetAllToolNames ∧ tool ∉ defaultDisabled ∧
        (mode = "expert" ∨ tool ∈ GetFocusedToolNames)) ∧
    (∀ tool, assocGet strEq (runConfigToolsInit mode defaultDisabled).Tools tool = some false ↔
      tool ∈ GetAllToolNames ∧
        ¬ (tool ∉ defaultDisabled ∧ (mode = "expert" ∨ tool ∈ GetFocusedToolNames))) ∧
    (∀ tool, assocGet strEq (runConfigToolsInit mode defaultDisabled).Tools tool = none ↔
      tool ∉ GetAllToolNames) ∧
    (runConfigToolsInit mode defaultDisabled).enabledCount +
      (runConfigToolsInit mode defaultDisabled).disabledCount = GetAllToolNames.length ∧
    ("RunQuery" ∈ GetFocusedToolNames ∧
      assocGet strEq (runConfigToolsInit mode defaultDisabled).Tools "RunQuery" = none) := by
  have hget := runConfigToolsInit_get mode defaultDisabled
  have hen := toolEnabled_eq_true mode defaultDisabled GetFocusedToolNames
  refine ⟨?_, ?_, ?_, ?_, runQuery_focused, ?_⟩
  · intro tool
    rw [hget]
    by_cases h : tool ∈ GetAllToolNames
    · rw [if_pos h, Option.some.injEq, hen]
      exact ⟨fun h2 => ⟨h, h2⟩, fun h2 => h2.2⟩
    · rw [if_neg h]
      exact ⟨fun h2 => (by cases h2), fun h2 => absurd h2.1 h⟩
  · intro tool
    rw [hget]
    by_cases h : tool ∈ GetAllToolNames
    · rw [if_pos h, Option.some.injEq, ← hen, Bool.not_eq_true]
      exact ⟨fun h2 => ⟨h, h2⟩, fun h2 => h2.2⟩
    · rw [if_neg h]
      exact ⟨fun h2 => (by cases h2), fun h2 => absurd h2.1 h⟩
  · intro tool
    rw [hget]
    by_cases h : tool ∈ GetAllToolNames
    · rw [if_pos h]
      exact ⟨fun h2 => (by cases h2), fun h2 => absurd h h2⟩
    · rw [if_neg h]
      exact ⟨fun _ => h, fun _ => rfl⟩
  · rw [runConfigToolsInit, (toolsLoop_spec _ _ _ _ _).2.1, (toolsLoop_spec _ _ _ _ _).2.2]
    have := filter_length_add
      (toolEnabled mode (nameSet defaultDisabled) (nameSet GetFocusedToolNames)) GetAllToolNames
    simp only [Nat.zero_add]
    exact this
  · rw [hget, if_neg runQuery_not_listed]

set_option maxRecDepth 1000000 in
/-- C26, evaluated: with nothing default-disabled, focused mode enables 45 of
the 46 names of `GetFocusedToolNames` and writes 123 entries. -/
theorem runConfigToolsInit_focused_counts :
    GetFocusedToolNames.length = 46 ∧ GetAllToolNames.length = 123 ∧
    (runConfigToolsInit "focused" []).enabledCount = 45 ∧
    (runConfigToolsInit "focused" []).disabledCount = 78 ∧
    (runConfigToolsInit "focused" []).Tools.length = 123 := by
  refine ⟨rfl, rfl, ?_, ?_, ?_⟩ <;> decide

/-! ## Facts about the gate at the end of the script -/

theorem Gate.runEvents_eq_run (g : Gate) (es : List GateEvent) :
    g.runEvents es = g.run (es.filterMap GateEvent.selectCase) := by
  induction es generalizing g with
  | nil => rfl
  | cons e rest ih =>
    cases e with
    | ready c =>
      rw [Gate.runEvents, List.foldl_cons]
      exact ih (g.step c)
    | scriptFinished =>
      rw [Gate.runEvents, List.foldl_cons]
      exact ih g

theorem filterMap_selectCase_of_finished (es : List GateEvent)
    (h : ∀ e ∈ es, e = GateEvent.scriptFinished) :
    es.filterMap GateEvent.selectCase = [] := by
  rw [List.filterMap_eq_nil_iff]
  intro e he
  rw [h e he]
  rfl

theorem timeoutDuration_10 (a : Arch) :
    timeoutDuration a (Float64.fin 10) = 10000000000 := by
  have hprod : (10 : ℚ) * 1000000000 = 10000000000 := by norm_num
  have hlog : Int.log 2 |(10000000000 : ℚ)| = 33 := by
    rw [abs_of_pos (by norm_num)]
    apply intLog_eq_of_bounds
    · norm_num
    · norm_num
  have hscaled : |(10000000000 : ℚ)| / (2 : ℚ) ^ (-19 : ℤ) =
      ((5242880000000000 : ℤ) : ℚ) := by
    rw [abs_of_pos (by norm_num)]
    norm_num
  have hof : Float64.ofRat 10000000000 = Float64.fin 10000000000 := by
    unfold Float64.ofRat
    rw [if_neg (by norm_num)]
    simp only [hlog]
    have he : max ((33 : ℤ) - 52) (-1074) = -19 := by decide
    rw [he, hscaled, roundHalfEven_intCast]
    rw [if_neg (by norm_num)]
    rw [if_neg (by norm_num)]
    congr 1
    norm_num
  unfold timeoutDuration
  simp only [Float64.mul, hprod, hof]
  have hc : (10000000000 : ℚ) = ((10000000000 : ℤ) : ℚ) := by norm_num
  rw [hc]
  cases a <;> simp only [Float64.toInt64, truncQ_intCast] <;>
    simp [minInt64, maxInt64]

/-- C21 (as stated, refuted): for `seconds = 10` the timer is set to
`10000000000` nanoseconds; when the script returns one second after the call and
`ctx` is not cancelled, the watcher goroutine is still blocked in its `select`,
`ch` is not closed, and the timer is still not ready at any moment before the ten
seconds have passed: the wake-up stays scheduled until the configured duration
expires. -/
theorem contextWithTimeout_script_finished_early :
    timeoutDuration Arch.amd64 (Float64.fin 10) = 10000000000 ∧
    timeAfterReady (timeoutDuration Arch.amd64 (Float64.fin 10)) 1000000000 = false ∧
    (contextWithTimeout.runEvents [GateEvent.scriptFinished]).blocked = true ∧
    (contextWithTimeout.runEvents [GateEvent.scriptFinished]).closes = 0 ∧
    (∀ elapsed : ℕ, 1000000000 ≤ elapsed → elapsed < 10000000000 →
      timeAfterReady (timeoutDuration Arch.amd64 (Float64.fin 10)) elapsed = false) := by
  rw [timeoutDuration_10]
  refine ⟨rfl, by decide, rfl, rfl, ?_⟩
  intro elapsed _ h2
  simp only [timeAfterReady, decide_eq_false_iff_not, not_le]
  exact_mod_cast h2

/-- C21 (amended): the return of the script releases nothing.  The gate after
any events is the gate after the `select` cases among them; as long as the script
has returned but no case is ready (the timer is not ready before its duration
`d` has elapsed), the watcher goroutine stays blocked and `ch` open; it is the
expiry of the timer (or the cancellation of `ctx`) that closes `ch`, once, and
ends the goroutine, also after the script has returned. -/
theorem contextWithTimeout_script_finished (es : List GateEvent) (d : ℤ) :
    contextWithTimeout.runEvents es =
      contextWithTimeout.run (es.filterMap GateEvent.selectCase) ∧
    ((∀ e ∈ es, e = GateEvent.scriptFinished) →
      (contextWithTimeout.runEvents es).blocked = true ∧
      (contextWithTimeout.runEvents es).closes = 0 ∧
      ∀ (c : SelectCase) (rest : List GateEvent),
        contextWithTimeout.runEvents (es ++ GateEvent.ready c :: rest) = ⟨false, 1, 0⟩) ∧
    (∀ elapsed : ℕ, (elapsed : ℤ) < d → timeAfterReady d elapsed = false) := by
  refine ⟨Gate.runEvents_eq_run _ es, ?_, ?_⟩
  · intro h
    have hnil := filterMap_selectCase_of_finished es h
    refine ⟨?_, ?_, ?_⟩
    · rw [Gate.runEvents_eq_run, hnil]; rfl
    · rw [Gate.runEvents_eq_run, hnil]; rfl
    · intro c rest
      rw [Gate.runEvents_eq_run, List.filterMap_append, hnil, List.nil_append,
        List.filterMap_cons]
      exact contextWithTimeout_run_cons c _
  · intro elapsed h
    simp only [timeAfterReady, decide_eq_false_iff_not, not_le]
    exact h

theorem contextWithTimeout_script_finished_witness :
    (∀ e ∈ [GateEvent.scriptFinished], e = GateEvent.scriptFinished) ∧
    (contextWithTimeout.runEvents [GateEvent.scriptFinished]).blocked = true ∧
    (contextWithTimeout.runEvents [GateEvent.scriptFinished]).closes = 0 ∧
    ∀ (c : SelectCase) (rest : List GateEvent),
      contextWithTimeout.runEvents ([GateEvent.scriptFinished] ++ GateEvent.ready c :: rest) =
        ⟨false, 1, 0⟩ :=
  have h : ∀ e ∈ [GateEvent.scriptFinished], e = GateEvent.scriptFinished :=
    fun _ he => List.mem_singleton.mp he
  ⟨h, (contextWithTimeout_script_finished [GateEvent.scriptFinished] 10000000000).2.1 h⟩

end Scripting
